import Mathlib

/-!
Verification of the skynet-portal-rename tool (main.go).

The Go source is shallowly embedded as follows.

Strings: Go strings are modelled as `List Char`.  The program only ever
builds paths from ASCII names, so character lists are a faithful model.
The relevant Go library functions are ported:

* `strings.Split(s, "/")`  becomes `splitSlash`
* `strings.TrimPrefix(s, "/")` becomes `trimSlash`
* `filepath.Split` becomes `goSplit`
* `filepath.Clean` becomes `goClean` (the documented lexical algorithm:
  collapse separator runs, drop "." elements, resolve ".." elements,
  with the rooted/relative distinction)
* `hex.EncodeToString` becomes `hexEncode` (lowercase hex digits)

Slicing `b[i:j]` is modelled by `goSlice`; for in-range indices it agrees
with Go, out of range Go would stop the program, while `goSlice` truncates
(theorems only ever instantiate it in range, except where the truncation
itself is the subject of a counterexample and agrees with Go because the
indices are still in range there).

`dirDepth` and `dirLength` are compile-time constants 3 and 2 in the
source; the spec quantifies over configurations, so the classifier and
generator take them as explicit parameters and `dirDepth₀`/`dirLength₀`
denote the shipped values.
-/

namespace PortalRename

/-- Go strings.Split(s, "/"): split a character list at every slash,
keeping empty fields, never returning an empty list of fields. -/
def splitSlash : List Char → List (List Char)
  | [] => [[]]
  | c :: rest =>
    match splitSlash rest with
    | [] => [[]]
    | s :: ss => if c = '/' then [] :: s :: ss else (c :: s) :: ss

/-- Join fields with a slash separator; left inverse of `splitSlash`
for slash-free fields. -/
def joinSlash : List (List Char) → List Char
  | [] => []
  | [s] => s
  | s :: rest => s ++ '/' :: joinSlash rest

/-- One step of filepath.Clean element processing: skip empty elements
(separator runs) and "." elements, resolve ".." elements against the
output stack (a ".." at the start of a rooted path is dropped, at the
start of a relative path it is kept). -/
def cleanStep (rooted : Bool) (acc : List (List Char)) (seg : List Char) : List (List Char) :=
  if seg = [] then acc
  else if seg = ['.'] then acc
  else if seg = ['.', '.'] then
    match acc.getLast? with
    | some t => if t = ['.', '.'] then acc ++ [seg] else acc.dropLast
    | none => if rooted then acc else acc ++ [seg]
  else acc ++ [seg]

/-- Element processing of filepath.Clean followed by reassembly: an
emptied relative path becomes ".", an emptied rooted path becomes "/",
otherwise the surviving fields are rejoined (with the root restored). -/
def goCleanAux (rooted : Bool) (s : List Char) : List Char :=
  match (splitSlash s).foldl (cleanStep rooted) [] with
  | [] => if rooted then ['/'] else ['.']
  | seg :: rest => (if rooted then ['/'] else []) ++ joinSlash (seg :: rest)

/-- Go filepath.Clean for slash-separated paths: lexical normalization
(collapse separator runs, drop ".", resolve "..", keep rooting, return
"." for an emptied relative path and "/" for an emptied rooted path). -/
def goClean (s : List Char) : List Char :=
  if s = [] then ['.']
  else goCleanAux (decide (s.head? = some '/')) s

/-- Go filepath.Split: split after the final slash into (dir, file);
the dir part keeps its trailing slash. -/
def goSplit : List Char → List Char × List Char
  | [] => ([], [])
  | c :: rest =>
    if '/' ∈ rest then
      ((c :: (goSplit rest).1), (goSplit rest).2)
    else if c = '/' then ([c], rest)
    else ([], c :: rest)

/-- Go strings.TrimPrefix(s, "/"). -/
def trimSlash (s : List Char) : List Char :=
  match s with
  | [] => []
  | c :: rest => if c = '/' then rest else c :: rest

/-- The shipped configuration constants from main.go. -/
def dirDepth₀ : Nat := 3

/-- The shipped configuration constants from main.go. -/
def dirLength₀ : Nat := 2

/-- validDirStructure from main.go, with the two configuration constants
as explicit parameters.  Directory mode (empty final segment): clean,
strip one leading slash, split, and demand exactly dd fields of length
dl each.  File mode: same normalization of the whole path, exactly
dd + 1 fields, the first dd of length dl (the filename is
unconstrained: the Go loop breaks at index dd, hence `take dd`). -/
def validDirStructure (dd dl : Nat) (path : List Char) : Bool :=
  let df := goSplit path
  if df.2 = [] then
    let p := trimSlash (goClean df.1)
    let elements := splitSlash p
    if elements.length ≠ dd then false
    else elements.all (fun el => el.length = dl)
  else
    let p := trimSlash (goClean path)
    let elements := splitSlash p
    if elements.length ≠ dd + 1 then false
    else (elements.take dd).all (fun el => el.length = dl)

/-- Go slice b[i:j] (in range; see the header comment). -/
def goSlice (b : List Char) (i j : Nat) : List Char := (b.drop i).take (j - i)

/-- randomName from main.go over an already hex-encoded block `b`:
the first dd slices of length dl joined by slashes, then a slash and
the remainder of the block.  The Go loop special-cases i = 0. -/
def randomName (dd dl : Nat) (b : List Char) : List Char :=
  let str := (List.range dd).foldl
    (fun str i =>
      if i = 0 then goSlice b 0 dl
      else str ++ '/' :: goSlice b (dl * i) (dl * (i + 1)))
    []
  str ++ '/' :: b.drop (dl * dd)

/-- Lowercase hexadecimal digit for a value below 16. -/
def hexDigit (n : Nat) : Char :=
  if n < 10 then Char.ofNat ('0'.toNat + n) else Char.ofNat ('a'.toNat + (n - 10))

/-- Go hex.EncodeToString over a byte list: two lowercase hex digits per
byte. -/
def hexEncode (bytes : List Nat) : List Char :=
  (bytes.map (fun x => [hexDigit (x / 16 % 16), hexDigit (x % 16)])).flatten

/-! Basic facts about the string helpers. -/

theorem splitSlash_ne_nil (s : List Char) : splitSlash s ≠ [] := by
  cases s with
  | nil => simp [splitSlash]
  | cons c rest =>
    simp only [splitSlash]
    cases h : splitSlash rest with
    | nil => simp
    | cons a as => by_cases hc : c = '/' <;> simp [hc]

theorem splitSlash_no_slash (s : List Char) (h : '/' ∉ s) : splitSlash s = [s] := by
  induction s with
  | nil => rfl
  | cons c rest ih =>
    have hc : c ≠ '/' := fun hc => h (by simp [hc])
    have hr : '/' ∉ rest := fun hr => h (by simp [hr])
    simp only [splitSlash, ih hr]
    simp [hc]

theorem splitSlash_append_slash (s t : List Char) (h : '/' ∉ s) :
    splitSlash (s ++ '/' :: t) = s :: splitSlash t := by
  induction s with
  | nil =>
    simp only [List.nil_append, splitSlash]
    cases ht : splitSlash t with
    | nil => exact absurd ht (splitSlash_ne_nil t)
    | cons a as => simp
  | cons c rest ih =>
    have hc : c ≠ '/' := fun hc => h (by simp [hc])
    have hr : '/' ∉ rest := fun hr => h (by simp [hr])
    simp only [List.cons_append, splitSlash, List.append_eq]
    rw [ih hr]
    simp [hc]

theorem splitSlash_slash_cons (t : List Char) :
    splitSlash ('/' :: t) = [] :: splitSlash t := by
  simpa using splitSlash_append_slash [] t (by simp)

theorem joinSlash_cons (s : List Char) (rest : List (List Char)) (h : rest ≠ []) :
    joinSlash (s :: rest) = s ++ '/' :: joinSlash rest := by
  cases rest with
  | nil => exact absurd rfl h
  | cons a as => rfl

theorem joinSlash_concat (xs : List (List Char)) (y : List Char) (h : xs ≠ []) :
    joinSlash (xs ++ [y]) = joinSlash xs ++ '/' :: y := by
  induction xs with
  | nil => exact absurd rfl h
  | cons a as ih =>
    cases as with
    | nil => rfl
    | cons b bs =>
      rw [List.cons_append, joinSlash_cons a ((b :: bs) ++ [y]) (by simp),
        joinSlash_cons a (b :: bs) (by simp), ih (by simp)]
      simp

theorem splitSlash_joinSlash (segs : List (List Char)) (h : segs ≠ [])
    (hs : ∀ seg ∈ segs, '/' ∉ seg) :
    splitSlash (joinSlash segs) = segs := by
  induction segs with
  | nil => exact absurd rfl h
  | cons s rest ih =>
    cases rest with
    | nil => exact splitSlash_no_slash s (hs s (by simp))
    | cons b bs =>
      rw [joinSlash_cons s (b :: bs) (by simp),
        splitSlash_append_slash s (joinSlash (b :: bs)) (hs s (by simp)),
        ih (by simp) (fun seg hseg => hs seg (by simp [hseg]))]

/-- A field that is nonempty, slash-free and not a dot element passes
through the Clean element processing untouched. -/
def normalSeg (seg : List Char) : Prop :=
  seg ≠ [] ∧ '/' ∉ seg ∧ seg ≠ ['.'] ∧ seg ≠ ['.', '.']

theorem cleanStep_normal (rooted : Bool) (acc : List (List Char)) (seg : List Char)
    (h : normalSeg seg) : cleanStep rooted acc seg = acc ++ [seg] := by
  obtain ⟨h1, _, h3, h4⟩ := h
  simp [cleanStep, h1, h3, h4]

theorem foldl_cleanStep_normal (rooted : Bool) (segs : List (List Char))
    (hs : ∀ seg ∈ segs, normalSeg seg) (acc : List (List Char)) :
    segs.foldl (cleanStep rooted) acc = acc ++ segs := by
  induction segs generalizing acc with
  | nil => simp
  | cons s rest ih =>
    rw [List.foldl_cons, cleanStep_normal rooted acc s (hs s (by simp)),
      ih (fun seg hseg => hs seg (by simp [hseg]))]
    simp

theorem joinSlash_head? (s : List Char) (rest : List (List Char)) (h : s ≠ []) :
    (joinSlash (s :: rest)).head? = s.head? := by
  cases rest with
  | nil => rfl
  | cons b bs =>
    rw [joinSlash_cons s (b :: bs) (by simp)]
    cases s with
    | nil => exact absurd rfl h
    | cons c cs => rfl

theorem joinSlash_ne_nil (s : List Char) (rest : List (List Char)) (h : s ≠ []) :
    joinSlash (s :: rest) ≠ [] := by
  intro hj
  have := joinSlash_head? s rest h
  rw [hj] at this
  cases s with
  | nil => exact h rfl
  | cons c cs => simp at this

theorem joinSlash_getLast? (segs : List (List Char)) (h : segs ≠ [])
    (hlast : ∀ seg ∈ segs, seg ≠ []) :
    (joinSlash segs).getLast? = (segs.getLast h).getLast? := by
  induction segs with
  | nil => exact absurd rfl h
  | cons s rest ih =>
    cases rest with
    | nil => simp [joinSlash]
    | cons b bs =>
      rw [joinSlash_cons s (b :: bs) (by simp)]
      have hj : joinSlash (b :: bs) ≠ [] := joinSlash_ne_nil b bs (hlast b (by simp))
      rw [List.getLast?_append_of_ne_nil s (by simp), List.getLast_cons (by simp)]
      calc ('/' :: joinSlash (b :: bs)).getLast? = (joinSlash (b :: bs)).getLast? := by
            cases hjb : joinSlash (b :: bs) with
            | nil => exact absurd hjb hj
            | cons x xs => simp
        _ = ((b :: bs).getLast (by simp)).getLast? :=
            ih (by simp) (fun seg hseg => hlast seg (by simp [hseg]))

theorem goSplit_snd_ne_nil (s : List Char) (c : Char) (hl : s.getLast? = some c)
    (hc : c ≠ '/') : (goSplit s).2 ≠ [] := by
  induction s with
  | nil => simp at hl
  | cons a rest ih =>
    by_cases hr : '/' ∈ rest
    · have hrest : rest ≠ [] := by rintro rfl; simp at hr
      have hl2 : rest.getLast? = some c := by
        cases rest with
        | nil => exact absurd rfl hrest
        | cons x xs => simpa using hl
      simpa [goSplit, hr] using ih hl2
    · by_cases ha : a = '/'
      · subst ha
        cases rest with
        | nil =>
          simp only [List.getLast?_singleton, Option.some.injEq] at hl
          exact absurd hl.symm hc
        | cons x xs => simp [goSplit, hr]
      · simp [goSplit, hr, ha]

theorem trimSlash_no_slash (s : List Char) (h : s.head? ≠ some '/') :
    trimSlash s = s := by
  cases s with
  | nil => rfl
  | cons c cs =>
    have hc : c ≠ '/' := by
      intro hcc
      exact h (by simp [hcc])
    simp [trimSlash, hc]

theorem trimSlash_slash (s : List Char) : trimSlash ('/' :: s) = s := by
  simp [trimSlash]

/-! goClean leaves a path whose fields are all normal untouched. -/

theorem goClean_join_rel (segs : List (List Char)) (h : segs ≠ [])
    (hs : ∀ seg ∈ segs, normalSeg seg) :
    goClean (joinSlash segs) = joinSlash segs := by
  obtain ⟨s, rest, rfl⟩ : ∃ s rest, segs = s :: rest := by
    cases segs with
    | nil => exact absurd rfl h
    | cons s rest => exact ⟨s, rest, rfl⟩
  have hs0 : normalSeg s := hs s (by simp)
  have hne : joinSlash (s :: rest) ≠ [] := joinSlash_ne_nil s rest hs0.1
  have hhead : (joinSlash (s :: rest)).head? ≠ some '/' := by
    rw [joinSlash_head? s rest hs0.1]
    intro hcon
    cases s with
    | nil => exact hs0.1 rfl
    | cons c cs =>
      have hc : c = '/' := by simpa using hcon
      exact hs0.2.1 (by simp [hc])
  rw [goClean, if_neg hne, decide_eq_false hhead, goCleanAux,
    splitSlash_joinSlash (s :: rest) (by simp) (fun seg hseg => (hs seg hseg).2.1),
    foldl_cleanStep_normal false (s :: rest) hs []]
  simp

theorem goClean_join_rooted (segs : List (List Char)) (h : segs ≠ [])
    (hs : ∀ seg ∈ segs, normalSeg seg) :
    goClean ('/' :: joinSlash segs) = '/' :: joinSlash segs := by
  obtain ⟨s, rest, rfl⟩ : ∃ s rest, segs = s :: rest := by
    cases segs with
    | nil => exact absurd rfl h
    | cons s rest => exact ⟨s, rest, rfl⟩
  rw [goClean, if_neg (by simp), decide_eq_true (by simp), goCleanAux,
    splitSlash_slash_cons,
    splitSlash_joinSlash (s :: rest) (by simp) (fun seg hseg => (hs seg hseg).2.1)]
  have hstep : cleanStep true [] [] = [] := by simp [cleanStep]
  rw [List.foldl_cons, hstep, foldl_cleanStep_normal true (s :: rest) hs []]
  simp

/-- Central correctness lemma for the file-mode classifier: a path made
of dd + 1 normal fields, the first dd of which have length dl, is
classified as valid, with or without a leading slash. -/
theorem validDirStructure_join (dd dl : Nat) (rooted : Bool) (segs : List (List Char))
    (hlen : segs.length = dd + 1)
    (hs : ∀ seg ∈ segs, normalSeg seg)
    (hdl : ∀ seg ∈ segs.take dd, seg.length = dl) :
    validDirStructure dd dl ((if rooted then ['/'] else []) ++ joinSlash segs) = true := by
  have hne : segs ≠ [] := by rintro rfl; simp at hlen
  have hlast : segs.getLast hne ≠ [] := (hs _ (List.getLast_mem hne)).1
  obtain ⟨c, hc⟩ : ∃ c, (segs.getLast hne).getLast? = some c := by
    cases hsg : segs.getLast hne with
    | nil => exact absurd hsg hlast
    | cons x xs => exact ⟨(x :: xs).getLast (by simp), List.getLast?_eq_getLast _ (by simp)⟩
  have hcseg : c ∈ segs.getLast hne := by
    have := List.getLast?_eq_getLast (segs.getLast hne) hlast
    rw [this] at hc
    exact (Option.some.injEq _ _ ▸ hc) ▸ List.getLast_mem hlast
  have hcslash : c ≠ '/' := by
    intro hcc
    exact (hs _ (List.getLast_mem hne)).2.1 (hcc ▸ hcseg)
  have hjlast : (joinSlash segs).getLast? = some c := by
    rw [joinSlash_getLast? segs hne (fun seg hseg => (hs seg hseg).1)]
    exact hc
  have hplast : ((if rooted then ['/'] else []) ++ joinSlash segs).getLast? = some c := by
    cases rooted with
    | false => simpa using hjlast
    | true =>
      have hjne : joinSlash segs ≠ [] := by
        intro hj
        rw [hj] at hjlast
        simp at hjlast
      rw [List.getLast?_append_of_ne_nil _ hjne]
      exact hjlast
  have hfile : (goSplit ((if rooted then ['/'] else []) ++ joinSlash segs)).2 ≠ [] :=
    goSplit_snd_ne_nil _ c hplast hcslash
  have hclean : goClean ((if rooted then ['/'] else []) ++ joinSlash segs)
      = (if rooted then ['/'] else []) ++ joinSlash segs := by
    cases rooted with
    | false => simpa using goClean_join_rel segs hne hs
    | true => simpa using goClean_join_rooted segs hne hs
  have htrim : trimSlash ((if rooted then ['/'] else []) ++ joinSlash segs)
      = joinSlash segs := by
    cases rooted with
    | false =>
      simp only [if_neg Bool.false_ne_true, List.nil_append]
      apply trimSlash_no_slash
      obtain ⟨s, rest, rfl⟩ : ∃ s rest, segs = s :: rest := by
        cases segs with
        | nil => exact absurd rfl hne
        | cons s rest => exact ⟨s, rest, rfl⟩
      have hs0 : normalSeg s := hs s (by simp)
      rw [joinSlash_head? s rest hs0.1]
      intro hcon
      cases s with
      | nil => exact hs0.1 rfl
      | cons x xs =>
        have hx : x = '/' := by simpa using hcon
        exact hs0.2.1 (by simp [hx])
    | true => simpa using trimSlash_slash (joinSlash segs)
  have hsplit : splitSlash (joinSlash segs) = segs :=
    splitSlash_joinSlash segs hne (fun seg hseg => (hs seg hseg).2.1)
  simp only [validDirStructure, if_neg hfile, hclean, htrim, hsplit, hlen]
  rw [if_neg (by omega)]
  rw [List.all_eq_true]
  intro seg hseg
  simpa using hdl seg hseg

/-! Decomposing randomName into its slash-joined fields. -/

/-- The dd directory-level slices of length dl that randomName cuts from
the hex block. -/
def nameChunks (dd dl : Nat) (b : List Char) : List (List Char) :=
  (List.range dd).map (fun i => goSlice b (dl * i) (dl * (i + 1)))

theorem randomName_foldl (dd dl : Nat) (b : List Char) (h : 0 < dd) :
    (List.range dd).foldl
      (fun str i =>
        if i = 0 then goSlice b 0 dl
        else str ++ '/' :: goSlice b (dl * i) (dl * (i + 1)))
      []
    = joinSlash (nameChunks dd dl b) := by
  induction dd with
  | zero => simp at h
  | succ k ih =>
    rw [List.range_succ, List.foldl_append]
    rcases Nat.eq_zero_or_pos k with hk | hk
    · subst hk
      simp [nameChunks, joinSlash]
    · rw [ih hk]
      simp only [List.foldl_cons, List.foldl_nil]
      rw [if_neg (Nat.pos_iff_ne_zero.mp hk)]
      have hchne : nameChunks k dl b ≠ [] := by
        simp [nameChunks, List.map_eq_nil_iff, List.range_eq_nil]
        omega
      rw [show nameChunks (k + 1) dl b
          = nameChunks k dl b ++ [goSlice b (dl * k) (dl * (k + 1))] by
        simp [nameChunks, List.range_succ]]
      rw [joinSlash_concat _ _ hchne]

theorem randomName_eq_join (dd dl : Nat) (b : List Char) (h : 0 < dd) :
    randomName dd dl b = joinSlash (nameChunks dd dl b ++ [b.drop (dl * dd)]) := by
  have hchne : nameChunks dd dl b ≠ [] := by
    simp [nameChunks, List.map_eq_nil_iff, List.range_eq_nil]
    omega
  rw [randomName, randomName_foldl dd dl b h, joinSlash_concat _ _ hchne]

theorem goSlice_subset (b : List Char) (i j : Nat) (c : Char) (h : c ∈ goSlice b i j) :
    c ∈ b := List.drop_subset i b (List.take_subset _ _ h)

theorem goSlice_length (b : List Char) (dl i : Nat) (h : dl * (i + 1) ≤ b.length) :
    (goSlice b (dl * i) (dl * (i + 1))).length = dl := by
  have hmul : dl * (i + 1) = dl * i + dl := by ring
  simp only [goSlice, List.length_take, List.length_drop]
  omega

/-! Hex encoding facts. -/

theorem hexDigit_ne (n : Nat) (h : n < 16) : hexDigit n ≠ '/' ∧ hexDigit n ≠ '.' := by
  have : ∀ m < 16, hexDigit m ≠ '/' ∧ hexDigit m ≠ '.' := by decide
  exact this n h

theorem hexEncode_mem (bytes : List Nat) (c : Char) (h : c ∈ hexEncode bytes) :
    c ≠ '/' ∧ c ≠ '.' := by
  rw [hexEncode, List.mem_flatten] at h
  obtain ⟨l, hl, hcl⟩ := h
  rw [List.mem_map] at hl
  obtain ⟨x, _, rfl⟩ := hl
  have h1 : x / 16 % 16 < 16 := Nat.mod_lt _ (by norm_num)
  have h2 : x % 16 < 16 := Nat.mod_lt _ (by norm_num)
  simp only [List.mem_cons, List.not_mem_nil, or_false] at hcl
  rcases hcl with hcl | hcl
  · exact hcl ▸ hexDigit_ne _ h1
  · exact hcl ▸ hexDigit_ne _ h2

theorem hexEncode_length (bytes : List Nat) :
    (hexEncode bytes).length = 2 * bytes.length := by
  induction bytes with
  | nil => rfl
  | cons x rest ih =>
    simp only [hexEncode, List.map_cons, List.flatten_cons] at ih ⊢
    simp [ih]
    omega

/-- normalSeg holds for any nonempty slice of a hex-encoded block. -/
theorem normalSeg_of_hex (bytes : List Nat) (seg : List Char) (hne : seg ≠ [])
    (hsub : ∀ c ∈ seg, c ∈ hexEncode bytes) : normalSeg seg := by
  refine ⟨hne, ?_, ?_, ?_⟩
  · intro hmem
    exact (hexEncode_mem bytes '/' (hsub _ hmem)).1 rfl
  · intro hdot
    have : '.' ∈ seg := by simp [hdot]
    exact (hexEncode_mem bytes '.' (hsub _ this)).2 rfl
  · intro hdot
    have : '.' ∈ seg := by simp [hdot]
    exact (hexEncode_mem bytes '.' (hsub _ this)).2 rfl

/-- Name Generator correctness on sane configurations: with dl positive
and dd * dl below the 32 hex characters drawn, every generated name is
classified valid in file mode. -/
theorem randomName_valid (dd dl : Nat) (bytes : List Nat) (h16 : bytes.length = 16)
    (hdl : 0 < dl) (hlt : dd * dl < 32) :
    validDirStructure dd dl (randomName dd dl (hexEncode bytes)) = true := by
  have hb : (hexEncode bytes).length = 32 := by rw [hexEncode_length, h16]
  rcases Nat.eq_zero_or_pos dd with h0 | hpos
  · subst h0
    have hrw : randomName 0 dl (hexEncode bytes)
        = (if true then ['/'] else []) ++ joinSlash [hexEncode bytes] := by
      simp [randomName, joinSlash]
    rw [hrw]
    apply validDirStructure_join 0 dl true [hexEncode bytes] (by simp)
    · intro seg hseg
      rw [List.mem_singleton] at hseg
      subst hseg
      apply normalSeg_of_hex bytes _ _ (fun c hc => hc)
      intro hnil
      rw [hnil] at hb
      simp at hb
    · simp
  · have hrw : randomName dd dl (hexEncode bytes)
        = (if false then ['/'] else [])
          ++ joinSlash (nameChunks dd dl (hexEncode bytes)
              ++ [(hexEncode bytes).drop (dl * dd)]) := by
      simpa using randomName_eq_join dd dl (hexEncode bytes) hpos
    rw [hrw]
    have hchunklen : ∀ i < dd, (goSlice (hexEncode bytes) (dl * i) (dl * (i + 1))).length = dl := by
      intro i hi
      apply goSlice_length
      rw [hb]
      calc dl * (i + 1) ≤ dl * dd := Nat.mul_le_mul_left dl hi
        _ = dd * dl := Nat.mul_comm dl dd
        _ ≤ 32 := Nat.le_of_lt hlt
    apply validDirStructure_join dd dl false
    · simp [nameChunks]
    · intro seg hseg
      rw [List.mem_append] at hseg
      rcases hseg with hseg | hseg
      · rw [nameChunks, List.mem_map] at hseg
        obtain ⟨i, hi, rfl⟩ := hseg
        rw [List.mem_range] at hi
        apply normalSeg_of_hex bytes _ _ (fun c hc => goSlice_subset _ _ _ c hc)
        intro hnil
        have := hchunklen i hi
        rw [hnil] at this
        simp at this
        omega
      · rw [List.mem_singleton] at hseg
        subst hseg
        apply normalSeg_of_hex bytes _ _ (fun c hc => List.drop_subset _ _ hc)
        intro hnil
        have hlen : ((hexEncode bytes).drop (dl * dd)).length = 32 - dl * dd := by
          rw [List.length_drop, hb]
        rw [hnil] at hlen
        simp at hlen
        rw [Nat.mul_comm] at hlt
        omega
    · intro seg hseg
      have htake : (nameChunks dd dl (hexEncode bytes)
          ++ [(hexEncode bytes).drop (dl * dd)]).take dd = nameChunks dd dl (hexEncode bytes) := by
        apply List.take_left'
        simp [nameChunks]
      rw [htake, nameChunks, List.mem_map] at hseg
      obtain ⟨i, hi, rfl⟩ := hseg
      rw [List.mem_range] at hi
      exact hchunklen i hi

/-! Claim C1: Name Generator output versus Path Classifier. -/

/-- Claim C1, counterexample: the claim quantifies over every configured
dirDepth/dirLength, but with dirLength = 0 (and dirDepth = 3) the
generated name is three slashes followed by the whole hex block, which
the classifier rejects, whatever bytes the random source supplies
(shown here for the all-zero block). -/
theorem claim_C1_counterexample :
    validDirStructure 3 0 (randomName 3 0 (hexEncode (List.replicate 16 0))) = false := by
  decide

/-- Claim C1, amended: for every 16-byte block from the random source,
randomName satisfies validDirStructure in file mode, for every
configured dirDepth/dirLength with dirLength positive and
dirDepth * dirLength below the 32 hex characters of the block (the
shipped configuration 3/2 included). -/
theorem claim_C1 (dd dl : Nat) (bytes : List Nat) (h16 : bytes.length = 16)
    (hdl : 0 < dl) (hlt : dd * dl < 32) :
    validDirStructure dd dl (randomName dd dl (hexEncode bytes)) = true :=
  randomName_valid dd dl bytes h16 hdl hlt

/-- Claim C1, witness: the amended theorem applied at the shipped
configuration and a concrete random block. -/
theorem claim_C1_witness :
    (List.replicate 16 0).length = 16 ∧ 0 < 2 ∧ dirDepth₀ * dirLength₀ < 32 ∧
    validDirStructure dirDepth₀ dirLength₀
      (randomName dirDepth₀ dirLength₀ (hexEncode (List.replicate 16 0))) = true :=
  ⟨by decide, by decide, by decide,
    claim_C1 dirDepth₀ dirLength₀ (List.replicate 16 0) (by decide) (by decide) (by decide)⟩

/-! Claim C7: the Path Classifier in file mode. -/

/-- Modelled from the claim wording, for comparison with the code: the
claim says the path is normalized by collapsing redundant separators
and stripping the leading separator, which on fields means dropping the
empty ones; then exactly dd + 1 fields with the first dd of length dl. -/
def claimNormalize (s : List Char) : List (List Char) :=
  (splitSlash s).filter (fun seg => ¬seg.isEmpty)

/-- File-mode validity as the claim words it (see claimNormalize). -/
def claimFileValid (dd dl : Nat) (s : List Char) : Bool :=
  ((claimNormalize s).length == dd + 1)
    && ((claimNormalize s).take dd).all (fun el => el.length == dl)

/-- Claim C7, counterexample: the code normalizes with filepath.Clean,
which also eliminates "." elements; on "./aa/aa/aa/name" (final segment
nonempty) the classifier answers true (as the repository test expects),
while the claim normalization leaves five fields and demands false. -/
theorem claim_C7_counterexample :
    (goSplit ("./aa/aa/aa/name".data)).2 ≠ [] ∧
    validDirStructure dirDepth₀ dirLength₀ ("./aa/aa/aa/name".data) = true ∧
    claimFileValid dirDepth₀ dirLength₀ ("./aa/aa/aa/name".data) = false := by
  refine ⟨by decide, by decide, by decide⟩

/-- Claim C7, amended: for every input path whose final segment is
nonempty, the classifier answers true exactly when the path, after
lexical cleaning (collapsing redundant separators, eliminating "."
elements and resolving ".." elements, as filepath.Clean does) and the
stripping of a leading separator, has exactly dirDepth + 1 fields with
each of the first dirDepth fields of length dirLength; and on the
shipped configuration, "/" and "/name" are invalid, a path with
dirDepth + 1 directory levels is invalid, and a well-formed path with
extra leading or duplicated separators is valid. -/
theorem claim_C7 (dd dl : Nat) :
    (∀ p : List Char, (goSplit p).2 ≠ [] →
      (validDirStructure dd dl p = true ↔
        ((splitSlash (trimSlash (goClean p))).length = dd + 1 ∧
          ∀ el ∈ (splitSlash (trimSlash (goClean p))).take dd, el.length = dl))) ∧
    validDirStructure dirDepth₀ dirLength₀ ("/".data) = false ∧
    validDirStructure dirDepth₀ dirLength₀ ("/name".data) = false ∧
    validDirStructure dirDepth₀ dirLength₀ ("/aa/aa/aa/aa/name".data) = false ∧
    validDirStructure dirDepth₀ dirLength₀ ("//////aa/aa/aa/name".data) = true := by
  refine ⟨?_, by decide, by decide, by decide, by decide⟩
  intro p hf
  simp only [validDirStructure, if_neg hf]
  constructor
  · intro hv
    by_cases hlen : (splitSlash (trimSlash (goClean p))).length = dd + 1
    · refine ⟨hlen, ?_⟩
      rw [if_neg (by omega), List.all_eq_true] at hv
      intro el hel
      simpa using hv el hel
    · rw [if_pos (by omega)] at hv
      exact absurd hv (by simp)
  · rintro ⟨hlen, hall⟩
    rw [if_neg (by omega), List.all_eq_true]
    intro el hel
    simpa using hall el hel

/-- Claim C7, witness: the amended equivalence applied at a concrete
well-formed path with duplicated separators. -/
theorem claim_C7_witness :
    validDirStructure dirDepth₀ dirLength₀ ("/aa//bb/cc/x.sia".data) = true :=
  ((claim_C7 dirDepth₀ dirLength₀).1 ("/aa//bb/cc/x.sia".data) (by decide)).2
    ⟨by decide, by decide⟩

/-!
The filesystem model.

The tool only ever handles clean paths (the walk hands the callback
cleaned joined paths, and the generated names are clean), so a path is
modelled as its list of name segments, relative to the process working
directory: the Go path "fs/var/skynet" is the list
["fs", "var", "skynet"], and filepath.Dir / filepath.Join correspond to
List.dropLast / List.append.  The loop guards path != "." and
path != "/" of the source both correspond to the empty segment list.

A filesystem is a finite association list from paths to nodes (a
directory, or a file with contents).  Well-formedness (WF below) asks
for no duplicate paths, no entry at the working directory itself,
proper names (nonempty, slash-free, not dot or dot-dot: exactly the
names this tool encounters and creates), and for every entry's parent
to be a directory of the filesystem.

Go's ioutil.ReadDir returns the children sorted by name; the model
returns them in entry order.  Every theorem below is proved for an
arbitrary order, so it holds for the sorted one in particular; nothing
in the tool inspects order except through the walk, and no claim
depends on sibling visiting order.
-/

abbrev GoPath := List String

/-- Metadata record written into a .siadir sentinel (siadir.Metadata).
The health, redundancy and mode fields are externally defined default
constants that the tool copies verbatim and never inspects, so they are
represented by one opaque tag value each; the two timestamp fields are
the ones the tool actually sets from the clock. -/
structure SiaDirMetadata where
  aggregateModTime : Nat
  modTime : Nat
  defaultsTag : Unit
deriving DecidableEq, Repr

/-- File contents: raw bytes for ordinary files, a metadata record for
a marshalled sentinel. -/
inductive FData where
  | bytes : List Nat → FData
  | meta : SiaDirMetadata → FData
deriving DecidableEq, Repr

/-- A filesystem node. -/
inductive FNode where
  | dir : FNode
  | file : FData → FNode
deriving DecidableEq, Repr

/-- A filesystem: a finite map from paths to nodes, as an association
list. -/
structure FS where
  entries : List (GoPath × FNode)
deriving DecidableEq, Repr

/-- Whether a node is a file. -/
def FNode.isFileNode : FNode → Bool
  | .dir => false
  | .file _ => true

namespace FS

def keys (fs : FS) : List GoPath := fs.entries.map Prod.fst

def lookup (fs : FS) (p : GoPath) : Option FNode :=
  (fs.entries.find? (fun e => e.1 == p)).map Prod.snd

def isDir (fs : FS) (p : GoPath) : Bool := fs.lookup p == some .dir

def isFile (fs : FS) (p : GoPath) : Bool :=
  ((fs.lookup p).map FNode.isFileNode).getD false

def erase (fs : FS) (p : GoPath) : FS :=
  ⟨fs.entries.filter (fun e => !(e.1 == p))⟩

def insert (fs : FS) (p : GoPath) (n : FNode) : FS :=
  ⟨(fs.erase p).entries ++ [(p, n)]⟩

/-- The names of the immediate children of p. -/
def childNames (fs : FS) (p : GoPath) : List String :=
  fs.entries.filterMap (fun e =>
    match e.1.getLast? with
    | some n => if e.1.dropLast == p then some n else none
    | none => none)

end FS

/-- Names this tool encounters and creates: nonempty, slash-free, no
dot elements.  (Part of well-formedness; it is what makes the segment
model of Go path strings faithful.) -/
def properName (n : String) : Prop :=
  n ≠ "" ∧ '/' ∉ n.data ∧ n ≠ "." ∧ n ≠ ".."

instance (n : String) : Decidable (properName n) := by
  unfold properName
  infer_instance

/-- Well-formed filesystems. -/
structure WF (fs : FS) : Prop where
  nodup : fs.keys.Nodup
  ne_nil : ∀ p ∈ fs.keys, p ≠ []
  names : ∀ p ∈ fs.keys, ∀ n ∈ p, properName n
  parent : ∀ p ∈ fs.keys, p.dropLast ≠ [] → fs.lookup p.dropLast = some .dir

/-- Errors of the modelled filesystem operations. -/
inductive FsErr where
  | notExist : GoPath → FsErr
  | notEmpty : GoPath → FsErr
  | notDir : GoPath → FsErr
  | readOfDir : GoPath → FsErr
  | nilInfo : GoPath → FsErr
  | fuelOut : FsErr
  | rngOut : FsErr
deriving DecidableEq, Repr

/-- os.IsNotExist on the modelled errors. -/
def FsErr.isNotExist : FsErr → Bool
  | .notExist _ => true
  | _ => false

/-- The sentinel filename (modules.SiaDirExtension). -/
def siadirName : String := ".siadir"

/-- os.Remove: fails on a missing target or a nonempty directory. -/
def osRemove (fs : FS) (p : GoPath) : Except FsErr FS :=
  match fs.lookup p with
  | none => .error (.notExist p)
  | some .dir =>
    if fs.childNames p = [] then .ok (fs.erase p) else .error (.notEmpty p)
  | some (.file _) => .ok (fs.erase p)

/-- ioutil.ReadDir: the children of an existing directory (see the
ordering remark above). -/
def readDir (fs : FS) (p : GoPath) : Except FsErr (List String) :=
  match fs.lookup p with
  | some .dir => .ok (fs.childNames p)
  | some (.file _) => .error (.notDir p)
  | none => .error (.notExist p)

/-- The loop body of recurviseDelete, indexed by the number of
remaining iterations.  The Go loop strips one trailing segment per
iteration, so it runs at most p.length times; recurviseDelete always
calls this with d = p.length, which keeps the recursion structural (the
0-with-segments case is unreachable under that calling convention). -/
def recurviseDeleteGo : Nat → FS → GoPath → Except FsErr FS
  | _, fs, [] => .ok fs
  | 0, fs, _ :: _ => .ok fs
  | d + 1, fs, p@(_ :: _) =>
    match readDir fs p with
    | .error e => .error e
    | .ok fileinfos =>
      if 1 < fileinfos.length then .ok fs
      else
        match fileinfos with
        | [n] =>
          if n ≠ siadirName then .ok fs
          else
            match osRemove fs (p ++ [siadirName]) with
            | .error e =>
              if e.isNotExist then
                match osRemove fs p with
                | .error e2 => .error e2
                | .ok fs2 => recurviseDeleteGo d fs2 p.dropLast
              else .error e
            | .ok fs1 =>
              match osRemove fs1 p with
              | .error e2 => .error e2
              | .ok fs2 => recurviseDeleteGo d fs2 p.dropLast
        | _ =>
          match osRemove fs p with
          | .error e2 => .error e2
          | .ok fs2 => recurviseDeleteGo d fs2 p.dropLast

/-- recurviseDelete from main.go (the source spelling): climb from p,
deleting the directory while it holds nothing, or only the sentinel
(which is then removed first, tolerating a missing sentinel), and stop
at the first meaningfully nonempty directory or at the top. -/
def recurviseDelete (fs : FS) (p : GoPath) : Except FsErr FS :=
  recurviseDeleteGo p.length fs p

/-- One filepath.Walk visit of the directory p for deleteEmptyDirs:
read the listing, run the callback (recurviseDelete) on p, then visit
the children from the listing, skipping entries that have vanished
(the callback tolerates a nil file info) and plain files, and recursing
into directories.  The sibling loop is a fold whose error state is
absorbing, which models the walk aborting on the first callback error.
The fuel only bounds the recursion depth; deleteEmptyDirs supplies
enough for it never to run out. -/
def walkDel : Nat → FS → GoPath → Except FsErr FS
  | 0, _, _ => .error .fuelOut
  | fuel + 1, fs, p =>
    match readDir fs p with
    | .error _ =>
      match recurviseDelete fs p with
      | .error e => .error e
      | .ok fs1 => .ok fs1
    | .ok names =>
      match recurviseDelete fs p with
      | .error e => .error e
      | .ok fs1 =>
        names.foldl (fun acc n =>
          match acc with
          | .error e => .error e
          | .ok fsc =>
            match fsc.lookup (p ++ [n]) with
            | none => .ok fsc
            | some (.file _) => .ok fsc
            | some .dir => walkDel fuel fsc (p ++ [n])) (.ok fs1)

/-- An upper bound on the length of every path of the filesystem. -/
def fsHeight (fs : FS) : Nat :=
  (fs.entries.map (fun e => e.1.length)).foldr max 0

/-- deleteEmptyDirs from main.go: walk the tree under root and
recursively delete empty directories; a missing or non-directory root
makes the walk a no-op (the callback skips nil infos and files). -/
def deleteEmptyDirs (fs : FS) (root : GoPath) : Except FsErr FS :=
  match fs.lookup root with
  | none => .ok fs
  | some (.file _) => .ok fs
  | some .dir => walkDel (fsHeight fs + 1) fs root

/-! Basic lemmas about the filesystem model. -/

namespace FS

theorem mem_of_lookup_eq_some {fs : FS} {p : GoPath} {n : FNode}
    (h : fs.lookup p = some n) : (p, n) ∈ fs.entries := by
  rw [lookup, Option.map_eq_some'] at h
  obtain ⟨e, he, hsnd⟩ := h
  have hmem := List.mem_of_find?_eq_some he
  have hkey : e.1 = p := by
    have := List.find?_some he
    simpa using this
  have : e = (p, n) := by
    cases e
    simp_all
  exact this ▸ hmem

theorem lookup_mem_keys {fs : FS} {p : GoPath} {n : FNode}
    (h : fs.lookup p = some n) : p ∈ fs.keys := by
  have := mem_of_lookup_eq_some h
  exact List.mem_map.mpr ⟨(p, n), this, rfl⟩

theorem lookup_eq_none_iff {fs : FS} {p : GoPath} :
    fs.lookup p = none ↔ p ∉ fs.keys := by
  constructor
  · intro h hmem
    rw [keys, List.mem_map] at hmem
    obtain ⟨e, he, hfst⟩ := hmem
    rw [lookup, Option.map_eq_none'] at h
    rw [List.find?_eq_none] at h
    exact absurd (by simpa using hfst) (by simpa using h e he)
  · intro h
    cases hl : fs.lookup p with
    | none => rfl
    | some n => exact absurd (lookup_mem_keys hl) h

theorem lookup_isSome_of_mem {fs : FS} {p : GoPath} (h : p ∈ fs.keys) :
    ∃ n, fs.lookup p = some n := by
  cases hl : fs.lookup p with
  | none => exact absurd (lookup_eq_none_iff.mp hl) (by simpa using h)
  | some n => exact ⟨n, rfl⟩

theorem lookup_eq_some_of_mem_entries {fs : FS} (hnd : fs.keys.Nodup) {p : GoPath}
    {n : FNode} (h : (p, n) ∈ fs.entries) : fs.lookup p = some n := by
  obtain ⟨l⟩ := fs
  simp only [keys] at hnd
  induction l with
  | nil => simp at h
  | cons e rest ih =>
    simp only [List.map_cons, List.nodup_cons] at hnd
    rcases List.mem_cons.mp h with he | hrest
    · subst he
      simp only [lookup]
      rw [@List.find?_cons_of_pos _ (fun e => e.1 == p) (p, n) rest (by simp)]
      rfl
    · by_cases hkey : e.1 = p
      · exfalso
        apply hnd.1
        rw [hkey]
        exact List.mem_map.mpr ⟨(p, n), hrest, rfl⟩
      · have hq : ¬((fun e : GoPath × FNode => e.1 == p) e = true) := by simp [hkey]
        simp only [lookup]
        rw [@List.find?_cons_of_neg _ (fun e => e.1 == p) e rest hq]
        exact ih hnd.2 hrest

theorem mem_erase_keys {fs : FS} {p q : GoPath} :
    q ∈ (fs.erase p).keys ↔ q ∈ fs.keys ∧ q ≠ p := by
  simp only [erase, keys, List.mem_map, List.mem_filter]
  constructor
  · rintro ⟨e, ⟨he, hne⟩, rfl⟩
    exact ⟨⟨e, he, rfl⟩, by simpa using hne⟩
  · rintro ⟨⟨e, he, rfl⟩, hne⟩
    exact ⟨e, ⟨he, by simpa using hne⟩, rfl⟩

theorem erase_lookup_self (fs : FS) (p : GoPath) : (fs.erase p).lookup p = none := by
  rw [lookup_eq_none_iff]
  intro hmem
  exact (mem_erase_keys.mp hmem).2 rfl

theorem erase_lookup_ne (fs : FS) {p q : GoPath} (h : q ≠ p) :
    (fs.erase p).lookup q = fs.lookup q := by
  obtain ⟨l⟩ := fs
  simp only [erase, lookup]
  induction l with
  | nil => rfl
  | cons e rest ih =>
    rw [List.filter_cons]
    by_cases hep : e.1 = p
    · rw [if_neg (by simp [hep])]
      have hq : ¬((fun e : GoPath × FNode => e.1 == q) e = true) := by
        simp only [beq_iff_eq]
        intro hc
        exact h (hc ▸ hep)
      rw [@List.find?_cons_of_neg _ (fun e => e.1 == q) e rest hq]
      exact ih
    · rw [if_pos (by simp [hep])]
      by_cases heq : e.1 = q
      · rw [@List.find?_cons_of_pos _ (fun e => e.1 == q) e _ (by simp [heq]),
          @List.find?_cons_of_pos _ (fun e => e.1 == q) e rest (by simp [heq])]
      · rw [@List.find?_cons_of_neg _ (fun e => e.1 == q) e _ (by simp [heq]),
          @List.find?_cons_of_neg _ (fun e => e.1 == q) e rest (by simp [heq])]
        exact ih

def Sub (fs1 fs2 : FS) : Prop := fs1.entries ⊆ fs2.entries

theorem Sub.same {fs : FS} : fs.Sub fs := fun _ h => h

theorem Sub.trans {fs1 fs2 fs3 : FS} (h1 : fs1.Sub fs2) (h2 : fs2.Sub fs3) :
    fs1.Sub fs3 := fun _ h => h2 (h1 h)

theorem Sub.keys_subset {fs1 fs2 : FS} (h : fs1.Sub fs2) : fs1.keys ⊆ fs2.keys := by
  intro q hq
  rw [keys, List.mem_map] at hq
  obtain ⟨e, he, rfl⟩ := hq
  exact List.mem_map.mpr ⟨e, h he, rfl⟩

theorem Sub.lookup_coh {fs1 fs2 : FS} (h : fs1.Sub fs2) (hnd : fs2.keys.Nodup)
    {q : GoPath} {n : FNode} (hl : fs1.lookup q = some n) : fs2.lookup q = some n :=
  lookup_eq_some_of_mem_entries hnd (h (mem_of_lookup_eq_some hl))

theorem erase_Sub (fs : FS) (p : GoPath) : (fs.erase p).Sub fs :=
  fun _ h => List.mem_of_mem_filter h

/-- A path equals parent-plus-name exactly when the name-extraction
used by childNames answers that name. -/
theorem childNames_extract (p : GoPath) (q : GoPath) (n : String) :
    (match q.getLast? with
      | some m => if q.dropLast == p then some m else none
      | none => none) = some n ↔ q = p ++ [n] := by
  constructor
  · intro h
    cases hl : q.getLast? with
    | none => rw [hl] at h; simp at h
    | some m =>
      rw [hl] at h
      simp only [beq_iff_eq] at h
      by_cases hd : q.dropLast = p
      · rw [if_pos hd] at h
        have hm : m = n := by simpa using h
        have hne : q ≠ [] := by
          intro hnil
          rw [hnil] at hl
          simp at hl
        have hsplit := List.dropLast_append_getLast hne
        rw [List.getLast?_eq_getLast _ hne] at hl
        have hmm : q.getLast hne = m := by simpa using hl
        rw [← hsplit, hd, hmm, hm]
      · rw [if_neg hd] at h
        simp at h
  · rintro rfl
    rw [List.getLast?_concat]
    simp

theorem mem_childNames {fs : FS} {p : GoPath} {n : String} :
    n ∈ fs.childNames p ↔ (p ++ [n]) ∈ fs.keys := by
  simp only [childNames, List.mem_filterMap, keys, List.mem_map]
  constructor
  · rintro ⟨e, he, hf⟩
    exact ⟨e, he, (childNames_extract p e.1 n).mp hf⟩
  · rintro ⟨e, he, hfst⟩
    exact ⟨e, he, (childNames_extract p e.1 n).mpr hfst⟩

theorem childNames_eq_nil_iff {fs : FS} {p : GoPath} :
    fs.childNames p = [] ↔ ∀ n, (p ++ [n]) ∉ fs.keys := by
  rw [List.eq_nil_iff_forall_not_mem]
  exact forall_congr' (fun n => by rw [mem_childNames])

/-- childNames only depends on the keys. -/
theorem childNames_eq_filterMap_keys (fs : FS) (p : GoPath) :
    fs.childNames p = fs.keys.filterMap (fun q =>
      match q.getLast? with
      | some n => if q.dropLast == p then some n else none
      | none => none) := by
  rw [childNames, keys, List.filterMap_map]
  rfl

theorem childNames_nodup {fs : FS} (hnd : fs.keys.Nodup) (p : GoPath) :
    (fs.childNames p).Nodup := by
  rw [childNames_eq_filterMap_keys]
  apply List.Nodup.filterMap _ hnd
  intro q q' n hq hq'
  rw [Option.mem_def, childNames_extract p q n] at hq
  rw [Option.mem_def, childNames_extract p q' n] at hq'
  rw [hq, hq']

theorem isDir_iff {fs : FS} {p : GoPath} : fs.isDir p = true ↔ fs.lookup p = some .dir := by
  rw [isDir, beq_iff_eq]

theorem isFile_iff {fs : FS} {p : GoPath} :
    fs.isFile p = true ↔ ∃ d, fs.lookup p = some (.file d) := by
  rw [isFile]
  cases h : fs.lookup p with
  | none => simp
  | some n => cases n <;> simp [FNode.isFileNode]

theorem isDir_mem_keys {fs : FS} {p : GoPath} (h : fs.isDir p = true) : p ∈ fs.keys :=
  lookup_mem_keys (isDir_iff.mp h)

theorem isFile_mem_keys {fs : FS} {p : GoPath} (h : fs.isFile p = true) : p ∈ fs.keys := by
  obtain ⟨d, hd⟩ := isFile_iff.mp h
  exact lookup_mem_keys hd

theorem Sub.isDir_coh {fs1 fs2 : FS} (h : fs1.Sub fs2) (hnd : fs2.keys.Nodup)
    {q : GoPath} (hd : fs1.isDir q = true) : fs2.isDir q = true :=
  isDir_iff.mpr (h.lookup_coh hnd (isDir_iff.mp hd))

theorem Sub.isFile_coh {fs1 fs2 : FS} (h : fs1.Sub fs2) (hnd : fs2.keys.Nodup)
    {q : GoPath} (hf : fs1.isFile q = true) : fs2.isFile q = true := by
  obtain ⟨d, hd⟩ := isFile_iff.mp hf
  exact isFile_iff.mpr ⟨d, h.lookup_coh hnd hd⟩

/-- A present key keeps its node under Sub of a nodup filesystem. -/
theorem Sub.lookup_of_mem {fs1 fs2 : FS} (h : fs1.Sub fs2) (hnd : fs2.keys.Nodup)
    {q : GoPath} (hq : q ∈ fs1.keys) : fs1.lookup q = fs2.lookup q := by
  obtain ⟨n, hn⟩ := lookup_isSome_of_mem hq
  rw [hn, h.lookup_coh hnd hn]

end FS

/-! Pruner-side predicates. -/

/-- The Go prune condition: at most one entry and any single entry is
the sentinel.  (With two or more entries, or a single non-sentinel
entry, recurviseDelete stops.) -/
def prunable (fs : FS) (p : GoPath) : Prop :=
  fs.childNames p = [] ∨ fs.childNames p = [siadirName]

/-- State left behind by an upward prune cascade that started below p:
every pruned ancestor is gone and the first surviving ancestor is not
prunable (or the top was reached). -/
def cascaded (fs : FS) : GoPath → Prop
  | [] => True
  | p@(_ :: _) =>
    (p ∈ fs.keys ∧ ¬prunable fs p) ∨ (p ∉ fs.keys ∧ cascaded fs p.dropLast)
termination_by p => p.length
decreasing_by all_goals simp_all [List.length_dropLast]

/-- Every file at or below root is a sentinel. -/
def allSentinel (fs : FS) (root : GoPath) : Prop :=
  ∀ q ∈ fs.keys, fs.isFile q = true → root <+: q → q.getLast? = some siadirName

/-- No directory is named like the sentinel (the tool never creates
one; a directory named .siadir would make the pruner fail). -/
def noSiadirDirs (fs : FS) : Prop :=
  ∀ q ∈ fs.keys, fs.isDir q = true → q.getLast? ≠ some siadirName

instance (fs : FS) (root : GoPath) : Decidable (allSentinel fs root) := by
  unfold allSentinel
  infer_instance

instance (fs : FS) : Decidable (noSiadirDirs fs) := by
  unfold noSiadirDirs
  infer_instance

instance : DecidableEq (Except FsErr FS) := fun a b =>
  match a, b with
  | .ok x, .ok y =>
    if h : x = y then isTrue (by rw [h]) else isFalse (by simp [h])
  | .error e, .error e2 =>
    if h : e = e2 then isTrue (by rw [h]) else isFalse (by simp [h])
  | .ok _, .error _ => isFalse (by simp)
  | .error _, .ok _ => isFalse (by simp)

/-- Every file the step removed was a sentinel. -/
def fileRemovalSafe (fs fs2 : FS) : Prop :=
  ∀ q ∈ fs.keys, fs.isFile q = true → q ∉ fs2.keys → q.getLast? = some siadirName

/-- Every directory the step removed had only sentinels anywhere
beneath it. -/
def dirRemovalSafe (fs fs2 : FS) : Prop :=
  ∀ q ∈ fs.keys, fs.isDir q = true → q ∉ fs2.keys → allSentinel fs q

theorem noSiadirDirs_sub {fs1 fs2 : FS} (h : noSiadirDirs fs2) (hsub : fs1.Sub fs2)
    (hnd : fs2.keys.Nodup) : noSiadirDirs fs1 := fun q hq hd =>
  h q (hsub.keys_subset hq) (hsub.isDir_coh hnd hd)

theorem allSentinel_sub {fs1 fs2 : FS} {root : GoPath} (h : allSentinel fs2 root)
    (hsub : fs1.Sub fs2) (hnd : fs2.keys.Nodup) : allSentinel fs1 root :=
  fun q hq hf hpre => h q (hsub.keys_subset hq) (hsub.isFile_coh hnd hf) hpre

theorem allSentinel.mono {fs : FS} {root root' : GoPath} (h : allSentinel fs root)
    (hpre : root <+: root') : allSentinel fs root' :=
  fun q hq hf hpre' => h q hq hf (hpre.trans hpre')

theorem fileRemovalSafe_id {fs : FS} : fileRemovalSafe fs fs :=
  fun q hq _ hq2 => absurd hq hq2

theorem dirRemovalSafe_id {fs : FS} : dirRemovalSafe fs fs :=
  fun q hq _ hq2 => absurd hq hq2

theorem fileRemovalSafe_comp {fs fs1 fs2 : FS} (hsub : fs1.Sub fs)
    (hnd : fs.keys.Nodup) (h1 : fileRemovalSafe fs fs1) (h2 : fileRemovalSafe fs1 fs2) :
    fileRemovalSafe fs fs2 := by
  intro q hq hf hq2
  by_cases hq1 : q ∈ fs1.keys
  · obtain ⟨n, hn⟩ := FS.lookup_isSome_of_mem hq1
    have hcoh := hsub.lookup_coh hnd hn
    have hf1 : fs1.isFile q = true := by
      obtain ⟨d, hd⟩ := FS.isFile_iff.mp hf
      rw [hd] at hcoh
      exact FS.isFile_iff.mpr ⟨d, by rw [hn, hcoh]⟩
    exact h2 q hq1 hf1 hq2
  · exact h1 q hq hf hq1

theorem dirRemovalSafe_comp {fs fs1 fs2 : FS} (hsub : fs1.Sub fs)
    (hnd : fs.keys.Nodup) (hfsafe : fileRemovalSafe fs fs1)
    (h1 : dirRemovalSafe fs fs1) (h2 : dirRemovalSafe fs1 fs2) :
    dirRemovalSafe fs fs2 := by
  intro q hq hd hq2
  by_cases hq1 : q ∈ fs1.keys
  · obtain ⟨n, hn⟩ := FS.lookup_isSome_of_mem hq1
    have hcoh := hsub.lookup_coh hnd hn
    have hd1 : fs1.isDir q = true := by
      rw [FS.isDir_iff.mp hd] at hcoh
      exact FS.isDir_iff.mpr (by rw [hn, hcoh])
    have hall1 : allSentinel fs1 q := h2 q hq1 hd1 hq2
    intro f hfk hff hfpre
    by_cases hf1 : f ∈ fs1.keys
    · obtain ⟨m, hm⟩ := FS.lookup_isSome_of_mem hf1
      have hcohf := hsub.lookup_coh hnd hm
      have hff1 : fs1.isFile f = true := by
        obtain ⟨d, hdd⟩ := FS.isFile_iff.mp hff
        rw [hdd] at hcohf
        exact FS.isFile_iff.mpr ⟨d, by rw [hm, hcohf]⟩
      exact hall1 f hf1 hff1 hfpre
    · exact hfsafe f hfk hff hf1
  · exact h1 q hq hd hq1

/-! Well-formedness lemmas. -/

theorem WF.isFile_no_children {fs : FS} (hwf : WF fs) {p : GoPath}
    (hf : fs.isFile p = true) : fs.childNames p = [] := by
  rw [FS.childNames_eq_nil_iff]
  intro n hmem
  have hdrop : (p ++ [n]).dropLast = p := List.dropLast_concat
  have hne : (p ++ [n]).dropLast ≠ [] := by
    rw [hdrop]
    intro hnil
    exact (hwf.ne_nil p (FS.isFile_mem_keys hf)) hnil
  have := hwf.parent _ hmem hne
  rw [hdrop] at this
  obtain ⟨d, hd⟩ := FS.isFile_iff.mp hf
  rw [this] at hd
  exact FNode.noConfusion (Option.some.injEq _ _ ▸ hd)

theorem WF.erase_childless {fs : FS} (hwf : WF fs) {p : GoPath}
    (hchild : fs.childNames p = []) : WF (fs.erase p) := by
  refine ⟨?_, ?_, ?_, ?_⟩
  · have hsub : (fs.erase p).keys.Sublist fs.keys :=
      (List.filter_sublist _).map Prod.fst
    exact hwf.nodup.sublist hsub
  · intro q hq
    exact hwf.ne_nil q (FS.mem_erase_keys.mp hq).1
  · intro q hq
    exact hwf.names q (FS.mem_erase_keys.mp hq).1
  · intro q hq hqd
    obtain ⟨hqmem, hqne⟩ := FS.mem_erase_keys.mp hq
    have hpar := hwf.parent q hqmem hqd
    have hne : q.dropLast ≠ p := by
      intro hpp
      have hqnil : q ≠ [] := hwf.ne_nil q hqmem
      have : q.getLast hqnil ∈ fs.childNames p := by
        rw [FS.mem_childNames, ← hpp, List.dropLast_append_getLast hqnil]
        exact hqmem
      rw [hchild] at this
      simp at this
    rw [FS.erase_lookup_ne fs hne]
    exact hpar

theorem WF.prefix_facts {fs : FS} (hwf : WF fs) :
    ∀ q ∈ fs.keys, ∀ r, r <+: q → r ≠ [] →
      r ∈ fs.keys ∧ (r ≠ q → fs.lookup r = some .dir) := by
  intro q
  induction q using List.reverseRecOn with
  | nil =>
    intro _ r hpre hr
    rw [List.prefix_nil] at hpre
    exact absurd hpre hr
  | append_singleton l a ih =>
    intro hq r hpre hr
    rcases List.prefix_concat_iff.mp hpre with heq | hpre'
    · subst heq
      exact ⟨hq, fun hne => absurd rfl hne⟩
    · have hl : l ≠ [] := by
        intro hnil
        rw [hnil, List.prefix_nil] at hpre'
        exact hr hpre'
      have hpar : fs.lookup l = some .dir := by
        have := hwf.parent (l ++ [a]) hq (by rw [List.dropLast_concat]; exact hl)
        rwa [List.dropLast_concat] at this
      have hlmem : l ∈ fs.keys := FS.lookup_mem_keys hpar
      rcases eq_or_ne r l with rfl | hrl
      · exact ⟨hlmem, fun _ => hpar⟩
      · have := ih hlmem r hpre' hr
        exact ⟨this.1, fun _ => this.2 hrl⟩

theorem WF.prefix_mem {fs : FS} (hwf : WF fs) {q r : GoPath} (hq : q ∈ fs.keys)
    (hpre : r <+: q) (hr : r ≠ []) : r ∈ fs.keys :=
  (hwf.prefix_facts q hq r hpre hr).1

/-! Height bound. -/

theorem le_foldr_max (l : List Nat) : ∀ x ∈ l, x ≤ l.foldr max 0 := by
  induction l with
  | nil => simp
  | cons a rest ih =>
    intro x hx
    rcases List.mem_cons.mp hx with rfl | hx'
    · exact le_max_left _ _
    · exact le_trans (ih x hx') (le_max_right _ _)

theorem fsHeight_bound {fs : FS} {p : GoPath} (h : p ∈ fs.keys) :
    p.length ≤ fsHeight fs := by
  rw [FS.keys, List.mem_map] at h
  obtain ⟨e, he, rfl⟩ := h
  exact le_foldr_max _ _ (List.mem_map.mpr ⟨e, he, rfl⟩)

/-- A duplicate-free list whose members all equal a is empty or [a]. -/
theorem nodup_all_eq {α : Type} {l : List α} {a : α} (hnd : l.Nodup)
    (h : ∀ x ∈ l, x = a) : l = [] ∨ l = [a] := by
  cases l with
  | nil => exact Or.inl rfl
  | cons x rest =>
    have hx : x = a := h x (by simp)
    cases rest with
    | nil => exact Or.inr (by rw [hx])
    | cons y rest' =>
      have hy : y = a := h y (by simp)
      rw [List.nodup_cons] at hnd
      exact absurd (by simp [hx, hy]) hnd.1

/-! Path helpers. -/

theorem self_ne_concat (p : GoPath) (n : String) : p ≠ p ++ [n] := by
  intro h
  have := congrArg List.length h
  simp at this

theorem exists_child_prefix {p f : GoPath} (hpre : p <+: f) (hne : p ≠ f) :
    ∃ c, p ++ [c] <+: f := by
  obtain ⟨t, rfl⟩ := hpre
  cases t with
  | nil => exact absurd (by simp) hne
  | cons c rest => exact ⟨c, by simp⟩

/-! Unfolding lemmas for cascaded. -/

theorem cascaded_nil (fs : FS) : cascaded fs [] := by
  rw [cascaded]
  trivial

theorem cascaded_cons_iff (fs : FS) {p : GoPath} (hp : p ≠ []) :
    cascaded fs p ↔
      (p ∈ fs.keys ∧ ¬prunable fs p) ∨ (p ∉ fs.keys ∧ cascaded fs p.dropLast) := by
  obtain ⟨hd, tl, rfl⟩ : ∃ hd tl, p = hd :: tl := by
    cases p with
    | nil => exact absurd rfl hp
    | cons hd tl => exact ⟨hd, tl, rfl⟩
  rw [cascaded]

/-! Evaluation lemmas for recurviseDelete. -/

theorem recurviseDelete_stop {fs : FS} {p : GoPath} (hp : p ≠ [])
    (hdir : fs.isDir p = true)
    (hstop : 1 < (fs.childNames p).length ∨
      ∃ n, fs.childNames p = [n] ∧ n ≠ siadirName) :
    recurviseDelete fs p = .ok fs := by
  obtain ⟨hd, tl, rfl⟩ : ∃ hd tl, p = hd :: tl := by
    cases p with
    | nil => exact absurd rfl hp
    | cons hd tl => exact ⟨hd, tl, rfl⟩
  have hrd : readDir fs (hd :: tl) = .ok (fs.childNames (hd :: tl)) := by
    rw [readDir, FS.isDir_iff.mp hdir]
  rw [recurviseDelete, List.length_cons, recurviseDeleteGo, hrd]
  rcases hstop with hlen | ⟨n, hn, hne⟩
  · simp only [if_pos hlen]
  · rw [hn]
    simp only [List.length_singleton, if_neg (by omega : ¬(1 < 1))]
    rw [if_pos hne]

theorem recurviseDelete_prune_empty {fs : FS} {p : GoPath} (hp : p ≠ [])
    (hdir : fs.isDir p = true) (hns : fs.childNames p = []) :
    recurviseDelete fs p = recurviseDelete (fs.erase p) p.dropLast := by
  obtain ⟨hd, tl, rfl⟩ : ∃ hd tl, p = hd :: tl := by
    cases p with
    | nil => exact absurd rfl hp
    | cons hd tl => exact ⟨hd, tl, rfl⟩
  have hrd : readDir fs (hd :: tl) = .ok (fs.childNames (hd :: tl)) := by
    rw [readDir, FS.isDir_iff.mp hdir]
  rw [recurviseDelete, List.length_cons, recurviseDeleteGo, hrd, hns]
  have hrm : osRemove fs (hd :: tl) = .ok (fs.erase (hd :: tl)) := by
    rw [osRemove, FS.isDir_iff.mp hdir, if_pos hns]
  simp only [List.length_nil, if_neg (by omega : ¬(1 < 0))]
  rw [hrm]
  rw [recurviseDelete, List.length_dropLast, List.length_cons, Nat.add_sub_cancel]

theorem recurviseDelete_prune_sent {fs : FS} {p : GoPath} (hp : p ≠ [])
    (hdir : fs.isDir p = true) (hns : fs.childNames p = [siadirName])
    (hfile : fs.isFile (p ++ [siadirName]) = true)
    (hch : (fs.erase (p ++ [siadirName])).childNames p = []) :
    recurviseDelete fs p
      = recurviseDelete ((fs.erase (p ++ [siadirName])).erase p) p.dropLast := by
  obtain ⟨hd, tl, rfl⟩ : ∃ hd tl, p = hd :: tl := by
    cases p with
    | nil => exact absurd rfl hp
    | cons hd tl => exact ⟨hd, tl, rfl⟩
  have hrd : readDir fs (hd :: tl) = .ok (fs.childNames (hd :: tl)) := by
    rw [readDir, FS.isDir_iff.mp hdir]
  rw [recurviseDelete, List.length_cons, recurviseDeleteGo, hrd, hns]
  simp only [List.length_singleton, if_neg (by omega : ¬(1 < 1)),
    if_neg (by simp : ¬(siadirName ≠ siadirName))]
  obtain ⟨d, hdd⟩ := FS.isFile_iff.mp hfile
  have hrm1 : osRemove fs ((hd :: tl) ++ [siadirName])
      = .ok (fs.erase ((hd :: tl) ++ [siadirName])) := by
    rw [osRemove, hdd]
  rw [hrm1]
  dsimp only
  have hlk : (fs.erase ((hd :: tl) ++ [siadirName])).lookup (hd :: tl) = some .dir := by
    rw [FS.erase_lookup_ne fs (self_ne_concat _ _)]
    exact FS.isDir_iff.mp hdir
  have hrm2 : osRemove (fs.erase ((hd :: tl) ++ [siadirName])) (hd :: tl)
      = .ok ((fs.erase ((hd :: tl) ++ [siadirName])).erase (hd :: tl)) := by
    rw [osRemove, hlk, if_pos hch]
  rw [hrm2]
  rw [recurviseDelete, List.length_dropLast, List.length_cons, Nat.add_sub_cancel]

theorem not_isFile_of_isDir {fs : FS} {p : GoPath} (hd : fs.isDir p = true) :
    fs.isFile p = false := by
  rw [FS.isFile, FS.isDir_iff.mp hd]
  rfl

/-- Full specification of recurviseDelete on a well-formed filesystem
without sentinel-named directories: it succeeds, only shrinks the
filesystem, leaves a cascade-stable state at p, and only ever removes
sentinel files and directories holding nothing but sentinels. -/
theorem recurviseDelete_spec (p : GoPath) : ∀ (fs : FS), WF fs → noSiadirDirs fs →
    (p = [] ∨ fs.isDir p = true) →
    ∃ fs2, recurviseDelete fs p = .ok fs2 ∧ WF fs2 ∧ fs2.Sub fs ∧ cascaded fs2 p ∧
      fileRemovalSafe fs fs2 ∧ dirRemovalSafe fs fs2 := by
  induction p using List.reverseRecOn with
  | nil =>
    intro fs hwf hnsd _
    exact ⟨fs, rfl, hwf, FS.Sub.same, cascaded_nil fs,
      fileRemovalSafe_id, dirRemovalSafe_id⟩
  | append_singleton l a ih =>
    intro fs hwf hnsd hda
    have hdir : fs.isDir (l ++ [a]) = true := by
      rcases hda with h | h
      · exact absurd h (by simp)
      · exact h
    have hpne : l ++ [a] ≠ [] := by simp
    have hpmem : (l ++ [a]) ∈ fs.keys := FS.isDir_mem_keys hdir
    have hldir : ∀ fsx : FS, fsx.lookup l = fs.lookup l → l = [] ∨ fsx.isDir l = true := by
      intro fsx hlx
      cases hl : l with
      | nil => exact Or.inl rfl
      | cons c cs =>
        right
        have hpar := hwf.parent (l ++ [a]) hpmem
          (by rw [List.dropLast_concat, hl]; simp)
        rw [List.dropLast_concat] at hpar
        rw [FS.isDir_iff, ← hl, hlx]
        exact hpar
    rcases hshape : fs.childNames (l ++ [a]) with _ | ⟨n, _ | ⟨m, ms⟩⟩
    · -- no entries: prune the directory and continue upward
      have hsub3 : (fs.erase (l ++ [a])).Sub fs := FS.erase_Sub fs _
      have hwf3 : WF (fs.erase (l ++ [a])) := hwf.erase_childless hshape
      have hnsd3 : noSiadirDirs (fs.erase (l ++ [a])) := noSiadirDirs_sub hnsd hsub3 hwf.nodup
      obtain ⟨fs2, heq, hwf2, hsub2, hcasc2, hfsafe2, hdsafe2⟩ :=
        ih (fs.erase (l ++ [a])) hwf3 hnsd3
          (hldir _ (FS.erase_lookup_ne fs (self_ne_concat l a)))
      have hgone : (l ++ [a]) ∉ fs2.keys := by
        intro hmem
        exact (FS.mem_erase_keys.mp (hsub2.keys_subset hmem)).2 rfl
      have hfs3 : fileRemovalSafe fs (fs.erase (l ++ [a])) := by
        intro q hq hf hq3
        exfalso
        have hqp : q = l ++ [a] := by
          by_contra hne
          exact hq3 (FS.mem_erase_keys.mpr ⟨hq, hne⟩)
        subst hqp
        rw [not_isFile_of_isDir hdir] at hf
        simp at hf
      have hds3 : dirRemovalSafe fs (fs.erase (l ++ [a])) := by
        intro q hq hqd hq3
        have hqp : q = l ++ [a] := by
          by_contra hne
          exact hq3 (FS.mem_erase_keys.mpr ⟨hq, hne⟩)
        subst hqp
        intro f hfk hff hfpre
        rcases eq_or_ne (l ++ [a]) f with rfl | hne
        · rw [not_isFile_of_isDir hqd] at hff
          simp at hff
        · obtain ⟨c, hc⟩ := exists_child_prefix hfpre hne
          have hcmem : (l ++ [a]) ++ [c] ∈ fs.keys :=
            hwf.prefix_mem hfk hc (by simp)
          rw [← FS.mem_childNames, hshape] at hcmem
          simp at hcmem
      refine ⟨fs2, ?_, hwf2, hsub2.trans hsub3, ?_, ?_, ?_⟩
      · rw [recurviseDelete_prune_empty hpne hdir hshape, List.dropLast_concat]
        exact heq
      · rw [cascaded_cons_iff fs2 hpne, List.dropLast_concat]
        exact Or.inr ⟨hgone, hcasc2⟩
      · exact fileRemovalSafe_comp hsub3 hwf.nodup hfs3 hfsafe2
      · exact dirRemovalSafe_comp hsub3 hwf.nodup hfs3 hds3 hdsafe2
    · -- a single entry
      by_cases hsent : n = siadirName
      · -- the sentinel: remove it, prune the directory and continue upward
        subst hsent
        have hsentmem : (l ++ [a]) ++ [siadirName] ∈ fs.keys :=
          FS.mem_childNames.mp (by rw [hshape]; simp)
        have hsentfile : fs.isFile ((l ++ [a]) ++ [siadirName]) = true := by
          obtain ⟨nd, hnd⟩ := FS.lookup_isSome_of_mem hsentmem
          cases nd with
          | dir =>
            exfalso
            apply hnsd _ hsentmem (FS.isDir_iff.mpr hnd)
            rw [List.getLast?_concat]
          | file d => exact FS.isFile_iff.mpr ⟨d, hnd⟩
        have hch : (fs.erase ((l ++ [a]) ++ [siadirName])).childNames (l ++ [a]) = [] := by
          rw [FS.childNames_eq_nil_iff]
          intro c hcmem
          obtain ⟨hcm, hcne⟩ := FS.mem_erase_keys.mp hcmem
          rw [← FS.mem_childNames, hshape] at hcm
          simp only [List.mem_singleton] at hcm
          exact hcne (by rw [hcm])
        have hwf1 : WF (fs.erase ((l ++ [a]) ++ [siadirName])) :=
          hwf.erase_childless (hwf.isFile_no_children hsentfile)
        have hsub1 : (fs.erase ((l ++ [a]) ++ [siadirName])).Sub fs := FS.erase_Sub fs _
        have hwf3 : WF ((fs.erase ((l ++ [a]) ++ [siadirName])).erase (l ++ [a])) :=
          hwf1.erase_childless hch
        have hsub31 : ((fs.erase ((l ++ [a]) ++ [siadirName])).erase (l ++ [a])).Sub
            (fs.erase ((l ++ [a]) ++ [siadirName])) := FS.erase_Sub _ _
        have hsub3 : ((fs.erase ((l ++ [a]) ++ [siadirName])).erase (l ++ [a])).Sub fs :=
          hsub31.trans hsub1
        have hnsd3 : noSiadirDirs ((fs.erase ((l ++ [a]) ++ [siadirName])).erase (l ++ [a])) :=
          noSiadirDirs_sub hnsd hsub3 hwf.nodup
        have hlne : l ≠ (l ++ [a]) ++ [siadirName] := by
          intro h
          have := congrArg List.length h
          simp at this
        have hllook : ((fs.erase ((l ++ [a]) ++ [siadirName])).erase (l ++ [a])).lookup l
            = fs.lookup l := by
          rw [FS.erase_lookup_ne _ (by
            intro h
            have := congrArg List.length h
            simp at this), FS.erase_lookup_ne _ hlne]
        obtain ⟨fs2, heq, hwf2, hsub2, hcasc2, hfsafe2, hdsafe2⟩ :=
          ih ((fs.erase ((l ++ [a]) ++ [siadirName])).erase (l ++ [a])) hwf3 hnsd3
            (hldir _ hllook)
        have hgone : (l ++ [a]) ∉ fs2.keys := by
          intro hmem
          exact (FS.mem_erase_keys.mp (hsub2.keys_subset hmem)).2 rfl
        have hmem3 : ∀ q, q ∈ ((fs.erase ((l ++ [a]) ++ [siadirName])).erase (l ++ [a])).keys
            ↔ q ∈ fs.keys ∧ q ≠ (l ++ [a]) ++ [siadirName] ∧ q ≠ l ++ [a] := by
          intro q
          rw [FS.mem_erase_keys, FS.mem_erase_keys]
          tauto
        have hfs3 : fileRemovalSafe fs ((fs.erase ((l ++ [a]) ++ [siadirName])).erase (l ++ [a])) := by
          intro q hq hf hq3
          rw [hmem3] at hq3
          push_neg at hq3
          rcases eq_or_ne q ((l ++ [a]) ++ [siadirName]) with rfl | hne1
          · rw [List.getLast?_concat]
          · have hqp : q = l ++ [a] := hq3 hq hne1
            subst hqp
            rw [not_isFile_of_isDir hdir] at hf
            simp at hf
        have hds3 : dirRemovalSafe fs ((fs.erase ((l ++ [a]) ++ [siadirName])).erase (l ++ [a])) := by
          intro q hq hqd hq3
          rw [hmem3] at hq3
          push_neg at hq3
          rcases eq_or_ne q ((l ++ [a]) ++ [siadirName]) with rfl | hne1
          · exfalso
            apply hnsd _ hq hqd
            rw [List.getLast?_concat]
          · have hqp : q = l ++ [a] := hq3 hq hne1
            subst hqp
            intro f hfk hff hfpre
            rcases eq_or_ne (l ++ [a]) f with rfl | hne
            · rw [not_isFile_of_isDir hqd] at hff
              simp at hff
            · obtain ⟨c, hc⟩ := exists_child_prefix hfpre hne
              have hcmem : (l ++ [a]) ++ [c] ∈ fs.keys :=
                hwf.prefix_mem hfk hc (by simp)
              rw [← FS.mem_childNames, hshape] at hcmem
              simp only [List.mem_singleton] at hcmem
              subst hcmem
              rcases eq_or_ne ((l ++ [a]) ++ [siadirName]) f with rfl | hnef
              · rw [List.getLast?_concat]
              · exfalso
                have := (hwf.prefix_facts f hfk _ hc (by simp)).2 hnef
                obtain ⟨d, hdd⟩ := FS.isFile_iff.mp hsentfile
                rw [this] at hdd
                exact FNode.noConfusion (Option.some.injEq _ _ ▸ hdd)
        refine ⟨fs2, ?_, hwf2, hsub2.trans hsub3, ?_, ?_, ?_⟩
        · rw [recurviseDelete_prune_sent hpne hdir hshape hsentfile hch,
            List.dropLast_concat]
          exact heq
        · rw [cascaded_cons_iff fs2 hpne, List.dropLast_concat]
          exact Or.inr ⟨hgone, hcasc2⟩
        · exact fileRemovalSafe_comp hsub3 hwf.nodup hfs3 hfsafe2
        · exact dirRemovalSafe_comp hsub3 hwf.nodup hfs3 hds3 hdsafe2
      · -- a single non-sentinel entry: stop, nothing changes
        refine ⟨fs, recurviseDelete_stop hpne hdir (Or.inr ⟨n, hshape, hsent⟩),
          hwf, FS.Sub.same, ?_, fileRemovalSafe_id, dirRemovalSafe_id⟩
        rw [cascaded_cons_iff fs hpne]
        refine Or.inl ⟨hpmem, ?_⟩
        intro hpr
        rcases hpr with hc | hc <;> rw [hshape] at hc
        · simp at hc
        · exact hsent (by simpa using hc)
    · -- two or more entries: stop, nothing changes
      have hlen : 1 < (fs.childNames (l ++ [a])).length := by
        rw [hshape]
        simp
      refine ⟨fs, recurviseDelete_stop hpne hdir (Or.inl hlen),
        hwf, FS.Sub.same, ?_, fileRemovalSafe_id, dirRemovalSafe_id⟩
      rw [cascaded_cons_iff fs hpne]
      refine Or.inl ⟨hpmem, ?_⟩
      intro hpr
      rcases hpr with hc | hc <;> rw [hshape] at hc <;> simp at hc

/-- Full specification of one walk visit for the Empty-Directory
Pruner.  Beyond success, shrinking and the safety clauses, it
guarantees: if every file at or below p is a sentinel, then after the
visit nothing at or below p is left. -/
theorem walkDel_spec (fuel : Nat) : ∀ (fs : FS) (p : GoPath) (H : Nat),
    WF fs → noSiadirDirs fs → p ≠ [] → fs.isDir p = true →
    (∀ q ∈ fs.keys, q.length ≤ H) → H < fuel + p.length →
    ∃ fs2, walkDel fuel fs p = .ok fs2 ∧ WF fs2 ∧ fs2.Sub fs ∧
      cascaded fs2 p ∧ fileRemovalSafe fs fs2 ∧ dirRemovalSafe fs fs2 ∧
      (allSentinel fs p → ∀ q, p <+: q → q ∉ fs2.keys) := by
  induction fuel with
  | zero =>
    intro fs p H _ _ _ hdir hH hfuel
    have := hH p (FS.isDir_mem_keys hdir)
    omega
  | succ f ihf =>
    intro fs p H hwf hnsd hp hdir hH hfuel
    have hrd : readDir fs p = .ok (fs.childNames p) := by
      rw [readDir, FS.isDir_iff.mp hdir]
    obtain ⟨fs1, hrdel, hwf1, hsub1, hcasc1, hfsafe1, hdsafe1⟩ :=
      recurviseDelete_spec p fs hwf hnsd (Or.inr hdir)
    -- the sibling loop
    have hfold : ∀ (names : List String) (fsc : FS),
        (∀ n ∈ names, (p ++ [n]) ∈ fs.keys) →
        WF fsc → fsc.Sub fs → cascaded fsc p →
        ∃ fs2, names.foldl (fun (acc : Except FsErr FS) n =>
            match acc with
            | .error e => .error e
            | .ok fsx =>
              match fsx.lookup (p ++ [n]) with
              | none => .ok fsx
              | some (.file _) => .ok fsx
              | some .dir => walkDel f fsx (p ++ [n])) (.ok fsc) = .ok fs2 ∧
          WF fs2 ∧ fs2.Sub fsc ∧
          cascaded fs2 p ∧ fileRemovalSafe fsc fs2 ∧ dirRemovalSafe fsc fs2 ∧
          (allSentinel fs p →
            ∀ n ∈ names, fs.isDir (p ++ [n]) = true → (p ++ [n]) ∉ fs2.keys) := by
      intro names
      induction names with
      | nil =>
        intro fsc _ hwfc hsubc hcascc
        exact ⟨fsc, rfl, hwfc, FS.Sub.same, hcascc,
          fileRemovalSafe_id, dirRemovalSafe_id, fun _ n hn => absurd hn (by simp)⟩
      | cons n rest ihn =>
        intro fsc hmemf hwfc hsubc hcascc
        have hnsdc : noSiadirDirs fsc := noSiadirDirs_sub hnsd hsubc hwf.nodup
        have hrest : ∀ m ∈ rest, (p ++ [m]) ∈ fs.keys :=
          fun m hm => hmemf m (by simp [hm])
        cases hlk : fsc.lookup (p ++ [n]) with
        | none =>
          obtain ⟨fs2, heq, hwf2, hsub2, hcasc2, hfs2, hds2, hg2⟩ :=
            ihn fsc hrest hwfc hsubc hcascc
          refine ⟨fs2, ?_, hwf2, hsub2, hcasc2, hfs2, hds2, ?_⟩
          · rw [List.foldl_cons]
            dsimp only
            rw [hlk]
            exact heq
          · intro hall m hm hmdir
            rcases List.mem_cons.mp hm with rfl | hm2
            · intro hmem2
              have hmemc := hsub2.keys_subset hmem2
              rw [FS.lookup_eq_none_iff] at hlk
              exact hlk hmemc
            · exact hg2 hall m hm2 hmdir
        | some node =>
          cases node with
          | file d =>
            obtain ⟨fs2, heq, hwf2, hsub2, hcasc2, hfs2, hds2, hg2⟩ :=
              ihn fsc hrest hwfc hsubc hcascc
            refine ⟨fs2, ?_, hwf2, hsub2, hcasc2, hfs2, hds2, ?_⟩
            · rw [List.foldl_cons]
              dsimp only
              rw [hlk]
              exact heq
            · intro hall m hm hmdir
              rcases List.mem_cons.mp hm with rfl | hm2
              · exfalso
                have := hsubc.lookup_coh hwf.nodup hlk
                rw [FS.isDir_iff.mp hmdir] at this
                exact FNode.noConfusion (Option.some.injEq _ _ ▸ this)
              · exact hg2 hall m hm2 hmdir
          | dir =>
            have hdirc : fsc.isDir (p ++ [n]) = true := FS.isDir_iff.mpr hlk
            have hHc : ∀ q ∈ fsc.keys, q.length ≤ H :=
              fun q hq => hH q (hsubc.keys_subset hq)
            have hfuelc : H < f + (p ++ [n]).length := by
              rw [List.length_append]
              simp only [List.length_singleton]
              omega
            obtain ⟨fsd, heqd, hwfd, hsubd, hcascd, hfsd, hdsd, hgd⟩ :=
              ihf fsc (p ++ [n]) H hwfc hnsdc (by simp) hdirc hHc hfuelc
            have hcascdp : cascaded fsd p := by
              rcases (cascaded_cons_iff fsd (by simp)).mp hcascd with ⟨hmemd, hnpr⟩ | ⟨hgoned, hcp⟩
              · rw [cascaded_cons_iff fsd hp]
                left
                have hpmemd : p ∈ fsd.keys :=
                  hwfd.prefix_mem hmemd (by simp) hp
                refine ⟨hpmemd, ?_⟩
                have hnchild : n ∈ fsd.childNames p := FS.mem_childNames.mpr hmemd
                have hnsent : n ≠ siadirName := by
                  intro hns
                  have hdirfs : fs.isDir (p ++ [n]) = true :=
                    FS.isDir_iff.mpr (hsubc.lookup_coh hwf.nodup hlk)
                  apply hnsd (p ++ [n]) (FS.isDir_mem_keys hdirfs) hdirfs
                  rw [List.getLast?_concat, hns]
                intro hpr
                rcases hpr with hc | hc <;> rw [hc] at hnchild
                · simp at hnchild
                · simp only [List.mem_singleton] at hnchild
                  exact hnsent hnchild
              · rw [List.dropLast_concat] at hcp
                exact hcp
            obtain ⟨fs2, heq, hwf2, hsub2, hcasc2, hfs2, hds2, hg2⟩ :=
              ihn fsd hrest hwfd (hsubd.trans hsubc) hcascdp
            refine ⟨fs2, ?_, hwf2, hsub2.trans hsubd, hcasc2, ?_, ?_, ?_⟩
            · rw [List.foldl_cons]
              dsimp only
              rw [hlk, heqd]
              exact heq
            · exact fileRemovalSafe_comp hsubd hwfc.nodup hfsd hfs2
            · exact dirRemovalSafe_comp hsubd hwfc.nodup hfsd hdsd hds2
            · intro hall m hm hmdir
              rcases List.mem_cons.mp hm with rfl | hm2
              · have hgone : (p ++ [m]) ∉ fsd.keys := by
                  apply hgd
                  · exact allSentinel_sub (hall.mono (by simp)) hsubc hwf.nodup
                  · exact List.prefix_rfl
                intro hmem2
                exact hgone (hsub2.keys_subset hmem2)
              · exact hg2 hall m hm2 hmdir
    have hmemn : ∀ n ∈ fs.childNames p, (p ++ [n]) ∈ fs.keys :=
      fun n hn => FS.mem_childNames.mp hn
    obtain ⟨fs2, heq, hwf2, hsub2, hcasc2, hfs2, hds2, hg2⟩ :=
      hfold (fs.childNames p) fs1 hmemn hwf1 hsub1 hcasc1
    have heval : walkDel (f + 1) fs p = .ok fs2 := by
      rw [walkDel, hrd]
      dsimp only
      rw [hrdel]
      exact heq
    refine ⟨fs2, heval, hwf2, hsub2.trans hsub1, hcasc2,
      fileRemovalSafe_comp hsub1 hwf.nodup hfsafe1 hfs2,
      dirRemovalSafe_comp hsub1 hwf.nodup hfsafe1 hdsafe1 hds2, ?_⟩
    intro hall q hpre
    have hpgone : p ∉ fs2.keys := by
      rcases (cascaded_cons_iff fs2 hp).mp hcasc2 with ⟨hpmem2, hnpr⟩ | ⟨hgone2, _⟩
      · exfalso
        apply hnpr
        have hsubfull : fs2.Sub fs := (hsub2.trans hsub1)
        have hmemsent : ∀ m ∈ fs2.childNames p, m = siadirName := by
          intro m hm
          have hmkey2 : (p ++ [m]) ∈ fs2.keys := FS.mem_childNames.mp hm
          have hmkey : (p ++ [m]) ∈ fs.keys := hsubfull.keys_subset hmkey2
          obtain ⟨nn, hnn⟩ := FS.lookup_isSome_of_mem hmkey2
          have hcoh := hsubfull.lookup_coh hwf.nodup hnn
          cases nn with
          | dir =>
            exfalso
            apply hg2 hall m (FS.mem_childNames.mpr hmkey) (FS.isDir_iff.mpr hcoh)
            exact hmkey2
          | file d =>
            have hmfile : fs.isFile (p ++ [m]) = true := FS.isFile_iff.mpr ⟨d, hcoh⟩
            have := hall (p ++ [m]) hmkey hmfile (by simp)
            rw [List.getLast?_concat] at this
            simpa using this
        rcases nodup_all_eq (FS.childNames_nodup hwf2.nodup p) hmemsent with hc | hc
        · exact Or.inl hc
        · exact Or.inr hc
      · exact hgone2
    intro hqmem
    rcases eq_or_ne p q with rfl | hne
    · exact hpgone hqmem
    · exact hpgone (hwf2.prefix_mem hqmem hpre hp)

/-- Pruning a tree whose files are all sentinels removes everything at
or below the root (the root itself included). -/
theorem deleteEmptyDirs_spec (fs : FS) (root : GoPath) (hwf : WF fs)
    (hnsd : noSiadirDirs fs) (hroot : fs.isDir root = true)
    (hall : allSentinel fs root) :
    ∃ fs2, deleteEmptyDirs fs root = .ok fs2 ∧ ∀ q, root <+: q → q ∉ fs2.keys := by
  have hrne : root ≠ [] := hwf.ne_nil root (FS.isDir_mem_keys hroot)
  obtain ⟨fs2, heq, _, _, _, _, _, hg⟩ :=
    walkDel_spec (fsHeight fs + 1) fs root (fsHeight fs) hwf hnsd hrne hroot
      (fun q hq => fsHeight_bound hq) (by omega)
  refine ⟨fs2, ?_, hg hall⟩
  rw [deleteEmptyDirs, FS.isDir_iff.mp hroot]
  exact heq

/-- A successful prune pass only removes sentinel files and directories
that held nothing but sentinels. -/
theorem deleteEmptyDirs_safe (fs : FS) (root : GoPath) (fs2 : FS) (hwf : WF fs)
    (hnsd : noSiadirDirs fs) (heq : deleteEmptyDirs fs root = .ok fs2) :
    fileRemovalSafe fs fs2 ∧ dirRemovalSafe fs fs2 := by
  rw [deleteEmptyDirs] at heq
  cases hl : fs.lookup root with
  | none =>
    rw [hl] at heq
    have : fs = fs2 := by
      simpa using heq
    rw [← this]
    exact ⟨fileRemovalSafe_id, dirRemovalSafe_id⟩
  | some node =>
    cases node with
    | file d =>
      rw [hl] at heq
      have : fs = fs2 := by
        simpa using heq
      rw [← this]
      exact ⟨fileRemovalSafe_id, dirRemovalSafe_id⟩
    | dir =>
      rw [hl] at heq
      have hroot : fs.isDir root = true := FS.isDir_iff.mpr hl
      have hrne : root ≠ [] := hwf.ne_nil root (FS.isDir_mem_keys hroot)
      obtain ⟨fs2x, heqx, _, _, _, hfsx, hdsx, _⟩ :=
        walkDel_spec (fsHeight fs + 1) fs root (fsHeight fs) hwf hnsd hrne hroot
          (fun q hq => fsHeight_bound hq) (by omega)
      rw [heqx] at heq
      have : fs2x = fs2 := by
        simpa using heq
      rw [← this]
      exact ⟨hfsx, hdsx⟩

/-! Claim C2: what the Empty-Directory Pruner deletes. -/

/-- A tree used to refute the preserved-root claim: the root w/r has
a single branch aa holding only a sentinel.  (Kept small so that the
refutation evaluates.) -/
def fsAllSent : FS := ⟨[(["w"], .dir), (["w", "r"], .dir), (["w", "r", "aa"], .dir),
  (["w", "r", "aa", siadirName], .file (.bytes []))]⟩

/-- Claim C2, counterexample: on a tree whose only branch under the
root holds just the sentinel, deleteEmptyDirs removes the root itself,
and even cascades past it into the directory above the root. -/
theorem claim_C2_counterexample :
    fsAllSent.lookup ["w", "r"] = some .dir ∧
    deleteEmptyDirs fsAllSent ["w", "r"] = .ok (FS.mk []) := by
  refine ⟨by decide, by decide⟩

/-- Claim C2, amended: on a well-formed tree (with no directory named
like the sentinel) whose files at or below the root are all sentinels,
the pruner succeeds and removes every directory strictly below the
root, and the root itself as well (it does not stop at the tree root:
the cascade can continue above it, stopping only at the first ancestor
that still has other entries or at the top). -/
theorem claim_C2 (fs : FS) (root : GoPath) (hwf : WF fs) (hnsd : noSiadirDirs fs)
    (hroot : fs.isDir root = true) (hall : allSentinel fs root) :
    ∃ fs2, deleteEmptyDirs fs root = .ok fs2 ∧ ∀ q, root <+: q → q ∉ fs2.keys :=
  deleteEmptyDirs_spec fs root hwf hnsd hroot hall

/-- Claim C2, witness: the amended theorem applied to the concrete
all-sentinel tree. -/
theorem claim_C2_witness :
    ∃ fs2, deleteEmptyDirs fsAllSent ["w", "r"] = .ok fs2 ∧
      ∀ q, ["w", "r"] <+: q → q ∉ fs2.keys :=
  claim_C2 fsAllSent ["w", "r"] ⟨by decide, by decide, by decide, by decide⟩
    (by decide) (by decide) (by decide)

/-! Claim C3: the pruner never removes a meaningfully nonempty
directory. -/

/-- Claim C3: recurviseDelete, called on a directory holding two or
more entries, or exactly one entry that is not named like the sentinel,
returns success with the filesystem unchanged; and consequently a
successful deleteEmptyDirs pass only ever removes sentinel files and
directories holding nothing but sentinels anywhere beneath them. -/
theorem claim_C3 :
    (∀ (fs : FS) (p : GoPath), p ≠ [] → fs.isDir p = true →
      (1 < (fs.childNames p).length ∨
        ∃ n, fs.childNames p = [n] ∧ n ≠ siadirName) →
      recurviseDelete fs p = .ok fs) ∧
    (∀ (fs : FS) (root : GoPath) (fs2 : FS), WF fs → noSiadirDirs fs →
      deleteEmptyDirs fs root = .ok fs2 →
      fileRemovalSafe fs fs2 ∧ dirRemovalSafe fs fs2) :=
  ⟨fun _ _ hp hdir hstop => recurviseDelete_stop hp hdir hstop,
    fun fs root fs2 hwf hnsd heq => deleteEmptyDirs_safe fs root fs2 hwf hnsd heq⟩

/-- A directory with one plain file, used as the C3 witness. -/
def fsBusy : FS := ⟨[(["r"], .dir), (["r", "data.sia"], .file (.bytes [7]))]⟩

/-! The Sentinel Writer: createSiaDir. -/

/-- The metadata record createSiaDir builds at time now: every
health/redundancy/mode field at its external default constant
(collapsed into the opaque defaultsTag, since the tool copies them
verbatim and never inspects them), and both timestamp fields set to
now (the single time.Now() call). -/
def mkMetadata (now : Nat) : SiaDirMetadata :=
  { aggregateModTime := now, modTime := now, defaultsTag := () }

/-- Outcome of the os.Stat existence check as createSiaDir consumes
it: the file was found, or stat failed with a does-not-exist error, or
stat failed with any other error. -/
inductive StatResult where
  | found
  | errNotExist
  | errOther
deriving DecidableEq, Repr

/-- os.Stat in the pure model: no I/O failures exist here, so the
outcome is found or errNotExist.  createSiaDirWith below still covers
errOther, the real-world third case. -/
def modelStat (fs : FS) (p : GoPath) : StatResult :=
  if p ∈ fs.keys then .found else .errNotExist

/-- createSiaDir from main.go with the os.Stat outcome made explicit.
The source checks !os.IsNotExist(err): whenever the stat outcome is
anything other than a does-not-exist error (the sentinel exists, or
the check itself failed), it returns success immediately without
creating or writing anything.  Only on errNotExist does it marshal a
fresh default metadata record (both timestamps at now) and write it to
dir/.siadir, failing if dir is not an existing directory (as the
O_CREATE open would fail). -/
def createSiaDirWith (statResult : StatResult) (fs : FS) (dir : GoPath) (now : Nat) :
    Except FsErr FS :=
  match statResult with
  | .errNotExist =>
    match fs.lookup dir with
    | some .dir =>
      .ok (fs.insert (dir ++ [siadirName]) (.file (.meta (mkMetadata now))))
    | _ => .error (.notExist dir)
  | _ => .ok fs

/-- createSiaDir from main.go over the pure filesystem. -/
def createSiaDir (fs : FS) (dir : GoPath) (now : Nat) : Except FsErr FS :=
  createSiaDirWith (modelStat fs (dir ++ [siadirName])) fs dir now

/-- Claim C3, witness: the theorem applied at a directory with a single
non-sentinel entry, and the safety clause applied to a pruning pass
over it. -/
theorem claim_C3_witness :
    recurviseDelete fsBusy ["r"] = .ok fsBusy ∧
    (fileRemovalSafe fsBusy fsBusy ∧ dirRemovalSafe fsBusy fsBusy) :=
  ⟨claim_C3.1 fsBusy ["r"] (by decide) (by decide)
      (Or.inr ⟨"data.sia", by decide, by decide⟩),
    claim_C3.2 fsBusy ["r"] fsBusy ⟨by decide, by decide, by decide, by decide⟩
      (by decide) (by decide)⟩

/-! Lemmas about insert. -/

theorem FS.erase_no_self (fs : FS) (p : GoPath) :
    (fs.erase p).entries.find? (fun e => e.1 == p) = none := by
  rw [List.find?_eq_none]
  intro e he
  have := (List.mem_filter.mp he).2
  simpa using this

theorem FS.insert_lookup_self (fs : FS) (p : GoPath) (n : FNode) :
    (fs.insert p n).lookup p = some n := by
  rw [insert, lookup]
  show Option.map Prod.snd (List.find? _ ((fs.erase p).entries ++ [(p, n)])) = some n
  rw [List.find?_append, FS.erase_no_self]
  simp

theorem FS.insert_mem_keys (fs : FS) (p : GoPath) (n : FNode) :
    p ∈ (fs.insert p n).keys :=
  FS.lookup_mem_keys (FS.insert_lookup_self fs p n)

/-! Claim C6: sentinel idempotence. -/

/-- Claim C6: if the directory already carries the sentinel,
createSiaDir succeeds without modifying anything; consequently after
any successful createSiaDir call a second call is a no-op returning
success, and when the first call actually created the sentinel, both
of its timestamp fields still hold the first call's time after the
second call. -/
theorem claim_C6 :
    (∀ (fs : FS) (dir : GoPath) (t : Nat),
      (dir ++ [siadirName]) ∈ fs.keys → createSiaDir fs dir t = .ok fs) ∧
    (∀ (fs : FS) (dir : GoPath) (t1 t2 : Nat) (fs1 : FS),
      createSiaDir fs dir t1 = .ok fs1 →
      createSiaDir fs1 dir t2 = .ok fs1 ∧
      ((dir ++ [siadirName]) ∉ fs.keys →
        ∃ md, fs1.lookup (dir ++ [siadirName]) = some (.file (.meta md)) ∧
          md.modTime = t1 ∧ md.aggregateModTime = t1)) := by
  have hfound : ∀ (fs : FS) (dir : GoPath) (t : Nat),
      (dir ++ [siadirName]) ∈ fs.keys → createSiaDir fs dir t = .ok fs := by
    intro fs dir t hmem
    rw [createSiaDir, modelStat, if_pos hmem]
    rfl
  refine ⟨hfound, ?_⟩
  intro fs dir t1 t2 fs1 h1
  by_cases hmem : (dir ++ [siadirName]) ∈ fs.keys
  · rw [hfound fs dir t1 hmem] at h1
    have hfs : fs = fs1 := by simpa using h1
    subst hfs
    exact ⟨hfound fs dir t2 hmem, fun hc => absurd hmem hc⟩
  · rw [createSiaDir, modelStat, if_neg hmem] at h1
    cases hdd : fs.lookup dir with
    | none =>
      rw [createSiaDirWith, hdd] at h1
      exact absurd h1 (by simp)
    | some node =>
      cases node with
      | file d =>
        rw [createSiaDirWith, hdd] at h1
        exact absurd h1 (by simp)
      | dir =>
        rw [createSiaDirWith, hdd] at h1
        have hfs1 : fs1 = fs.insert (dir ++ [siadirName]) (.file (.meta (mkMetadata t1))) := by
          have := h1
          simp only [Except.ok.injEq] at this
          exact this.symm
        have hlk : fs1.lookup (dir ++ [siadirName])
            = some (.file (.meta (mkMetadata t1))) := by
          rw [hfs1]
          exact FS.insert_lookup_self _ _ _
        refine ⟨hfound fs1 dir t2 (FS.lookup_mem_keys hlk), ?_⟩
        intro _
        exact ⟨mkMetadata t1, hlk, rfl, rfl⟩

/-- A bare directory for the C6 witness. -/
def fsBare : FS := ⟨[(["d"], .dir)]⟩

/-- Claim C6, witness: creating the sentinel at time 5 in a bare
directory and checking that a second call at time 9 changes nothing
and the stored timestamps are still 5. -/
theorem claim_C6_witness :
    createSiaDir (fsBare.insert (["d"] ++ [siadirName]) (.file (.meta (mkMetadata 5)))) ["d"] 9
      = .ok (fsBare.insert (["d"] ++ [siadirName]) (.file (.meta (mkMetadata 5)))) :=
  claim_C6.1 (fsBare.insert (["d"] ++ [siadirName]) (.file (.meta (mkMetadata 5))))
    ["d"] 9 (by decide)

/-! Claim C9: a failed existence check is treated as presence. -/

/-- Claim C9: when the os.Stat existence check fails with any error
other than does-not-exist, createSiaDir returns success immediately
without creating or writing anything, indistinguishable from the
sentinel already existing. -/
theorem claim_C9 (fs : FS) (dir : GoPath) (now : Nat) :
    createSiaDirWith .errOther fs dir now = .ok fs := rfl

/-!
The Tree Rename Walker: renameAll.

The walk again visits the tree with per-directory listing snapshots.
The callback of renameAll has no nil-file-info guard: if a listed entry
has vanished by the time it is visited, the Go callback dereferences a
nil interface and the process dies; the model returns the nilInfo
error for that case (the theorems show or assume runs where it does
not happen; in this tool a moved-away companion file always sorts
before its primary, so the case is unreachable for static input
trees).

The random source is modelled as the list of 16-byte blocks the
generator will draw; it is inexhaustible in reality, so the model
reports a rngOut error when the supplied list is too short and all
runs of interest carry a long-enough list.

The clock models time.Now(): it ticks once per createSiaDir call. -/

/-- filepath.Ext of a file name: the suffix beginning at the final
dot, empty when there is no dot. -/
def goExt (s : List Char) : List Char :=
  if '.' ∈ s then '.' :: (s.reverse.takeWhile (fun c => c ≠ '.')).reverse else []

/-- Go strings.TrimSuffix. -/
def trimSuffixChars (s suf : List Char) : List Char :=
  if suf <:+ s then s.take (s.length - suf.length) else s

/-- modules.SiaFileExtension. -/
def siaExt : List Char := ".sia".data

/-- The companion-suffix token. -/
def extendedTok : List Char := "-extended".data

/-- strings.TrimPrefix(path, root) for the visited path root ++ rel:
empty for the root itself, otherwise a slash followed by the joined
relative segments. -/
def renderRel (rel : List String) : List Char :=
  match rel with
  | [] => []
  | _ :: _ => '/' :: joinSlash (rel.map String.data)

/-- Whether the final name carries the primary extension. -/
def siaFileB (p : GoPath) : Bool := goExt (p.getLastD "").data == siaExt

/-- Whether the name minus the primary extension ends in the companion
token (the check of line 260 on the last segment; the token contains
no separator, so the whole-path suffix check of the source is the same
check). -/
def extendedStemB (p : GoPath) : Bool :=
  decide (extendedTok <:+ trimSuffixChars (p.getLastD "").data siaExt)

/-- The classifier applied to the path relative to root, as renameAll
does on line 249. -/
def validAtB (root p : GoPath) : Bool :=
  validDirStructure dirDepth₀ dirLength₀ (renderRel (p.drop root.length))

/-- The companion path the source derives from an original primary
path (line 267: the extension is trimmed twice). -/
def companionOld (p : GoPath) : GoPath :=
  p.dropLast ++ [String.mk (trimSuffixChars (trimSuffixChars (p.getLastD "").data siaExt)
    siaExt ++ extendedTok ++ siaExt)]

/-- The companion path the source derives from a generated primary
path (line 268: the extension is trimmed once). -/
def companionNew (p : GoPath) : GoPath :=
  p.dropLast ++ [String.mk (trimSuffixChars (p.getLastD "").data siaExt
    ++ extendedTok ++ siaExt)]

/-- The generated destination path for a drawn block. -/
def targetOf (root : GoPath) (block : List Nat) : GoPath :=
  root ++ (splitSlash (randomName dirDepth₀ dirLength₀ (hexEncode block) ++ siaExt)).map
    String.mk

/-- os.MkdirAll, ancestors first, indexed by the number of segments
exactly as in recurviseDeleteGo (always called with d = p.length, so
the 0-with-segments case is unreachable). -/
def mkdirAllGo : Nat → FS → GoPath → Except FsErr FS
  | _, fs, [] => .ok fs
  | 0, fs, _ :: _ => .ok fs
  | d + 1, fs, p@(_ :: _) =>
    match mkdirAllGo d fs p.dropLast with
    | .error e => .error e
    | .ok fs1 =>
      match fs1.lookup p with
      | none => .ok (fs1.insert p .dir)
      | some .dir => .ok fs1
      | some (.file _) => .error (.notDir p)

/-- os.MkdirAll: create every missing prefix directory, failing if an
existing non-directory blocks the path. -/
def mkdirAll (fs : FS) (dir : GoPath) : Except FsErr FS :=
  mkdirAllGo dir.length fs dir

/-- ioutil.WriteFile: create or truncate-and-overwrite a file (the
parent must be an existing directory, the target must not be an
existing directory). -/
def writeFile (fs : FS) (p : GoPath) (c : FData) : Except FsErr FS :=
  match fs.lookup p.dropLast with
  | some .dir =>
    match fs.lookup p with
    | some .dir => .error (.readOfDir p)
    | _ => .ok (fs.insert p (.file c))
  | _ => .error (.notExist p.dropLast)

/-- copyFile from main.go: read the whole source, write it to the
destination, then remove the source. -/
def copyFile (fs : FS) (oldPath newPath : GoPath) : Except FsErr FS :=
  match fs.lookup oldPath with
  | some (.file c) =>
    match writeFile fs newPath c with
    | .error e => .error e
    | .ok fs1 => osRemove fs1 oldPath
  | some .dir => .error (.readOfDir oldPath)
  | none => .error (.notExist oldPath)

/-- Observable actions of one renameAll run, recorded where the
source performs them: a line written to the dirpaths sink (line 275),
an os.MkdirAll call (line 281), an actual sentinel creation for a new
destination directory (line 287), the re-run-path sentinel check of a
validly placed file (line 253), and a completed copyFile relocation. -/
inductive REvent where
  | logLine : GoPath → REvent
  | mkdirAll : GoPath → REvent
  | mkSentinel : GoPath → REvent
  | ensureSentinel : GoPath → REvent
  | move : GoPath → GoPath → REvent
deriving DecidableEq, Repr

/-- The state a renameAll run threads: the filesystem, the lines this
run appended to the dirpaths sink, the process-global destination
directory set (the dirs map of main.go, never cleared), the recorded
actions, the clock, and the remaining random blocks. -/
structure RState where
  fs : FS
  log : List GoPath
  dirs : List GoPath
  trace : List REvent
  clock : Nat
  rng : List (List Nat)
deriving DecidableEq, Repr

/-- The renameAll callback on a visited file (lines 236-321). -/
def fileVisit (st : RState) (root p : GoPath) : Except FsErr RState :=
  let nameChars := (p.getLastD "").data
  if goExt nameChars ≠ siaExt then .ok st
  else
    if validAtB root p then
      match createSiaDir st.fs p.dropLast st.clock with
      | .error e => .error e
      | .ok fs1 =>
        .ok { st with
              fs := fs1,
              clock := st.clock + 1,
              trace := st.trace ++ [.ensureSentinel p.dropLast] }
    else
      if extendedTok <:+ trimSuffixChars nameChars siaExt then .ok st
      else
        match st.rng with
        | [] => .error .rngOut
        | block :: rng1 =>
          let newPath := targetOf root block
          let oldPathExtended := companionOld p
          let newPathExtended := companionNew newPath
          let dir := newPath.dropLast
          let afterDirs : Except FsErr RState :=
            if dir ∈ st.dirs then .ok { st with rng := rng1 }
            else
              match mkdirAll st.fs dir with
              | .error e => .error e
              | .ok fsm =>
                match createSiaDir fsm dir st.clock with
                | .error e => .error e
                | .ok fsm2 =>
                  .ok { st with
                        fs := fsm2,
                        rng := rng1,
                        log := st.log ++ [dir],
                        clock := st.clock + 1,
                        trace := st.trace ++ [.logLine dir, .mkdirAll dir, .mkSentinel dir] }
          match afterDirs with
          | .error e => .error e
          | .ok st1 =>
            let st2 := { st1 with
              dirs := if dir ∈ st1.dirs then st1.dirs else st1.dirs ++ [dir] }
            if p = newPath then .ok st2
            else
              match copyFile st2.fs p newPath with
              | .error e => .error e
              | .ok fsc =>
                let st3 := { st2 with
                  fs := fsc,
                  trace := st2.trace ++ [.move p newPath] }
                if oldPathExtended ∈ st3.fs.keys then
                  match copyFile st3.fs oldPathExtended newPathExtended with
                  | .error e => .error e
                  | .ok fse =>
                    .ok { st3 with
                      fs := fse,
                      trace := st3.trace ++ [.move oldPathExtended newPathExtended] }
                else .ok st3

/-- The walk of renameAll: listing snapshot, the callback on the
directory itself (always a no-op: a directory is skipped by the
extension or the IsDir check), then the children, files through the
callback and directories recursively.  A vanished listed entry is the
nil-info process death described above. -/
def walkRen : Nat → RState → GoPath → GoPath → Except FsErr RState
  | 0, _, _, _ => .error .fuelOut
  | fuel + 1, st, root, p =>
    match readDir st.fs p with
    | .error _ => .ok st
    | .ok names =>
      names.foldl (fun (acc : Except FsErr RState) n =>
        match acc with
        | .error e => .error e
        | .ok stc =>
          match stc.fs.lookup (p ++ [n]) with
          | none => .error (.nilInfo (p ++ [n]))
          | some (.file _) => fileVisit stc root (p ++ [n])
          | some .dir => walkRen fuel stc root (p ++ [n])) (.ok st)

/-- renameAll from main.go over the pure filesystem.  The fuel covers
the deepest possible visit: created paths have root.length + 4
segments and the walk needs one level of fuel per segment below the
deepest existing path, so height + 5 always suffices. -/
def renameAll (st : RState) (root : GoPath) : Except FsErr RState :=
  match st.fs.lookup root with
  | none => .error (.nilInfo root)
  | some (.file _) => fileVisit st root root
  | some .dir => walkRen (fsHeight st.fs + 5) st root root

/-!
Shape lemmas for the rename model: the generated destination path, the
classifier on proper segment lists, and name disjointness.
-/

theorem joinSlash_append_last (xs : List (List Char)) (y z : List Char) :
    joinSlash (xs ++ [y]) ++ z = joinSlash (xs ++ [y ++ z]) := by
  cases hxs : xs with
  | nil => simp [joinSlash]
  | cons a as =>
    rw [← hxs, joinSlash_concat xs y (by simp [hxs]), joinSlash_concat xs (y ++ z) (by simp [hxs])]
    simp

theorem trimSuffix_append (s suf : List Char) : trimSuffixChars (s ++ suf) suf = s := by
  rw [trimSuffixChars, if_pos (List.suffix_append s suf)]
  simp

theorem goExt_append_sia (s : List Char) : goExt (s ++ siaExt) = siaExt := by
  rw [goExt, if_pos (by rw [List.mem_append]; right; decide), List.reverse_append]
  have hrev : siaExt.reverse = ['a', 'i', 's', '.'] := by decide
  rw [hrev]
  show ('.' :: (List.takeWhile _ ('a' :: 'i' :: 's' :: '.' :: s.reverse)).reverse) = siaExt
  rw [List.takeWhile_cons_of_pos (by decide), List.takeWhile_cons_of_pos (by decide),
    List.takeWhile_cons_of_pos (by decide), List.takeWhile_cons_of_neg (by decide)]
  decide

theorem goExt_eq_sia_iff (s : List Char) : goExt s = siaExt ↔ siaExt <:+ s := by
  constructor
  · intro h
    by_cases hdot : '.' ∈ s
    · rw [goExt, if_pos hdot] at h
      have htw : s.reverse.takeWhile (fun c => c ≠ '.') = ['a', 'i', 's'] := by
        have h3 : (s.reverse.takeWhile (fun c => c ≠ '.')).reverse = ['s', 'i', 'a'] := by
          rw [show siaExt = '.' :: ['s', 'i', 'a'] from by decide] at h
          exact (List.cons.inj h).2
        have h4 := congrArg List.reverse h3
        simpa using h4
      have hpre : (['a', 'i', 's'] : List Char) <+: s.reverse :=
        htw ▸ List.takeWhile_prefix _
      obtain ⟨rest, hrest⟩ := hpre
      have htw2 : List.takeWhile (fun c => decide (c ≠ '.')) rest = [] := by
        have h5 := htw
        rw [← hrest] at h5
        rw [show (['a', 'i', 's'] : List Char) ++ rest = 'a' :: 'i' :: 's' :: rest from rfl,
          List.takeWhile_cons_of_pos (by decide), List.takeWhile_cons_of_pos (by decide),
          List.takeWhile_cons_of_pos (by decide)] at h5
        simpa using h5
      cases hr : rest with
      | nil =>
        exfalso
        rw [hr, List.append_nil] at hrest
        have hs3 : s = ['s', 'i', 'a'] := by
          have h6 := congrArg List.reverse hrest
          simpa using h6.symm
        rw [hs3] at hdot
        simp at hdot
      | cons r0 rs =>
        have hr0 : r0 = '.' := by
          rw [hr, List.takeWhile_cons] at htw2
          by_cases hc : r0 = '.'
          · exact hc
          · exfalso
            rw [if_pos (by simpa using hc)] at htw2
            simp at htw2
        refine ⟨rs.reverse, ?_⟩
        have h7 := congrArg List.reverse hrest
        rw [List.reverse_reverse, hr, hr0] at h7
        rw [← h7]
        simp [siaExt]
    · exfalso
      rw [goExt, if_neg hdot] at h
      exact absurd h.symm (by decide)
  · rintro ⟨t, rfl⟩
    exact goExt_append_sia t

theorem siaFileB_iff (q : GoPath) :
    siaFileB q = true ↔ siaExt <:+ (q.getLastD "").data := by
  rw [siaFileB, beq_iff_eq]
  exact goExt_eq_sia_iff _

theorem sia_name_split {q : GoPath} (h : siaFileB q = true) :
    (q.getLastD "").data
      = trimSuffixChars (q.getLastD "").data siaExt ++ siaExt := by
  obtain ⟨t, ht⟩ := (siaFileB_iff q).mp h
  rw [← ht, trimSuffix_append]

theorem siaFileB_name_len {q : GoPath} (h : siaFileB q = true) :
    4 ≤ (q.getLastD "").data.length := by
  obtain ⟨t, ht⟩ := (siaFileB_iff q).mp h
  rw [← ht]
  simp [siaExt]

theorem hexEncode_mem_dash (bytes : List Nat) (c : Char) (h : c ∈ hexEncode bytes) :
    c ≠ '-' := by
  rw [hexEncode, List.mem_flatten] at h
  obtain ⟨l, hl, hcl⟩ := h
  rw [List.mem_map] at hl
  obtain ⟨x, _, rfl⟩ := hl
  have h1 : x / 16 % 16 < 16 := Nat.mod_lt _ (by norm_num)
  have h2 : x % 16 < 16 := Nat.mod_lt _ (by norm_num)
  have hd : ∀ m < 16, hexDigit m ≠ '-' := by decide
  simp only [List.mem_cons, List.not_mem_nil, or_false] at hcl
  rcases hcl with hcl | hcl
  · exact hcl ▸ hd _ h1
  · exact hcl ▸ hd _ h2

theorem hexEncode_mem_dot (bytes : List Nat) (c : Char) (h : c ∈ hexEncode bytes) :
    c ≠ '.' := (hexEncode_mem bytes c h).2

theorem properName_normalSeg {n : String} (h : properName n) : normalSeg n.data := by
  obtain ⟨h1, h2, h3, h4⟩ := h
  refine ⟨?_, h2, ?_, ?_⟩
  · intro hd
    apply h1
    cases n with
    | mk d =>
      have hd' : d = [] := hd
      subst hd'
      rfl
  · intro hd
    apply h3
    cases n with
    | mk d =>
      have hd' : d = ['.'] := hd
      subst hd'
      rfl
  · intro hd
    apply h4
    cases n with
    | mk d =>
      have hd' : d = ['.', '.'] := hd
      subst hd'
      rfl

/-- Characterization of the classifier on paths whose relative
segments are all proper names: exactly dirDepth + 1 segments with the
first dirDepth of length dirLength (the model of line 249-250 over the
segment representation). -/
theorem validDirStructure_join_iff (dd dl : Nat) (segs : List (List Char))
    (hne : segs ≠ []) (hs : ∀ seg ∈ segs, normalSeg seg) :
    validDirStructure dd dl ('/' :: joinSlash segs)
      = (decide (segs.length = dd + 1)
          && (segs.take dd).all (fun el => el.length = dl)) := by
  have hlast : segs.getLast hne ≠ [] := (hs _ (List.getLast_mem hne)).1
  obtain ⟨c, hc⟩ : ∃ c, (segs.getLast hne).getLast? = some c := by
    cases hsg : segs.getLast hne with
    | nil => exact absurd hsg hlast
    | cons x xs => exact ⟨(x :: xs).getLast (by simp), List.getLast?_eq_getLast _ (by simp)⟩
  have hcseg : c ∈ segs.getLast hne := by
    have := List.getLast?_eq_getLast (segs.getLast hne) hlast
    rw [this] at hc
    exact (Option.some.injEq _ _ ▸ hc) ▸ List.getLast_mem hlast
  have hcslash : c ≠ '/' := by
    intro hcc
    exact (hs _ (List.getLast_mem hne)).2.1 (hcc ▸ hcseg)
  have hjlast : (joinSlash segs).getLast? = some c := by
    rw [joinSlash_getLast? segs hne (fun seg hseg => (hs seg hseg).1)]
    exact hc
  have hplast : ('/' :: joinSlash segs).getLast? = some c := by
    have hjne : joinSlash segs ≠ [] := by
      intro hj
      rw [hj] at hjlast
      simp at hjlast
    rw [show ('/' :: joinSlash segs) = ['/'] ++ joinSlash segs from rfl,
      List.getLast?_append_of_ne_nil _ hjne]
    exact hjlast
  have hfile : (goSplit ('/' :: joinSlash segs)).2 ≠ [] :=
    goSplit_snd_ne_nil _ c hplast hcslash
  have hclean : goClean ('/' :: joinSlash segs) = '/' :: joinSlash segs :=
    goClean_join_rooted segs hne hs
  have hsplit : splitSlash (joinSlash segs) = segs :=
    splitSlash_joinSlash segs hne (fun seg hseg => (hs seg hseg).2.1)
  simp only [validDirStructure, if_neg hfile, hclean, trimSlash_slash, hsplit]
  by_cases hlen : segs.length = dd + 1
  · rw [if_neg (by omega), decide_eq_true hlen, Bool.true_and]
  · rw [if_pos (by omega), decide_eq_false hlen, Bool.false_and]

theorem validDirStructure_nil : validDirStructure dirDepth₀ dirLength₀ [] = false := by
  decide

/-- The classifier as renameAll applies it, on a path whose segments
below the root are proper names. -/
theorem validAtB_proper (root p : GoPath)
    (hs : ∀ m ∈ p.drop root.length, properName m) :
    validAtB root p
      = (decide ((p.drop root.length).length = dirDepth₀ + 1)
          && ((p.drop root.length).take dirDepth₀).all
              (fun m => decide (m.data.length = dirLength₀))) := by
  rw [validAtB]
  cases hrel : p.drop root.length with
  | nil =>
    rw [renderRel, validDirStructure_nil]
    simp
  | cons s rest =>
    rw [renderRel]
    have hsegs : (s :: rest).map String.data ≠ [] := by simp
    have hnorm : ∀ seg ∈ (s :: rest).map String.data, normalSeg seg := by
      intro seg hseg
      rw [List.mem_map] at hseg
      obtain ⟨m, hm, rfl⟩ := hseg
      exact properName_normalSeg (hs m (hrel ▸ hm))
    rw [validDirStructure_join_iff dirDepth₀ dirLength₀ _ hsegs hnorm]
    congr 1
    · simp
    · rw [← List.map_take]
      generalize List.take dirDepth₀ (s :: rest) = l
      induction l with
      | nil => rfl
      | cons a as ih => simp only [List.map_cons, List.all_cons, ih]

/-- The classifier result does not depend on the final (filename)
segment, for proper names. -/
theorem validAtB_concat (root d : GoPath) (n n' : String)
    (hd : ∀ m ∈ d.drop root.length, properName m)
    (hn : properName n) (hn' : properName n') :
    validAtB root (d ++ [n]) = validAtB root (d ++ [n']) := by
  by_cases hlen : root.length ≤ d.length
  · have hdropgen : ∀ (x : String), (d ++ [x]).drop root.length
        = d.drop root.length ++ [x] := by
      intro x
      rw [List.drop_append_of_le_length hlen]
    have hpgen : ∀ (x : String), properName x →
        ∀ m ∈ (d ++ [x]).drop root.length, properName m := by
      intro x hx m hm
      rw [hdropgen x] at hm
      rcases List.mem_append.mp hm with hm | hm
      · exact hd m hm
      · rw [List.mem_singleton] at hm
        exact hm ▸ hx
    rw [validAtB_proper root _ (hpgen n hn), validAtB_proper root _ (hpgen n' hn'),
      hdropgen n, hdropgen n']
    by_cases hk : (d.drop root.length).length = dirDepth₀
    · have htk : ∀ (x : String), (d.drop root.length ++ [x]).take dirDepth₀
          = d.drop root.length := by
        intro x
        rw [List.take_append_of_le_length (by omega), List.take_of_length_le (by omega)]
      rw [htk n, htk n']
      congr 1
      simp
    · have hdec : ∀ (x : String),
          decide ((d.drop root.length ++ [x]).length = dirDepth₀ + 1) = false := by
        intro x
        rw [decide_eq_false]
        simp only [List.length_append, List.length_singleton]
        omega
      rw [hdec n, hdec n', Bool.false_and, Bool.false_and]
  · have hdropgen : ∀ (x : String), (d ++ [x]).drop root.length = [] := by
      intro x
      rw [List.drop_eq_nil_iff]
      simp only [List.length_append, List.length_singleton]
      omega
    rw [validAtB, validAtB, hdropgen n, hdropgen n']

/-- The three directory-level names of a generated destination path. -/
def hexChunkNames (block : List Nat) : List String :=
  (nameChunks dirDepth₀ dirLength₀ (hexEncode block)).map String.mk

/-- The filename of a generated destination path. -/
def hexTailName (block : List Nat) : String :=
  String.mk ((hexEncode block).drop (dirLength₀ * dirDepth₀) ++ siaExt)

theorem normalSeg_properName {d : List Char} (h : normalSeg d) :
    properName (String.mk d) := by
  obtain ⟨h1, h2, h3, h4⟩ := h
  refine ⟨?_, h2, ?_, ?_⟩
  · intro hc
    exact h1 (congrArg String.data hc)
  · intro hc
    exact h3 (congrArg String.data hc)
  · intro hc
    exact h4 (congrArg String.data hc)

theorem nameChunks_spec (b : List Char) :
    nameChunks dirDepth₀ dirLength₀ b = [goSlice b 0 2, goSlice b 2 4, goSlice b 4 6] := by
  show (List.range 3).map _ = _
  rw [show List.range 3 = [0, 1, 2] from by decide]
  simp only [List.map_cons, List.map_nil]
  norm_num [dirLength₀]

theorem targetOf_eq (root : GoPath) (block : List Nat) :
    targetOf root block = (root ++ hexChunkNames block) ++ [hexTailName block] := by
  have hsf : ∀ seg ∈ nameChunks dirDepth₀ dirLength₀ (hexEncode block)
      ++ [(hexEncode block).drop (dirLength₀ * dirDepth₀) ++ siaExt], '/' ∉ seg := by
    intro seg hseg
    rcases List.mem_append.mp hseg with hseg | hseg
    · rw [nameChunks, List.mem_map] at hseg
      obtain ⟨i, _, rfl⟩ := hseg
      intro hc
      exact (hexEncode_mem block '/' (goSlice_subset _ _ _ _ hc)).1 rfl
    · rw [List.mem_singleton] at hseg
      subst hseg
      intro hc
      rcases List.mem_append.mp hc with hc | hc
      · exact (hexEncode_mem block '/' (List.drop_subset _ _ hc)).1 rfl
      · exact absurd hc (by decide)
  have h1 : randomName dirDepth₀ dirLength₀ (hexEncode block) ++ siaExt
      = joinSlash (nameChunks dirDepth₀ dirLength₀ (hexEncode block)
          ++ [(hexEncode block).drop (dirLength₀ * dirDepth₀) ++ siaExt]) := by
    rw [randomName_eq_join dirDepth₀ dirLength₀ _ (by decide), joinSlash_append_last]
  rw [targetOf, h1, splitSlash_joinSlash _ (by simp) hsf, List.map_append]
  rw [hexChunkNames, hexTailName]
  simp [List.append_assoc]

theorem hexChunkNames_length (block : List Nat) : (hexChunkNames block).length = 3 := by
  rw [hexChunkNames, List.length_map, nameChunks, List.length_map, List.length_range]
  rfl

theorem targetOf_length (root : GoPath) (block : List Nat) :
    (targetOf root block).length = root.length + 4 := by
  rw [targetOf_eq]
  simp [hexChunkNames_length]

theorem hexChunkNames_facts (block : List Nat) (h16 : block.length = 16) :
    ∀ n ∈ hexChunkNames block, properName n ∧ n.data.length = 2 := by
  have hb : (hexEncode block).length = 32 := by rw [hexEncode_length, h16]
  intro n hn
  rw [hexChunkNames, List.mem_map] at hn
  obtain ⟨seg, hseg, rfl⟩ := hn
  rw [nameChunks_spec] at hseg
  have hlen : seg.length = 2 := by
    have h0 : goSlice (hexEncode block) 0 2 = goSlice (hexEncode block) (2 * 0) (2 * (0 + 1)) := by
      norm_num
    have h1 : goSlice (hexEncode block) 2 4 = goSlice (hexEncode block) (2 * 1) (2 * (1 + 1)) := by
      norm_num
    have h2 : goSlice (hexEncode block) 4 6 = goSlice (hexEncode block) (2 * 2) (2 * (2 + 1)) := by
      norm_num
    simp only [List.mem_cons, List.not_mem_nil, or_false] at hseg
    rcases hseg with rfl | rfl | rfl
    · rw [h0, goSlice_length _ 2 0 (by omega)]
    · rw [h1, goSlice_length _ 2 1 (by omega)]
    · rw [h2, goSlice_length _ 2 2 (by omega)]
  have hsub : ∀ c ∈ seg, c ∈ hexEncode block := by
    intro c hc
    simp only [List.mem_cons, List.not_mem_nil, or_false] at hseg
    rcases hseg with rfl | rfl | rfl <;> exact goSlice_subset _ _ _ c hc
  refine ⟨normalSeg_properName (normalSeg_of_hex block seg ?_ hsub), hlen⟩
  intro hnil
  rw [hnil] at hlen
  simp at hlen

theorem hexTailName_data (block : List Nat) :
    (hexTailName block).data
      = (hexEncode block).drop (dirLength₀ * dirDepth₀) ++ siaExt := rfl

theorem hexTailName_proper (block : List Nat) : properName (hexTailName block) := by
  apply normalSeg_properName
  have hlen : ((hexEncode block).drop (dirLength₀ * dirDepth₀) ++ siaExt).length
      = ((hexEncode block).drop (dirLength₀ * dirDepth₀)).length + 4 := by
    simp [siaExt]
  refine ⟨?_, ?_, ?_, ?_⟩
  · intro hc
    rw [hc] at hlen
    simp at hlen
  · intro hc
    rcases List.mem_append.mp hc with hc | hc
    · exact (hexEncode_mem block '/' (List.drop_subset _ _ hc)).1 rfl
    · exact absurd hc (by decide)
  · intro hc
    rw [hc] at hlen
    simp at hlen
  · intro hc
    rw [hc] at hlen
    simp at hlen

theorem hexTailName_len (block : List Nat) (h16 : block.length = 16) :
    (hexTailName block).data.length = 30 := by
  have hb : (hexEncode block).length = 32 := by rw [hexEncode_length, h16]
  rw [hexTailName_data]
  simp [siaExt, hb]
  decide

theorem targetOf_drop (root : GoPath) (block : List Nat) :
    (targetOf root block).drop root.length = hexChunkNames block ++ [hexTailName block] := by
  rw [targetOf_eq, List.append_assoc, List.drop_left]

theorem targetOf_valid (root : GoPath) (block : List Nat) (h16 : block.length = 16) :
    validAtB root (targetOf root block) = true := by
  have hp : ∀ m ∈ (targetOf root block).drop root.length, properName m := by
    rw [targetOf_drop]
    intro m hm
    rcases List.mem_append.mp hm with hm | hm
    · exact (hexChunkNames_facts block h16 m hm).1
    · rw [List.mem_singleton] at hm
      exact hm ▸ hexTailName_proper block
  rw [validAtB_proper root _ hp, targetOf_drop]
  have hlen : (hexChunkNames block ++ [hexTailName block]).length = dirDepth₀ + 1 := by
    simp [hexChunkNames_length]
    decide
  rw [decide_eq_true hlen, Bool.true_and, List.take_append_of_le_length
    (by rw [hexChunkNames_length]; decide), List.take_of_length_le
    (by rw [hexChunkNames_length]; decide), List.all_eq_true]
  intro m hm
  rw [decide_eq_true_eq]
  exact (hexChunkNames_facts block h16 m hm).2

theorem targetOf_getLastD (root : GoPath) (block : List Nat) :
    (targetOf root block).getLastD "" = hexTailName block := by
  rw [targetOf_eq]
  exact List.getLastD_concat _ _ _

theorem targetOf_dropLast (root : GoPath) (block : List Nat) :
    (targetOf root block).dropLast = root ++ hexChunkNames block := by
  rw [targetOf_eq]
  exact List.dropLast_concat ..

theorem siaFileB_targetOf (root : GoPath) (block : List Nat) :
    siaFileB (targetOf root block) = true := by
  rw [siaFileB_iff, targetOf_getLastD, hexTailName_data]
  exact List.suffix_append _ _

theorem extendedStemB_targetOf (root : GoPath) (block : List Nat) :
    extendedStemB (targetOf root block) = false := by
  rw [extendedStemB, targetOf_getLastD, hexTailName_data, trimSuffix_append,
    decide_eq_false_iff_not]
  intro hsuf
  have hd : '-' ∈ (hexEncode block).drop (dirLength₀ * dirDepth₀) :=
    hsuf.subset (by decide)
  exact hexEncode_mem_dash block '-' (List.drop_subset _ _ hd) rfl

theorem companionOld_dropLast (p : GoPath) : (companionOld p).dropLast = p.dropLast := by
  rw [companionOld]
  exact List.dropLast_concat ..

theorem companionNew_dropLast (p : GoPath) : (companionNew p).dropLast = p.dropLast := by
  rw [companionNew]
  exact List.dropLast_concat ..

theorem companionOld_getLastD (p : GoPath) :
    (companionOld p).getLastD ""
      = String.mk (trimSuffixChars (trimSuffixChars (p.getLastD "").data siaExt)
          siaExt ++ extendedTok ++ siaExt) := by
  rw [companionOld]
  exact List.getLastD_concat _ _ _

theorem companionNew_getLastD (p : GoPath) :
    (companionNew p).getLastD ""
      = String.mk (trimSuffixChars (p.getLastD "").data siaExt
          ++ extendedTok ++ siaExt) := by
  rw [companionNew]
  exact List.getLastD_concat _ _ _

theorem siaFileB_companionOld (p : GoPath) : siaFileB (companionOld p) = true := by
  rw [siaFileB_iff, companionOld_getLastD]
  show siaExt <:+ _ ++ extendedTok ++ siaExt
  exact List.suffix_append _ _

theorem siaFileB_companionNew (p : GoPath) : siaFileB (companionNew p) = true := by
  rw [siaFileB_iff, companionNew_getLastD]
  show siaExt <:+ _ ++ extendedTok ++ siaExt
  exact List.suffix_append _ _

theorem extendedStemB_companionOld (p : GoPath) :
    extendedStemB (companionOld p) = true := by
  rw [extendedStemB, companionOld_getLastD]
  show decide (extendedTok <:+ trimSuffixChars
    ((_ ++ extendedTok) ++ siaExt) siaExt) = true
  rw [trimSuffix_append, decide_eq_true_iff]
  exact List.suffix_append _ _

theorem extendedStemB_companionNew (p : GoPath) :
    extendedStemB (companionNew p) = true := by
  rw [extendedStemB, companionNew_getLastD]
  show decide (extendedTok <:+ trimSuffixChars
    ((_ ++ extendedTok) ++ siaExt) siaExt) = true
  rw [trimSuffix_append, decide_eq_true_iff]
  exact List.suffix_append _ _

theorem companionOld_name_proper {n : String} (hn : properName n) (p : GoPath)
    (hlast : p.getLastD "" = n) :
    properName ((companionOld p).getLastD "") := by
  rw [companionOld_getLastD, hlast]
  apply normalSeg_properName
  have hlen : (trimSuffixChars (trimSuffixChars n.data siaExt) siaExt
      ++ extendedTok ++ siaExt).length
      = (trimSuffixChars (trimSuffixChars n.data siaExt) siaExt).length + 13 := by
    simp [extendedTok, siaExt]
  refine ⟨?_, ?_, ?_, ?_⟩
  · intro hc
    rw [hc] at hlen
    simp at hlen
  · intro hc
    rcases List.mem_append.mp hc with hc | hc
    · rcases List.mem_append.mp hc with hc | hc
      · have : '/' ∈ n.data := by
          rw [trimSuffixChars] at hc
          split at hc
          · rw [trimSuffixChars] at hc
            split at hc
            · exact List.take_subset _ _ (List.take_subset _ _ hc)
            · exact List.take_subset _ _ hc
          · rw [trimSuffixChars] at hc
            split at hc
            · exact List.take_subset _ _ hc
            · exact hc
        exact hn.2.1 this
      · exact absurd hc (by decide)
    · exact absurd hc (by decide)
  · intro hc
    rw [hc] at hlen
    simp at hlen
  · intro hc
    rw [hc] at hlen
    simp at hlen

theorem siadirName_proper : properName siadirName := by decide

/-- A sentinel-named path never carries the primary extension. -/
theorem siaFileB_last_siadir {q : GoPath} (h : q.getLastD "" = siadirName) :
    siaFileB q = false := by
  rw [siaFileB, h]
  decide

theorem siaFileB_sentinel (d : GoPath) : siaFileB (d ++ [siadirName]) = false :=
  siaFileB_last_siadir (List.getLastD_concat _ _ _)

/-! Injectivity of the generated names in the random hex block. -/

theorem append_cancel_r {α : Type} {a b c : List α} (h : a ++ c = b ++ c) : a = b := by
  have h2 := congrArg List.reverse h
  rw [List.reverse_append, List.reverse_append] at h2
  have h3 := List.append_cancel_left h2
  have h4 := congrArg List.reverse h3
  simpa using h4

theorem drop_take_two (b : List Char) (k m : Nat) (hm : m = k + 2) :
    (b.drop k).take 2 ++ b.drop m = b.drop k := by
  subst hm
  have h1 : (b.drop k).drop 2 = b.drop (k + 2) := by
    rw [List.drop_drop, Nat.add_comm]
  rw [← h1, List.take_append_drop]

theorem hex_reconstruct (b : List Char) :
    goSlice b 0 2 ++ (goSlice b 2 4 ++ (goSlice b 4 6 ++ b.drop 6)) = b := by
  have e1 : goSlice b 0 2 = (b.drop 0).take 2 := by
    rw [goSlice]
  have e2 : goSlice b 2 4 = (b.drop 2).take 2 := by
    rw [goSlice]
  have e3 : goSlice b 4 6 = (b.drop 4).take 2 := by
    rw [goSlice]
  rw [e1, e2, e3, drop_take_two b 4 6 (by norm_num), drop_take_two b 2 4 (by norm_num),
    drop_take_two b 0 2 (by norm_num), List.drop_zero]

theorem targetOf_parts_inj {b1 b2 : List Nat}
    (hch : hexChunkNames b1 = hexChunkNames b2)
    (htl : (hexEncode b1).drop (dirLength₀ * dirDepth₀)
      = (hexEncode b2).drop (dirLength₀ * dirDepth₀)) :
    hexEncode b1 = hexEncode b2 := by
  rw [hexChunkNames, hexChunkNames, nameChunks_spec, nameChunks_spec] at hch
  simp only [List.map_cons, List.map_nil, List.cons.injEq, and_true] at hch
  have hc1 : goSlice (hexEncode b1) 0 2 = goSlice (hexEncode b2) 0 2 :=
    congrArg String.data hch.1
  have hc2 : goSlice (hexEncode b1) 2 4 = goSlice (hexEncode b2) 2 4 :=
    congrArg String.data hch.2.1
  have hc3 : goSlice (hexEncode b1) 4 6 = goSlice (hexEncode b2) 4 6 :=
    congrArg String.data hch.2.2
  have htl6 : (hexEncode b1).drop 6 = (hexEncode b2).drop 6 := by
    have h6 : dirLength₀ * dirDepth₀ = 6 := by decide
    rw [h6] at htl
    exact htl
  rw [← hex_reconstruct (hexEncode b1), ← hex_reconstruct (hexEncode b2),
    hc1, hc2, hc3, htl6]

theorem targetOf_inj {root : GoPath} {b1 b2 : List Nat}
    (hne : hexEncode b1 ≠ hexEncode b2) : targetOf root b1 ≠ targetOf root b2 := by
  intro heq
  apply hne
  rw [targetOf_eq, targetOf_eq] at heq
  have hlen : (root ++ hexChunkNames b1).length = (root ++ hexChunkNames b2).length := by
    simp [hexChunkNames_length]
  obtain ⟨hpre, hlast⟩ := List.append_inj heq hlen
  have hch : hexChunkNames b1 = hexChunkNames b2 := List.append_cancel_left hpre
  have htl : hexTailName b1 = hexTailName b2 := by simpa using hlast
  have htld := congrArg String.data htl
  rw [hexTailName_data, hexTailName_data] at htld
  exact targetOf_parts_inj hch (append_cancel_r htld)

theorem companionNew_targetOf_inj {root : GoPath} {b1 b2 : List Nat}
    (hne : hexEncode b1 ≠ hexEncode b2) :
    companionNew (targetOf root b1) ≠ companionNew (targetOf root b2) := by
  intro heq
  apply hne
  rw [companionNew, companionNew, targetOf_dropLast, targetOf_dropLast,
    targetOf_getLastD, targetOf_getLastD] at heq
  have hlen : (root ++ hexChunkNames b1).length = (root ++ hexChunkNames b2).length := by
    simp [hexChunkNames_length]
  obtain ⟨hpre, hlast⟩ := List.append_inj heq hlen
  have hch : hexChunkNames b1 = hexChunkNames b2 := List.append_cancel_left hpre
  have hname := congrArg String.data (List.cons.inj hlast).1
  rw [hexTailName_data, hexTailName_data, trimSuffix_append, trimSuffix_append] at hname
  have htl := append_cancel_r (append_cancel_r hname)
  exact targetOf_parts_inj hch htl

theorem targetOf_ne_companionNew (root : GoPath) (b1 b2 : List Nat) :
    targetOf root b1 ≠ companionNew (targetOf root b2) := by
  intro heq
  have h1 := congrArg (fun q => List.getLastD q "") heq
  simp only at h1
  rw [targetOf_getLastD, companionNew_getLastD, targetOf_getLastD] at h1
  have h2 := congrArg String.data h1
  rw [hexTailName_data, hexTailName_data, trimSuffix_append] at h2
  have h3 := append_cancel_r h2
  have hdash : '-' ∈ (hexEncode b1).drop (dirLength₀ * dirDepth₀) := by
    rw [h3, List.mem_append]
    right
    decide
  exact hexEncode_mem_dash b1 '-' (List.drop_subset _ _ hdash) rfl

/-- A strictly-longer-than-the-root prefix of an appended path ends in
one of the appended names. -/
theorem prefix_last_mem {q r : GoPath} {ns : List String} (hpre : q <+: r ++ ns)
    (hlen : r.length < q.length) : ∃ n ∈ ns, q.getLastD "" = n := by
  obtain ⟨t, ht⟩ := hpre
  have htake : q.take r.length = r := by
    have h1 := congrArg (List.take r.length) ht
    rw [List.take_append_of_le_length (by omega), List.take_left] at h1
    exact h1
  have hslen : 0 < (q.drop r.length).length := by
    rw [List.length_drop]
    omega
  have hsne : q.drop r.length ≠ [] := by
    intro hc
    rw [hc] at hslen
    simp at hslen
  have hq : q = r ++ q.drop r.length := by
    have h3 := List.take_append_drop r.length q
    rw [htake] at h3
    exact h3.symm
  have hsuf : q.drop r.length ++ t = ns := by
    have h2 : r ++ (q.drop r.length ++ t) = r ++ ns := by
      rw [← List.append_assoc, ← hq, ht]
    exact List.append_cancel_left h2
  have hspre : q.drop r.length <+: ns := ⟨t, hsuf⟩
  have hgl : q.getLastD "" = (q.drop r.length).getLastD "" := by
    rw [List.getLastD_eq_getLast?, List.getLastD_eq_getLast?]
    have h4 : q.getLast? = (q.drop r.length).getLast? := by
      conv_lhs => rw [hq]
      exact List.getLast?_append_of_ne_nil _ hsne
    rw [h4]
  have hglmem : (q.drop r.length).getLastD "" ∈ q.drop r.length := by
    rw [List.getLastD_eq_getLast?, List.getLast?_eq_getLast _ hsne, Option.getD_some]
    exact List.getLast_mem hsne
  exact ⟨(q.drop r.length).getLastD "", hspre.subset hglmem, hgl⟩

/-! Lookup characterization of insert and erase. -/

theorem FS.erase_lookup (fs : FS) (p q : GoPath) :
    (fs.erase p).lookup q = if q = p then none else fs.lookup q := by
  by_cases h : q = p
  · rw [if_pos h, h]
    exact fs.erase_lookup_self p
  · rw [if_neg h]
    exact fs.erase_lookup_ne h

theorem FS.insert_lookup (fs : FS) (p q : GoPath) (n : FNode) :
    (fs.insert p n).lookup q = if q = p then some n else fs.lookup q := by
  by_cases h : q = p
  · rw [if_pos h, h]
    exact fs.insert_lookup_self p n
  · rw [if_neg h, FS.insert, FS.lookup]
    show ((((fs.erase p).entries ++ [(p, n)]).find? (fun e => e.1 == q)).map Prod.snd) = _
    rw [List.find?_append]
    have h2 : ([(p, n)].find? (fun e => e.1 == q)) = none := by
      rw [List.find?_eq_none]
      intro e he
      rw [List.mem_singleton] at he
      subst he
      simpa using fun hc => h hc.symm
    rw [h2]
    show (((fs.erase p).entries.find? (fun e => e.1 == q)).or none).map Prod.snd = _
    rw [Option.or_none]
    exact fs.erase_lookup_ne h

theorem FS.mem_keys_iff (fs : FS) (q : GoPath) : q ∈ fs.keys ↔ fs.lookup q ≠ none := by
  constructor
  · intro h hn
    exact (FS.lookup_eq_none_iff.mp hn) h
  · intro h
    by_contra hq
    exact h (FS.lookup_eq_none_iff.mpr hq)

theorem FS.mem_insert_keys_iff (fs : FS) (p q : GoPath) (n : FNode) :
    q ∈ (fs.insert p n).keys ↔ q = p ∨ q ∈ fs.keys := by
  rw [FS.mem_keys_iff, FS.mem_keys_iff, FS.insert_lookup]
  by_cases h : q = p
  · simp [h]
  · simp [h]

theorem FS.mem_erase_keys_iff (fs : FS) (p q : GoPath) :
    q ∈ (fs.erase p).keys ↔ q ≠ p ∧ q ∈ fs.keys := by
  rw [FS.mem_keys_iff, FS.mem_keys_iff, FS.erase_lookup]
  by_cases h : q = p
  · simp [h]
  · simp [h]

/-! Well-formedness preservation for the write operations. -/

theorem FS.keys_insert (fs : FS) (p : GoPath) (n : FNode) :
    (fs.insert p n).keys = (fs.erase p).keys ++ [p] := by
  rw [FS.insert]
  show ((fs.erase p).entries ++ [(p, n)]).map Prod.fst = _
  rw [List.map_append]
  rfl

theorem WF.not_dir_childless {fs : FS} (hwf : WF fs) {p : GoPath} (hne : p ≠ [])
    (hnd : fs.lookup p ≠ some .dir) : fs.childNames p = [] := by
  rw [FS.childNames_eq_nil_iff]
  intro n hmem
  have hdrop : (p ++ [n]).dropLast = p := List.dropLast_concat
  have := hwf.parent _ hmem (by rw [hdrop]; exact hne)
  rw [hdrop] at this
  exact hnd this

theorem WF.insert_node {fs : FS} (hwf : WF fs) {p : GoPath} {nd : FNode} (hne : p ≠ [])
    (hnames : ∀ n ∈ p, properName n)
    (hpar : p.dropLast ≠ [] → fs.lookup p.dropLast = some .dir)
    (hchild : nd.isFileNode = true → fs.childNames p = []) :
    WF (fs.insert p nd) := by
  have hdrop_ne : p.dropLast ≠ p := by
    intro hc
    have := congrArg List.length hc
    rw [List.length_dropLast] at this
    have hlen : 0 < p.length := List.length_pos.mpr hne
    omega
  refine ⟨?_, ?_, ?_, ?_⟩
  · rw [FS.keys_insert]
    apply List.Nodup.append
    · exact hwf.nodup.sublist ((List.filter_sublist _).map Prod.fst)
    · simp
    · intro q hq hq2
      rw [List.mem_singleton] at hq2
      subst hq2
      exact (FS.mem_erase_keys.mp hq).2 rfl
  · intro q hq
    rcases (FS.mem_insert_keys_iff fs p q nd).mp hq with rfl | hq2
    · exact hne
    · exact hwf.ne_nil q hq2
  · intro q hq
    rcases (FS.mem_insert_keys_iff fs p q nd).mp hq with rfl | hq2
    · exact hnames
    · exact hwf.names q hq2
  · intro q hq hqd
    rcases (FS.mem_insert_keys_iff fs p q nd).mp hq with rfl | hq2
    · rw [FS.insert_lookup, if_neg hdrop_ne]
      exact hpar hqd
    · by_cases hqp : q = p
      · subst hqp
        rw [FS.insert_lookup, if_neg hdrop_ne]
        exact hpar hqd
      · rw [FS.insert_lookup]
        by_cases hdp : q.dropLast = p
        · rw [if_pos hdp]
          cases hnd : nd with
          | dir => rfl
          | file c =>
            exfalso
            have hqnil : q ≠ [] := hwf.ne_nil q hq2
            have hch : fs.childNames p = [] := hchild (by rw [hnd]; rfl)
            have : q.getLast hqnil ∈ fs.childNames p := by
              rw [FS.mem_childNames, ← hdp, List.dropLast_append_getLast hqnil]
              exact hq2
            rw [hch] at this
            simp at this
        · rw [if_neg hdp]
          exact hwf.parent q hq2 hqd

theorem WF.insert_dir {fs : FS} (hwf : WF fs) {p : GoPath} (hne : p ≠ [])
    (hnames : ∀ n ∈ p, properName n)
    (hpar : p.dropLast ≠ [] → fs.lookup p.dropLast = some .dir) :
    WF (fs.insert p .dir) :=
  hwf.insert_node hne hnames hpar (fun hc => absurd hc (by simp [FNode.isFileNode]))

theorem WF.insert_file {fs : FS} (hwf : WF fs) {p : GoPath} (hne : p ≠ [])
    (hnames : ∀ n ∈ p, properName n)
    (hpar : p.dropLast ≠ [] → fs.lookup p.dropLast = some .dir)
    (hnd : fs.lookup p ≠ some .dir) (c : FData) :
    WF (fs.insert p (.file c)) :=
  hwf.insert_node hne hnames hpar (fun _ => hwf.not_dir_childless hne hnd)

theorem WF.erase_file {fs : FS} (hwf : WF fs) {p : GoPath} {c : FData}
    (hf : fs.lookup p = some (.file c)) : WF (fs.erase p) :=
  hwf.erase_childless (hwf.isFile_no_children (FS.isFile_iff.mpr ⟨c, hf⟩))

/-! Characterizations of the successful write operations. -/

theorem writeFile_ok {fs : FS} {p : GoPath} {c : FData} {fs' : FS}
    (h : writeFile fs p c = .ok fs') :
    fs.lookup p.dropLast = some .dir ∧ fs.lookup p ≠ some .dir ∧
      fs' = fs.insert p (.file c) := by
  rw [writeFile] at h
  cases hpar : fs.lookup p.dropLast with
  | none =>
    rw [hpar] at h
    exact absurd h (by simp)
  | some nd =>
    cases nd with
    | file d =>
      rw [hpar] at h
      exact absurd h (by simp)
    | dir =>
      rw [hpar] at h
      cases hp : fs.lookup p with
      | none =>
        rw [hp] at h
        refine ⟨rfl, by simp, (Except.ok.inj h).symm⟩
      | some nd2 =>
        cases nd2 with
        | dir =>
          rw [hp] at h
          exact absurd h (by simp)
        | file d2 =>
          rw [hp] at h
          refine ⟨rfl, by simp, (Except.ok.inj h).symm⟩

theorem copyFile_ok {fs : FS} {o n : GoPath} {fs' : FS}
    (h : copyFile fs o n = .ok fs') :
    ∃ c, fs.lookup o = some (.file c) ∧ fs.lookup n.dropLast = some .dir ∧
      fs.lookup n ≠ some .dir ∧ fs' = (fs.insert n (.file c)).erase o := by
  rw [copyFile] at h
  cases ho : fs.lookup o with
  | none =>
    rw [ho] at h
    exact absurd h (by simp)
  | some nd =>
    cases nd with
    | dir =>
      rw [ho] at h
      exact absurd h (by simp)
    | file c =>
      rw [ho] at h
      dsimp only at h
      cases hw : writeFile fs n c with
      | error e =>
        rw [hw] at h
        exact absurd h (by simp)
      | ok fs1 =>
        rw [hw] at h
        dsimp only at h
        obtain ⟨hpar, hnd, rfl⟩ := writeFile_ok hw
        refine ⟨c, rfl, hpar, hnd, ?_⟩
        rw [osRemove] at h
        have hlko : (fs.insert n (.file c)).lookup o = some (.file c) := by
          rw [FS.insert_lookup]
          by_cases ho2 : o = n
          · rw [if_pos ho2]
          · rw [if_neg ho2, ho]
        rw [hlko] at h
        exact (Except.ok.inj h).symm

/-- The filesystem after a successful copyFile, queried anywhere. -/
theorem copyFile_lookup {fs : FS} {o n : GoPath} {c : FData}
    (hc : fs.lookup o = some (.file c)) (q : GoPath) :
    (((fs.insert n (.file c)).erase o).lookup q)
      = if q = o then none else if q = n then some (.file c) else fs.lookup q := by
  rw [FS.erase_lookup, FS.insert_lookup]

/-! MkdirAll characterization. -/

theorem mkdirAll_concat (fs : FS) (q : GoPath) (a : String) :
    mkdirAll fs (q ++ [a])
      = match mkdirAll fs q with
        | .error e => .error e
        | .ok fs1 =>
          match fs1.lookup (q ++ [a]) with
          | none => .ok (fs1.insert (q ++ [a]) .dir)
          | some .dir => .ok fs1
          | some (.file _) => .error (.notDir (q ++ [a])) := by
  obtain ⟨hd, tl, hq⟩ : ∃ hd tl, q ++ [a] = hd :: tl := by
    cases hqa : q ++ [a] with
    | nil => exact absurd hqa (by simp)
    | cons hd tl => exact ⟨hd, tl, rfl⟩
  rw [mkdirAll, List.length_append, List.length_singleton, hq, mkdirAllGo, ← hq,
    List.dropLast_concat, ← mkdirAll]

theorem mkdirAll_facts : ∀ (dir : GoPath) (fs fs' : FS) (root : GoPath),
    mkdirAll fs dir = .ok fs' →
    WF fs →
    (∀ n ∈ dir, properName n) →
    (∀ r, r <+: dir → 0 < r.length → r.length ≤ root.length →
      fs.lookup r = some .dir) →
    WF fs' ∧
    (∀ q v, fs.lookup q = some v → fs'.lookup q = some v) ∧
    (∀ q, fs.lookup q = none → q ∈ fs'.keys →
      q <+: dir ∧ root.length < q.length ∧ fs'.lookup q = some .dir) ∧
    (dir ≠ [] → fs'.lookup dir = some .dir) := by
  intro dir
  induction dir using List.reverseRecOn with
  | nil =>
    intro fs fs' root h hwf _ _
    have hfs : fs = fs' := Except.ok.inj h
    subst hfs
    refine ⟨hwf, fun q v hv => hv, ?_, fun hc => absurd rfl hc⟩
    intro q hq hq2
    exact absurd (FS.lookup_eq_none_iff.mp hq hq2) (fun hc => hc)
  | append_singleton q a ih =>
    intro fs fs' root h hwf hnames hpre
    rw [mkdirAll_concat] at h
    cases hmk : mkdirAll fs q with
    | error e =>
      rw [hmk] at h
      exact absurd h (by simp)
    | ok fs1 =>
      rw [hmk] at h
      dsimp only at h
      have hnames1 : ∀ n ∈ q, properName n :=
        fun n hn => hnames n (by simp [hn])
      have hpre1 : ∀ r, r <+: q → 0 < r.length → r.length ≤ root.length →
          fs.lookup r = some .dir :=
        fun r hr h0 hl => hpre r (hr.trans (List.prefix_append q [a])) h0 hl
      obtain ⟨hwf1, hpres1, hadd1, hlast1⟩ := ih fs fs1 root hmk hwf hnames1 hpre1
      cases hlk : fs1.lookup (q ++ [a]) with
      | some nd =>
        cases nd with
        | file d =>
          rw [hlk] at h
          exact absurd h (by simp)
        | dir =>
          rw [hlk] at h
          have hfs : fs1 = fs' := Except.ok.inj h
          subst hfs
          refine ⟨hwf1, hpres1, ?_, fun _ => hlk⟩
          intro q' hq' hq'2
          obtain ⟨hp, hl, hd⟩ := hadd1 q' hq' hq'2
          exact ⟨hp.trans (List.prefix_append q [a]), hl, hd⟩
      | none =>
        rw [hlk] at h
        have hfs : fs1.insert (q ++ [a]) .dir = fs' := Except.ok.inj h
        have hqa_ne : (q ++ [a]) ≠ [] := by simp
        have hwf' : WF (fs1.insert (q ++ [a]) .dir) := by
          apply hwf1.insert_dir hqa_ne hnames
          intro hdne
          rw [List.dropLast_concat] at hdne ⊢
          exact hlast1 hdne
        have hlen_gt : root.length < (q ++ [a]).length := by
          by_contra hc
          push_neg at hc
          have := hpre (q ++ [a]) List.prefix_rfl (by simp) hc
          have h2 := hpres1 _ _ this
          rw [hlk] at h2
          exact Option.noConfusion h2
        subst hfs
        refine ⟨hwf', ?_, ?_, ?_⟩
        · intro q' v hv
          have h1 := hpres1 q' v hv
          rw [FS.insert_lookup, if_neg]
          · exact h1
          · intro hc
            rw [hc, hlk] at h1
            exact Option.noConfusion h1
        · intro q' hq' hq'2
          rcases (FS.mem_insert_keys_iff fs1 (q ++ [a]) q' .dir).mp hq'2 with rfl | hq'3
          · refine ⟨List.prefix_rfl, hlen_gt, ?_⟩
            rw [FS.insert_lookup, if_pos rfl]
          · obtain ⟨hp, hl, hd⟩ := hadd1 q' hq' hq'3
            refine ⟨hp.trans (List.prefix_append q [a]), hl, ?_⟩
            rw [FS.insert_lookup, if_neg]
            · exact hd
            · intro hc
              rw [hc, hlk] at hd
              exact Option.noConfusion hd
        · intro _
          rw [FS.insert_lookup, if_pos rfl]

/-! createSiaDir characterization. -/

theorem createSiaDir_found (fs : FS) (dir : GoPath) (t : Nat)
    (h : (dir ++ [siadirName]) ∈ fs.keys) : createSiaDir fs dir t = .ok fs := by
  rw [createSiaDir, modelStat, if_pos h]
  rfl

theorem createSiaDir_cases {fs : FS} {dir : GoPath} {t : Nat} {fs' : FS}
    (h : createSiaDir fs dir t = .ok fs') :
    ((dir ++ [siadirName]) ∈ fs.keys ∧ fs' = fs) ∨
    ((dir ++ [siadirName]) ∉ fs.keys ∧ fs.lookup dir = some .dir ∧
      fs' = fs.insert (dir ++ [siadirName]) (.file (.meta (mkMetadata t)))) := by
  rw [createSiaDir, modelStat] at h
  by_cases hmem : (dir ++ [siadirName]) ∈ fs.keys
  · rw [if_pos hmem] at h
    exact Or.inl ⟨hmem, (Except.ok.inj h).symm⟩
  · rw [if_neg hmem, createSiaDirWith] at h
    cases hd : fs.lookup dir with
    | none =>
      rw [hd] at h
      exact absurd h (by simp)
    | some nd =>
      cases nd with
      | file d =>
        rw [hd] at h
        exact absurd h (by simp)
      | dir =>
        rw [hd] at h
        dsimp only at h
        exact Or.inr ⟨hmem, rfl, (Except.ok.inj h).symm⟩

theorem createSiaDir_facts {fs : FS} {dir : GoPath} {t : Nat} {fs' : FS}
    (h : createSiaDir fs dir t = .ok fs') (hwf : WF fs) :
    WF fs' ∧ (∀ q v, fs.lookup q = some v → fs'.lookup q = some v) ∧
    (∀ q, fs.lookup q = none → q ∈ fs'.keys → q = dir ++ [siadirName]) ∧
    (dir ++ [siadirName]) ∈ fs'.keys := by
  rcases createSiaDir_cases h with ⟨hmem, rfl⟩ | ⟨hmem, hdir, rfl⟩
  · refine ⟨hwf, fun q v hv => hv, ?_, hmem⟩
    intro q hq hq2
    exact absurd (FS.lookup_eq_none_iff.mp hq hq2) (fun hc => hc)
  · have hdir_ne : dir ≠ [] := by
      intro hc
      subst hc
      exact hwf.ne_nil [] (FS.lookup_mem_keys hdir) rfl
    have hsent_none : fs.lookup (dir ++ [siadirName]) = none :=
      FS.lookup_eq_none_iff.mpr hmem
    have hwf' : WF (fs.insert (dir ++ [siadirName]) (.file (.meta (mkMetadata t)))) := by
      apply hwf.insert_file (by simp) ?_ ?_ (by rw [hsent_none]; simp)
      · intro n hn
        rcases List.mem_append.mp hn with hn | hn
        · exact hwf.names dir (FS.lookup_mem_keys hdir) n hn
        · rw [List.mem_singleton] at hn
          exact hn ▸ siadirName_proper
      · intro _
        rw [List.dropLast_concat]
        exact hdir
    refine ⟨hwf', ?_, ?_, ?_⟩
    · intro q v hv
      rw [FS.insert_lookup, if_neg]
      · exact hv
      · intro hc
        rw [hc, hsent_none] at hv
        exact Option.noConfusion hv
    · intro q hq hq2
      rcases (FS.mem_insert_keys_iff ..).mp hq2 with rfl | hq3
      · rfl
      · exact absurd (FS.lookup_eq_none_iff.mp hq hq3) (fun hc => hc)
    · exact FS.insert_mem_keys ..

/-!
Run-level predicates for the rename walker, and the composable bundle
of facts one successful segment of a run guarantees.
-/

/-- No .sia file under the root has a stem that itself still ends in
the primary extension (no ".sia.sia" names).  Under this condition the
companion path the code derives (the double TrimSuffix of line 267)
coincides with the single-trim companion of the specification, and
distinct primaries in one directory have distinct companions. -/
def noDoubleSia (root : GoPath) (fs : FS) : Prop :=
  ∀ q ∈ fs.keys, root <+: q → q ≠ root → siaFileB q = true →
    ¬(siaExt <:+ trimSuffixChars (q.getLastD "").data siaExt)

/-- The unconsumed random blocks are pairwise distinct as hex strings,
and their generated destination paths and companion paths are absent
from the filesystem. -/
def streamOK (root : GoPath) (st : RState) : Prop :=
  st.rng.Pairwise (fun b1 b2 => hexEncode b1 ≠ hexEncode b2) ∧
  ∀ b ∈ st.rng, targetOf root b ∉ st.fs.keys ∧
    companionNew (targetOf root b) ∉ st.fs.keys

/-- How many of the three per-directory actions the dedup branch of
lines 272-294 performs for directory D between two states: one when D
first enters the Destination-Directory Set, zero ever after. -/
def dedupDelta (st st' : RState) (D : GoPath) : Nat :=
  if D ∈ st.dirs then 0 else if D ∈ st'.dirs then 1 else 0

/-- The three per-directory actions and the log line are each counted
once when D first enters the Destination-Directory Set, never
again. -/
def countsOK (st st' : RState) : Prop :=
  ∀ D, st'.trace.count (.logLine D)
      = st.trace.count (.logLine D) + dedupDelta st st' D ∧
    st'.trace.count (.mkdirAll D)
      = st.trace.count (.mkdirAll D) + dedupDelta st st' D ∧
    st'.trace.count (.mkSentinel D)
      = st.trace.count (.mkSentinel D) + dedupDelta st st' D ∧
    st'.log.count D = st.log.count D + dedupDelta st st' D

/-- Everything a successful segment of a renameAll run guarantees
between its start and end states.  Every field composes
transitively. -/
structure RunFacts (root : GoPath) (st st' : RState) : Prop where
  wf : WF st'.fs
  dirsSub : st.dirs ⊆ st'.dirs
  rngSuf : st'.rng <:+ st.rng
  dirPres : ∀ q, st.fs.lookup q = some .dir → st'.fs.lookup q = some .dir
  removedInv : ∀ q, q ∈ st.fs.keys → q ∉ st'.fs.keys →
    (∃ c, st.fs.lookup q = some (.file c)) ∧ siaFileB q = true ∧
      validAtB root q = false
  invInv : ∀ q, siaFileB q = true → validAtB root q = false →
    st'.fs.lookup q = st.fs.lookup q ∨ st'.fs.lookup q = none
  addedKnown : ∀ q, st.fs.lookup q = none → q ∈ st'.fs.keys →
    (q.getLastD "" = siadirName ∧ validAtB root q = true) ∨
    ∃ b ∈ st.rng,
      (q = targetOf root b ∨ q = companionNew (targetOf root b) ∨
        (q <+: (targetOf root b).dropLast ∧ root.length < q.length ∧
          st'.fs.lookup q = some .dir))
  streamPres : streamOK root st → streamOK root st'
  noClobber : streamOK root st → ∀ q v, st.fs.lookup q = some v →
    st'.fs.lookup q = some v ∨ st'.fs.lookup q = none
  ndsPres : noDoubleSia root st.fs → noDoubleSia root st'.fs
  counts : countsOK st st'

theorem dedupDelta_eq_zero {st st' : RState} (h : st'.dirs = st.dirs) (D : GoPath) :
    dedupDelta st st' D = 0 := by
  rw [dedupDelta, h]
  by_cases hd : D ∈ st.dirs
  · rw [if_pos hd]
  · rw [if_neg hd, if_neg hd]

theorem dedupDelta_trans {st1 st2 st3 : RState} (h12 : st1.dirs ⊆ st2.dirs)
    (h23 : st2.dirs ⊆ st3.dirs) (D : GoPath) :
    dedupDelta st1 st3 D = dedupDelta st1 st2 D + dedupDelta st2 st3 D := by
  rw [dedupDelta, dedupDelta, dedupDelta]
  by_cases h1 : D ∈ st1.dirs
  · rw [if_pos h1, if_pos h1, if_pos (h12 h1)]
  · rw [if_neg h1, if_neg h1]
    by_cases h2 : D ∈ st2.dirs
    · rw [if_pos h2, if_pos (h23 h2), if_pos h2]
    · rw [if_neg h2, if_neg h2]
      by_cases h3 : D ∈ st3.dirs
      · rw [if_pos h3]
      · rw [if_neg h3]

theorem countsOK_id (st : RState) : countsOK st st := by
  intro D
  have hz : dedupDelta st st D = 0 := dedupDelta_eq_zero rfl D
  exact ⟨by simp [hz], by simp [hz], by simp [hz], by simp [hz]⟩

theorem countsOK_trans {st1 st2 st3 : RState} (h12 : countsOK st1 st2)
    (h23 : countsOK st2 st3) (d12 : st1.dirs ⊆ st2.dirs)
    (d23 : st2.dirs ⊆ st3.dirs) : countsOK st1 st3 := by
  intro D
  obtain ⟨a1, a2, a3, a4⟩ := h12 D
  obtain ⟨b1, b2, b3, b4⟩ := h23 D
  have hdd := dedupDelta_trans d12 d23 D
  exact ⟨by omega, by omega, by omega, by omega⟩

theorem RunFacts.state_id {root : GoPath} {st : RState} (hwf : WF st.fs) :
    RunFacts root st st := by
  refine ⟨hwf, fun d hd => hd, List.suffix_rfl, fun q hv => hv, ?_,
    fun q _ _ => Or.inl rfl, ?_, fun hs => hs, fun _ q v hv => Or.inl hv,
    fun hn => hn, countsOK_id st⟩
  · intro q hq hq2
    exact absurd hq hq2
  · intro q hq hq2
    exact absurd (FS.lookup_eq_none_iff.mp hq hq2) (fun hc => hc)

theorem RunFacts.comp2 {root : GoPath} {st1 st2 st3 : RState}
    (a : RunFacts root st1 st2) (b : RunFacts root st2 st3) :
    RunFacts root st1 st3 := by
  refine ⟨b.wf, fun d hd => b.dirsSub (a.dirsSub hd), b.rngSuf.trans a.rngSuf,
    fun q hv => b.dirPres q (a.dirPres q hv), ?_, ?_, ?_,
    fun hs => b.streamPres (a.streamPres hs), ?_,
    fun hn => b.ndsPres (a.ndsPres hn),
    countsOK_trans a.counts b.counts a.dirsSub b.dirsSub⟩
  · -- removedInv
    intro q hq1 hq3
    by_cases hq2 : q ∈ st2.fs.keys
    · obtain ⟨⟨c, hc⟩, hsia, hinv⟩ := b.removedInv q hq2 hq3
      rcases a.invInv q hsia hinv with he | hn
      · rw [he] at hc
        exact ⟨⟨c, hc⟩, hsia, hinv⟩
      · rw [hn] at hc
        exact absurd hc (by simp)
    · exact a.removedInv q hq1 hq2
  · -- invInv
    intro q hsia hinv
    rcases b.invInv q hsia hinv with he | hn
    · rcases a.invInv q hsia hinv with he2 | hn2
      · rw [he, he2]
        exact Or.inl rfl
      · rw [he, hn2]
        exact Or.inr rfl
    · exact Or.inr hn
  · -- addedKnown
    intro q hq1 hq3
    by_cases hq2 : q ∈ st2.fs.keys
    · rcases a.addedKnown q hq1 hq2 with hs | ⟨b0, hb0, hcase⟩
      · exact Or.inl hs
      · refine Or.inr ⟨b0, hb0, ?_⟩
        rcases hcase with hc | hc | ⟨hp, hg, hd⟩
        · exact Or.inl hc
        · exact Or.inr (Or.inl hc)
        · exact Or.inr (Or.inr ⟨hp, hg, b.dirPres q hd⟩)
    · have hn2 : st2.fs.lookup q = none := FS.lookup_eq_none_iff.mpr hq2
      rcases b.addedKnown q hn2 hq3 with hs | ⟨b0, hb0, hcase⟩
      · exact Or.inl hs
      · exact Or.inr ⟨b0, a.rngSuf.subset hb0, hcase⟩
  · -- noClobber
    intro hs1 q v hv
    rcases a.noClobber hs1 q v hv with he | hn
    · exact b.noClobber (a.streamPres hs1) q v he
    · have hq2 : q ∉ st2.fs.keys := FS.lookup_eq_none_iff.mp hn
      have hq1 : q ∈ st1.fs.keys := FS.lookup_mem_keys hv
      obtain ⟨_, hsia, hinv⟩ := a.removedInv q hq1 hq2
      rcases b.invInv q hsia hinv with he2 | hn2
      · rw [he2, hn]
        exact Or.inr rfl
      · exact Or.inr hn2

/-! Persistence helpers derived from the bundle. -/

/-- An invalid-classified sia entry survives a run segment with its
contents whenever its path is still present at the end. -/
theorem entry_kept {root : GoPath} {st st' : RState} (rf : RunFacts root st st')
    {q : GoPath} {c : FData} (hq : st.fs.lookup q = some (.file c))
    (hsia : siaFileB q = true) (hinv : validAtB root q = false)
    (hkeep : q ∈ st'.fs.keys) :
    st'.fs.lookup q = some (.file c) := by
  rcases rf.invInv q hsia hinv with he | hn
  · rw [he, hq]
  · exact absurd hkeep (FS.lookup_eq_none_iff.mp hn)

/-- A valid-classified sia file is never moved nor overwritten while
the remaining stream is fresh. -/
theorem valid_file_kept {root : GoPath} {st st' : RState} (rf : RunFacts root st st')
    {q : GoPath} {c : FData} (hq : st.fs.lookup q = some (.file c))
    (hsia : siaFileB q = true) (hval : validAtB root q = true)
    (hstream : streamOK root st) :
    st'.fs.lookup q = some (.file c) := by
  rcases rf.noClobber hstream q _ hq with he | hn
  · exact he
  · exfalso
    obtain ⟨_, _, hinv⟩ := rf.removedInv q (FS.lookup_mem_keys hq)
      (FS.lookup_eq_none_iff.mp hn)
    rw [hinv] at hval
    exact Bool.noConfusion hval

theorem companionNew_targetOf_name_proper (block : List Nat) :
    properName (String.mk (trimSuffixChars (hexTailName block).data siaExt
      ++ extendedTok ++ siaExt)) := by
  rw [hexTailName_data, trimSuffix_append]
  apply normalSeg_properName
  have hlen : ((hexEncode block).drop (dirLength₀ * dirDepth₀) ++ extendedTok
      ++ siaExt).length
      = ((hexEncode block).drop (dirLength₀ * dirDepth₀)).length + 13 := by
    simp [extendedTok, siaExt]
  refine ⟨?_, ?_, ?_, ?_⟩
  · intro hc
    rw [hc] at hlen
    simp at hlen
  · intro hc
    rcases List.mem_append.mp hc with hc | hc
    · rcases List.mem_append.mp hc with hc | hc
      · exact (hexEncode_mem block '/' (List.drop_subset _ _ hc)).1 rfl
      · exact absurd hc (by decide)
    · exact absurd hc (by decide)
  · intro hc
    rw [hc] at hlen
    simp at hlen
  · intro hc
    rw [hc] at hlen
    simp at hlen

theorem companionNew_targetOf_valid (root : GoPath) (block : List Nat)
    (h16 : block.length = 16) :
    validAtB root (companionNew (targetOf root block)) = true := by
  rw [companionNew, targetOf_dropLast, targetOf_getLastD]
  have hdrop : ∀ m ∈ (root ++ hexChunkNames block).drop root.length, properName m := by
    rw [List.drop_left]
    intro m hm
    exact (hexChunkNames_facts block h16 m hm).1
  rw [validAtB_concat root (root ++ hexChunkNames block) _ (hexTailName block) hdrop
    (companionNew_targetOf_name_proper block) (hexTailName_proper block), ← targetOf_eq]
  exact targetOf_valid root block h16

theorem companionNew_targetOf_length (root : GoPath) (block : List Nat) :
    (companionNew (targetOf root block)).length = root.length + 4 := by
  rw [companionNew, targetOf_dropLast, List.length_append, List.length_append,
    hexChunkNames_length, List.length_singleton]

/-- An absent, invalid-classified path with a long filename stays
absent through a run segment: none of the run's additions can sit
there. -/
theorem absent_kept {root : GoPath} {st st' : RState} (rf : RunFacts root st st')
    {q : GoPath} (hq : st.fs.lookup q = none)
    (hinv : validAtB root q = false) (hname : 4 ≤ (q.getLastD "").data.length)
    (hrg : ∀ b ∈ st.rng, b.length = 16) :
    q ∉ st'.fs.keys := by
  intro hmem
  rcases rf.addedKnown q hq hmem with ⟨_, hval⟩ | ⟨b, hb, hcase⟩
  · rw [hval] at hinv
    exact Bool.noConfusion hinv
  · have h16 := hrg b hb
    rcases hcase with rfl | rfl | ⟨hpre, hgt, _⟩
    · rw [targetOf_valid root b h16] at hinv
      exact Bool.noConfusion hinv
    · rw [companionNew_targetOf_valid root b h16] at hinv
      exact Bool.noConfusion hinv
    · rw [targetOf_dropLast] at hpre
      obtain ⟨n, hn, hlast⟩ := prefix_last_mem hpre hgt
      have hn2 := (hexChunkNames_facts b h16 n hn).2
      rw [hlast] at hname
      omega

/-- A companion destination that is absent stays absent while every
remaining block differs from the block that generated it. -/
theorem companionNew_absent_kept {root : GoPath} {st st' : RState}
    (rf : RunFacts root st st') {b0 : List Nat}
    (h16 : b0.length = 16)
    (hq : st.fs.lookup (companionNew (targetOf root b0)) = none)
    (hdist : ∀ b ∈ st.rng, hexEncode b ≠ hexEncode b0) :
    companionNew (targetOf root b0) ∉ st'.fs.keys := by
  intro hmem
  rcases rf.addedKnown _ hq hmem with ⟨hsent, _⟩ | ⟨b, hb, hcase⟩
  · rw [companionNew_getLastD, targetOf_getLastD, hexTailName_data,
      trimSuffix_append] at hsent
    have hlen : ((hexEncode b0).drop (dirLength₀ * dirDepth₀) ++ extendedTok
        ++ siaExt).length = siadirName.data.length :=
      congrArg (fun (s : String) => s.data.length) hsent
    have hb32 : (hexEncode b0).length = 32 := by rw [hexEncode_length, h16]
    simp [extendedTok, siaExt, siadirName, hb32] at hlen
  · rcases hcase with heq | heq | ⟨hpre, _, _⟩
    · exact targetOf_ne_companionNew root b b0 heq.symm
    · exact companionNew_targetOf_inj (hdist b hb) heq.symm
    · have h1 := hpre.length_le
      rw [companionNew_targetOf_length, targetOf_dropLast, List.length_append,
        hexChunkNames_length] at h1
      omega

/-! Name toolkit for the move branch. -/

theorem path_concat_last {p : GoPath} (hne : p ≠ []) :
    p = p.dropLast ++ [p.getLastD ""] := by
  have h1 := List.dropLast_append_getLast hne
  rw [List.getLastD_eq_getLast?, List.getLast?_eq_getLast p hne, Option.getD_some]
  exact h1.symm

theorem getLastD_mem {p : GoPath} (hne : p ≠ []) : p.getLastD "" ∈ p := by
  rw [List.getLastD_eq_getLast?, List.getLast?_eq_getLast p hne, Option.getD_some]
  exact List.getLast_mem hne

/-- The classifier does not look at the final name: replacing it by any
proper name preserves the verdict. -/
theorem validAtB_swap_last {root : GoPath} {fs : FS} (hwf : WF fs) {p : GoPath}
    (hp : p ∈ fs.keys) (n : String) (hn : properName n) :
    validAtB root (p.dropLast ++ [n]) = validAtB root p := by
  have hne : p ≠ [] := hwf.ne_nil p hp
  have hlastp : properName (p.getLastD "") := hwf.names p hp _ (getLastD_mem hne)
  have hdrop : ∀ m ∈ p.dropLast.drop root.length, properName m := by
    intro m hm
    exact hwf.names p hp m ((List.dropLast_sublist p).subset (List.drop_subset _ _ hm))
  conv_rhs => rw [path_concat_last hne]
  exact validAtB_concat root p.dropLast n _ hdrop hn hlastp

theorem companionOld_valid_eq {root : GoPath} {fs : FS} (hwf : WF fs) {p : GoPath}
    (hp : p ∈ fs.keys) :
    validAtB root (companionOld p) = validAtB root p := by
  have hne : p ≠ [] := hwf.ne_nil p hp
  have hlastp : properName (p.getLastD "") := hwf.names p hp _ (getLastD_mem hne)
  have hco := companionOld_name_proper hlastp p rfl
  rw [companionOld_getLastD] at hco
  rw [companionOld]
  exact validAtB_swap_last hwf hp _ hco

theorem ne_of_valid_ne {root : GoPath} {p q : GoPath} (hp : validAtB root p = false)
    (hq : validAtB root q = true) : p ≠ q := by
  intro h
  rw [h, hq] at hp
  exact Bool.noConfusion hp

theorem ne_of_last_len {q r : GoPath}
    (h : (q.getLastD "").data.length ≠ (r.getLastD "").data.length) : q ≠ r :=
  fun hc => h (by rw [hc])

theorem sia_ne_sentinel {q : GoPath} (h : siaFileB q = true) (d : GoPath) :
    q ≠ d ++ [siadirName] := by
  intro hc
  rw [hc, siaFileB_sentinel] at h
  exact Bool.noConfusion h

theorem companionOld_ne_self {p : GoPath} (hext : extendedStemB p = false) :
    companionOld p ≠ p := by
  intro h
  have h1 := congrArg (fun q => List.getLastD q "") h
  simp only at h1
  rw [companionOld_getLastD] at h1
  have h2 : (p.getLastD "").data
      = trimSuffixChars (trimSuffixChars (p.getLastD "").data siaExt) siaExt
        ++ extendedTok ++ siaExt := (congrArg String.data h1).symm
  have h4 : trimSuffixChars (p.getLastD "").data siaExt
      = trimSuffixChars (trimSuffixChars (p.getLastD "").data siaExt) siaExt
        ++ extendedTok := by
    conv_lhs => rw [h2]
    exact trimSuffix_append _ _
  rw [extendedStemB, h4, decide_eq_false_iff_not] at hext
  exact hext (List.suffix_append _ _)

/-- The stem of a generated primary name is pure hex: it cannot end in
the primary extension. -/
theorem targetOf_stem_ok (root : GoPath) (b : List Nat) :
    ¬(siaExt <:+ trimSuffixChars ((targetOf root b).getLastD "").data siaExt) := by
  rw [targetOf_getLastD, hexTailName_data, trimSuffix_append]
  intro hsuf
  have hdot : '.' ∈ (hexEncode b).drop (dirLength₀ * dirDepth₀) :=
    hsuf.subset (by decide)
  exact hexEncode_mem_dot b '.' (List.drop_subset _ _ hdot) rfl

/-- The stem of a generated companion name is hex plus the companion
token: it cannot end in the primary extension. -/
theorem companionNew_targetOf_stem_ok (root : GoPath) (b : List Nat) :
    ¬(siaExt <:+ trimSuffixChars
      ((companionNew (targetOf root b)).getLastD "").data siaExt) := by
  rw [companionNew_getLastD, targetOf_getLastD, hexTailName_data, trimSuffix_append,
    trimSuffix_append]
  intro hsuf
  have hdot : '.' ∈ (hexEncode b).drop (dirLength₀ * dirDepth₀) ++ extendedTok :=
    hsuf.subset (by decide)
  rcases List.mem_append.mp hdot with hc | hc
  · exact hexEncode_mem_dot b '.' (List.drop_subset _ _ hc) rfl
  · exact absurd hc (by decide)

/-- No sia-named path is a strict extension-free prefix of a generated
destination directory: those prefixes end in two-character hex
chunks. -/
theorem sia_not_dir_pre {root : GoPath} {block : List Nat} (h16 : block.length = 16)
    {q : GoPath} (hsia : siaFileB q = true) :
    ¬(q <+: (targetOf root block).dropLast ∧ root.length < q.length) := by
  rintro ⟨hpre, hgt⟩
  rw [targetOf_dropLast] at hpre
  obtain ⟨n, hn, hlast⟩ := prefix_last_mem hpre hgt
  have h2 := (hexChunkNames_facts block h16 n hn).2
  have h4 := siaFileB_name_len hsia
  rw [hlast] at h4
  omega

/-- The sentinel of the generated destination directory sits at a
valid path. -/
theorem sentinel_of_target_valid (root : GoPath) (block : List Nat)
    (h16 : block.length = 16) :
    validAtB root ((targetOf root block).dropLast ++ [siadirName]) = true := by
  have hdrop : ∀ m ∈ (targetOf root block).dropLast.drop root.length, properName m := by
    rw [targetOf_dropLast, List.drop_left]
    intro m hm
    exact (hexChunkNames_facts block h16 m hm).1
  rw [validAtB_concat root (targetOf root block).dropLast siadirName
    (hexTailName block) hdrop siadirName_proper (hexTailName_proper block)]
  have h2 : (targetOf root block).dropLast ++ [hexTailName block]
      = targetOf root block := by
    rw [targetOf_dropLast, targetOf_eq]
  rw [h2]
  exact targetOf_valid root block h16

theorem targetOf_ne_sentinel (root : GoPath) (b : List Nat) (h16 : b.length = 16)
    (d : GoPath) : targetOf root b ≠ d ++ [siadirName] :=
  sia_ne_sentinel (siaFileB_targetOf root b) d

/-! Counting helpers. -/

/-- A trace segment holding only completed relocations. -/
def movesOnly (tr : List REvent) : Prop := ∀ e ∈ tr, ∃ o d, e = .move o d

theorem count_movesOnly {tr : List REvent} (h : movesOnly tr) (D : GoPath) :
    tr.count (.logLine D) = 0 ∧ tr.count (.mkdirAll D) = 0 ∧
      tr.count (.mkSentinel D) = 0 := by
  refine ⟨?_, ?_, ?_⟩ <;>
  · rw [List.count_eq_zero]
    intro hc
    obtain ⟨o, d, he⟩ := h _ hc
    exact REvent.noConfusion he

theorem countsOK_of_same {st st' : RState} (hd : st'.dirs = st.dirs)
    (hl : st'.log = st.log) {tr : List REvent} (htr : st'.trace = st.trace ++ tr)
    (hmv : movesOnly tr) : countsOK st st' := by
  intro D
  obtain ⟨m1, m2, m3⟩ := count_movesOnly hmv D
  have hz : dedupDelta st st' D = 0 := dedupDelta_eq_zero hd D
  rw [htr, hl, hz]
  simp [List.count_append, m1, m2, m3]

theorem count_three (dir D : GoPath) :
    (([REvent.logLine dir, REvent.mkdirAll dir, REvent.mkSentinel dir]
        : List REvent).count (.logLine D) = if D = dir then 1 else 0) ∧
    (([REvent.logLine dir, REvent.mkdirAll dir, REvent.mkSentinel dir]
        : List REvent).count (.mkdirAll D) = if D = dir then 1 else 0) ∧
    (([REvent.logLine dir, REvent.mkdirAll dir, REvent.mkSentinel dir]
        : List REvent).count (.mkSentinel D) = if D = dir then 1 else 0) := by
  by_cases hD : D = dir
  · subst hD
    refine ⟨?_, ?_, ?_⟩ <;> simp [List.count_cons]
  · rw [if_neg hD]
    refine ⟨?_, ?_, ?_⟩ <;>
    · rw [List.count_eq_zero]
      intro hc
      simp only [List.mem_cons, List.not_mem_nil, or_false] at hc
      rcases hc with hc | hc | hc <;>
        first
          | exact hD (REvent.logLine.inj hc.symm).symm
          | exact REvent.noConfusion hc
          | exact hD (REvent.mkdirAll.inj hc.symm).symm
          | exact hD (REvent.mkSentinel.inj hc.symm).symm

theorem countsOK_of_new {st st' : RState} {dir : GoPath} (hdmem : dir ∉ st.dirs)
    (hd : st'.dirs = st.dirs ++ [dir]) (hl : st'.log = st.log ++ [dir])
    {tr : List REvent}
    (htr : st'.trace = st.trace
      ++ ([.logLine dir, .mkdirAll dir, .mkSentinel dir] ++ tr))
    (hmv : movesOnly tr) : countsOK st st' := by
  intro D
  obtain ⟨m1, m2, m3⟩ := count_movesOnly hmv D
  obtain ⟨t1, t2, t3⟩ := count_three dir D
  have hδ : dedupDelta st st' D = if D = dir then 1 else 0 := by
    rw [dedupDelta, hd]
    by_cases hD : D = dir
    · subst hD
      rw [if_neg hdmem, if_pos (by simp), if_pos rfl]
    · rw [if_neg hD]
      by_cases hDs : D ∈ st.dirs
      · rw [if_pos hDs]
      · rw [if_neg hDs, if_neg (by simp [hDs, hD])]
  have hls : (st.log ++ [dir]).count D = st.log.count D + (if D = dir then 1 else 0) := by
    rw [List.count_append]
    congr 1
    by_cases hD : D = dir
    · subst hD
      simp
    · rw [if_neg hD, List.count_eq_zero]
      intro hc
      rw [List.mem_singleton] at hc
      exact hD hc
  rw [htr, hl, hδ]
  refine ⟨?_, ?_, ?_, ?_⟩
  · rw [List.count_append, List.count_append, m1, t1]
    omega
  · rw [List.count_append, List.count_append, m2, t2]
    omega
  · rw [List.count_append, List.count_append, m3, t3]
    omega
  · rw [hls]

/-! The directory-preparation phase of the move branch
(lines 274-291): MkdirAll on the generated shard directory followed by
sentinel creation. -/

theorem movePrep_facts {fs fsm fsm2 : FS} {root : GoPath} {block : List Nat} {t : Nat}
    (hwf : WF fs) (hroot : fs.lookup root = some .dir) (h16 : block.length = 16)
    (hmk : mkdirAll fs (targetOf root block).dropLast = .ok fsm)
    (hcs : createSiaDir fsm (targetOf root block).dropLast t = .ok fsm2) :
    WF fsm2 ∧
    (∀ q v, fs.lookup q = some v → fsm2.lookup q = some v) ∧
    (∀ q, fs.lookup q = none → q ∈ fsm2.keys →
      q = (targetOf root block).dropLast ++ [siadirName] ∨
      (q <+: (targetOf root block).dropLast ∧ root.length < q.length ∧
        fsm2.lookup q = some .dir)) := by
  have hnames : ∀ n ∈ (targetOf root block).dropLast, properName n := by
    rw [targetOf_dropLast]
    intro n hn
    rcases List.mem_append.mp hn with hn | hn
    · exact hwf.names root (FS.lookup_mem_keys hroot) n hn
    · exact (hexChunkNames_facts block h16 n hn).1
  have hpre : ∀ r, r <+: (targetOf root block).dropLast → 0 < r.length →
      r.length ≤ root.length → fs.lookup r = some .dir := by
    intro r hr h0 hl
    rw [targetOf_dropLast] at hr
    have hrr : r <+: root := by
      obtain ⟨t2, ht2⟩ := hr
      have h1 := congrArg (List.take r.length) ht2
      rw [List.take_left, List.take_append_of_le_length hl] at h1
      rw [h1]
      exact List.take_prefix _ _
    rcases eq_or_ne r root with rfl | hne
    · exact hroot
    · exact (hwf.prefix_facts root (FS.lookup_mem_keys hroot) r hrr
        (by intro hc; rw [hc] at h0; simp at h0)).2 hne
  obtain ⟨hwfm, hpresm, haddm, _⟩ :=
    mkdirAll_facts _ fs fsm root hmk hwf hnames hpre
  obtain ⟨hwf2, hpres2, hadd2, _⟩ := createSiaDir_facts hcs hwfm
  refine ⟨hwf2, fun q v hv => hpres2 q v (hpresm q v hv), ?_⟩
  intro q hq hq2
  by_cases hqm : q ∈ fsm.keys
  · obtain ⟨hp1, hp2, hp3⟩ := haddm q hq hqm
    exact Or.inr ⟨hp1, hp2, hpres2 q _ hp3⟩
  · exact Or.inl (hadd2 q (FS.lookup_eq_none_iff.mpr hqm) hq2)

/-- Lookups of sia-named paths pass unchanged through the preparation
phase (its additions are a sentinel and hex-chunk directories). -/
theorem prep_lookup_eq {F staFS : FS} {root : GoPath} {block : List Nat}
    (hpres : ∀ q v, F.lookup q = some v → staFS.lookup q = some v)
    (hadds : ∀ q, F.lookup q = none → q ∈ staFS.keys →
      q = (targetOf root block).dropLast ++ [siadirName] ∨
      (q <+: (targetOf root block).dropLast ∧ root.length < q.length ∧
        staFS.lookup q = some .dir))
    {q : GoPath} (hsiaq : siaFileB q = true) (h16 : block.length = 16) :
    staFS.lookup q = F.lookup q := by
  cases hF : F.lookup q with
  | some v => exact hpres q v hF
  | none =>
    cases hs : staFS.lookup q with
    | none => rfl
    | some w =>
      exfalso
      rcases hadds q hF (FS.lookup_mem_keys hs) with hsent | ⟨hpre, hgt, _⟩
      · exact sia_ne_sentinel hsiaq _ hsent
      · exact sia_not_dir_pre h16 hsiaq ⟨hpre, hgt⟩

/-- Assembling the full fact bundle of a completed move-branch visit
from the final-state field facts. -/
theorem moveAssemble {st st' : RState} {root p : GoPath} {block : List Nat}
    {rng1 : List (List Nat)} {pc : FData}
    (hwf : WF st.fs)
    (hrg : ∀ b ∈ st.rng, b.length = 16)
    (hp : st.fs.lookup p = some (.file pc))
    (hsia : siaFileB p = true) (hinv : validAtB root p = false)
    (hext : extendedStemB p = false)
    (hrng : st.rng = block :: rng1)
    (hwf' : WF st'.fs)
    (hrng' : st'.rng = rng1)
    (hAB : (st'.dirs = st.dirs ∧ st'.log = st.log ∧
        ∃ tr, st'.trace = st.trace ++ tr ∧ movesOnly tr)
      ∨ ((targetOf root block).dropLast ∉ st.dirs ∧
          st'.dirs = st.dirs ++ [(targetOf root block).dropLast] ∧
          st'.log = st.log ++ [(targetOf root block).dropLast] ∧
          ∃ tr, st'.trace = st.trace
            ++ ([.logLine (targetOf root block).dropLast,
                .mkdirAll (targetOf root block).dropLast,
                .mkSentinel (targetOf root block).dropLast] ++ tr) ∧ movesOnly tr))
    (hGp : st'.fs.lookup p = none)
    (hGtgt : st'.fs.lookup (targetOf root block) = some (.file pc))
    (hGco : st'.fs.lookup (companionOld p) = none)
    (hGcoF : st.fs.lookup (companionOld p) = none ∨
      ∃ cc, st.fs.lookup (companionOld p) = some (.file cc))
    (hGcc : ∀ cc, st.fs.lookup (companionOld p) = some (.file cc) →
      st'.fs.lookup (companionNew (targetOf root block)) = some (.file cc))
    (hGcn : st'.fs.lookup (companionNew (targetOf root block))
        = st.fs.lookup (companionNew (targetOf root block)) ∨
      ∃ cc, st.fs.lookup (companionOld p) = some (.file cc) ∧
        st.fs.lookup (companionNew (targetOf root block)) ≠ some .dir ∧
        st'.fs.lookup (companionNew (targetOf root block)) = some (.file cc))
    (hFtgt : st.fs.lookup (targetOf root block) ≠ some .dir)
    (hGsome : ∀ q v, st.fs.lookup q = some v → q ≠ p → q ≠ companionOld p →
      q ≠ targetOf root block → q ≠ companionNew (targetOf root block) →
      st'.fs.lookup q = some v)
    (hGnone : ∀ q, st.fs.lookup q = none → q ∈ st'.fs.keys →
      q = targetOf root block ∨ q = companionNew (targetOf root block) ∨
      q = (targetOf root block).dropLast ++ [siadirName] ∨
      (q <+: (targetOf root block).dropLast ∧ root.length < q.length ∧
        st'.fs.lookup q = some .dir)) :
    RunFacts root st st' ∧
    (∀ q, q ∈ st.fs.keys → q ∉ st'.fs.keys →
      (q = p ∨ q = companionOld p) ∧ siaFileB p = true ∧
      validAtB root p = false ∧ extendedStemB p = false) ∧
    (siaFileB p = true → validAtB root p = false → extendedStemB p = false →
      p ∉ st'.fs.keys ∧ companionOld p ∉ st'.fs.keys ∧
      ∃ b2 rng2, st.rng = b2 :: rng2 ∧ st'.rng = rng2 ∧
        st'.fs.lookup (targetOf root b2) = some (.file pc) ∧
        (∀ cc, st.fs.lookup (companionOld p) = some (.file cc) →
          st'.fs.lookup (companionNew (targetOf root b2)) = some (.file cc)) ∧
        (streamOK root st → companionOld p ∉ st.fs.keys →
          companionNew (targetOf root b2) ∉ st'.fs.keys)) := by
  have h16 : block.length = 16 := hrg block (by rw [hrng]; exact List.mem_cons_self ..)
  have hpmem : p ∈ st.fs.keys := FS.lookup_mem_keys hp
  have hcoinv : validAtB root (companionOld p) = false := by
    rw [companionOld_valid_eq hwf hpmem]
    exact hinv
  have htgtval := targetOf_valid root block h16
  have hcnval := companionNew_targetOf_valid root block h16
  have hcosia := siaFileB_companionOld p
  have hblockmem : block ∈ st.rng := by
    rw [hrng]
    exact List.mem_cons_self ..
  have hremoved : ∀ q, q ∈ st.fs.keys → q ∉ st'.fs.keys →
      q = p ∨ q = companionOld p := by
    intro q hq hq'
    by_cases h1 : q = p
    · exact Or.inl h1
    by_cases h2 : q = companionOld p
    · exact Or.inr h2
    exfalso
    by_cases h3 : q = targetOf root block
    · subst h3
      exact hq' (FS.lookup_mem_keys hGtgt)
    by_cases h4 : q = companionNew (targetOf root block)
    · subst h4
      rcases hGcn with he | ⟨cc, _, _, hsome⟩
      · apply hq'
        rw [FS.mem_keys_iff, he]
        rw [FS.mem_keys_iff] at hq
        exact hq
      · exact hq' (FS.lookup_mem_keys hsome)
    obtain ⟨v, hv⟩ := FS.lookup_isSome_of_mem hq
    exact hq' (FS.lookup_mem_keys (hGsome q v hv h1 h2 h3 h4))
  refine ⟨⟨hwf', ?_, ?_, ?_, ?_, ?_, ?_, ?_, ?_, ?_, ?_⟩,
    fun q hq hq' => ⟨hremoved q hq hq', hsia, hinv, hext⟩, ?_⟩
  · -- dirsSub
    rcases hAB with ⟨hd, _, _⟩ | ⟨_, hd, _, _⟩
    · rw [hd]
      exact fun d hd2 => hd2
    · rw [hd]
      exact fun d hd2 => List.mem_append_left _ hd2
  · -- rngSuf
    rw [hrng', hrng]
    exact ⟨[block], rfl⟩
  · -- dirPres
    intro q hq
    by_cases h1 : q = p
    · rw [h1, hp] at hq
      exact absurd hq (by simp)
    by_cases h2 : q = companionOld p
    · exfalso
      rcases hGcoF with hn | ⟨cc, hcc⟩
      · rw [h2, hn] at hq
        exact Option.noConfusion hq
      · rw [h2, hcc] at hq
        simp at hq
    by_cases h3 : q = targetOf root block
    · exfalso
      rw [h3] at hq
      exact hFtgt hq
    by_cases h4 : q = companionNew (targetOf root block)
    · subst h4
      rcases hGcn with he | ⟨cc, _, hnd, _⟩
      · rw [he]
        exact hq
      · exact absurd hq hnd
    · exact hGsome q _ hq h1 h2 h3 h4
  · -- removedInv
    intro q hq hq'
    rcases hremoved q hq hq' with rfl | rfl
    · exact ⟨⟨pc, hp⟩, hsia, hinv⟩
    · rcases hGcoF with hn | ⟨cc, hcc⟩
      · rw [FS.mem_keys_iff] at hq
        exact absurd hn hq
      · exact ⟨⟨cc, hcc⟩, hcosia, hcoinv⟩
  · -- invInv
    intro q hqsia hqinv
    by_cases h1 : q = p
    · subst h1
      exact Or.inr hGp
    by_cases h2 : q = companionOld p
    · subst h2
      exact Or.inr hGco
    by_cases h3 : q = targetOf root block
    · subst h3
      rw [htgtval] at hqinv
      exact Bool.noConfusion hqinv
    by_cases h4 : q = companionNew (targetOf root block)
    · subst h4
      rw [hcnval] at hqinv
      exact Bool.noConfusion hqinv
    cases hF : st.fs.lookup q with
    | some v =>
      exact Or.inl (hGsome q v hF h1 h2 h3 h4)
    | none =>
      cases hG : st'.fs.lookup q with
      | none => exact Or.inr rfl
      | some w =>
        exfalso
        rcases hGnone q hF (FS.lookup_mem_keys hG) with hc | hc | hc | ⟨hpre, hgt, _⟩
        · exact h3 hc
        · exact h4 hc
        · exact sia_ne_sentinel hqsia _ hc
        · exact sia_not_dir_pre h16 hqsia ⟨hpre, hgt⟩
  · -- addedKnown
    intro q hq hq'
    rcases hGnone q hq hq' with rfl | rfl | rfl | hpre
    · exact Or.inr ⟨block, hblockmem, Or.inl rfl⟩
    · exact Or.inr ⟨block, hblockmem, Or.inr (Or.inl rfl)⟩
    · exact Or.inl ⟨List.getLastD_concat .., sentinel_of_target_valid root block h16⟩
    · exact Or.inr ⟨block, hblockmem, Or.inr (Or.inr hpre)⟩
  · -- streamPres
    rintro ⟨hpw, hfr⟩
    have hpw2 := hpw
    rw [hrng, List.pairwise_cons] at hpw2
    obtain ⟨hhead, htail⟩ := hpw2
    constructor
    · rw [hrng']
      exact htail
    · intro b' hb'
      have hb'rng1 : b' ∈ rng1 := by
        rw [← hrng']
        exact hb'
      have hb'mem : b' ∈ st.rng := by
        rw [hrng]
        exact List.mem_cons_of_mem _ hb'rng1
      have h16b := hrg b' hb'mem
      have hdist : hexEncode block ≠ hexEncode b' := hhead b' hb'rng1
      obtain ⟨hfrT, hfrC⟩ := hfr b' hb'mem
      constructor
      · intro hmem
        have hFnone : st.fs.lookup (targetOf root b') = none :=
          FS.lookup_eq_none_iff.mpr hfrT
        rcases hGnone _ hFnone hmem with hc | hc | hc | hpre
        · exact targetOf_inj (Ne.symm hdist) hc
        · exact targetOf_ne_companionNew root b' block hc
        · exact targetOf_ne_sentinel root b' h16b _ hc
        · exact sia_not_dir_pre h16 (siaFileB_targetOf root b') ⟨hpre.1, hpre.2.1⟩
      · intro hmem
        have hFnone : st.fs.lookup (companionNew (targetOf root b')) = none :=
          FS.lookup_eq_none_iff.mpr hfrC
        rcases hGnone _ hFnone hmem with hc | hc | hc | hpre
        · exact targetOf_ne_companionNew root block b' hc.symm
        · exact companionNew_targetOf_inj (Ne.symm hdist) hc
        · exact sia_ne_sentinel (siaFileB_companionNew _) _ hc
        · exact sia_not_dir_pre h16 (siaFileB_companionNew _) ⟨hpre.1, hpre.2.1⟩
  · -- noClobber
    rintro ⟨hpw, hfr⟩ q v hv
    by_cases h1 : q = p
    · subst h1
      exact Or.inr hGp
    by_cases h2 : q = companionOld p
    · subst h2
      exact Or.inr hGco
    by_cases h3 : q = targetOf root block
    · exfalso
      obtain ⟨hfrT, _⟩ := hfr block hblockmem
      subst h3
      exact hfrT (FS.lookup_mem_keys hv)
    by_cases h4 : q = companionNew (targetOf root block)
    · exfalso
      obtain ⟨_, hfrC⟩ := hfr block hblockmem
      subst h4
      exact hfrC (FS.lookup_mem_keys hv)
    · exact Or.inl (hGsome q v hv h1 h2 h3 h4)
  · -- ndsPres
    intro hnds q hq hqroot hqne hqsia
    cases hF : st.fs.lookup q with
    | some v => exact hnds q (FS.lookup_mem_keys hF) hqroot hqne hqsia
    | none =>
      rcases hGnone q hF hq with rfl | rfl | rfl | hpre
      · exact targetOf_stem_ok root block
      · exact companionNew_targetOf_stem_ok root block
      · rw [siaFileB_sentinel] at hqsia
        exact Bool.noConfusion hqsia
      · exact absurd ⟨hpre.1, hpre.2.1⟩ (sia_not_dir_pre h16 hqsia)
  · -- counts
    rcases hAB with ⟨hd, hl, tr, htr, hmv⟩ | ⟨hdm, hd, hl, tr, htr, hmv⟩
    · exact countsOK_of_same hd hl htr hmv
    · exact countsOK_of_new hdm hd hl htr hmv
  · -- the move conjunct
    intro _ _ _
    refine ⟨FS.lookup_eq_none_iff.mp hGp, FS.lookup_eq_none_iff.mp hGco,
      block, rng1, hrng, hrng', hGtgt, hGcc, ?_⟩
    rintro ⟨hpw, hfr⟩ hcoabs
    obtain ⟨_, hfrC⟩ := hfr block hblockmem
    rcases hGcn with he | ⟨cc, hccF, _, _⟩
    · intro hmem
      rw [FS.mem_keys_iff, he] at hmem
      exact hmem (FS.lookup_eq_none_iff.mpr hfrC)
    · exact absurd (FS.lookup_mem_keys hccF) hcoabs

/-! Small auxiliaries for the move-branch case analysis. -/

theorem movesOnly_single (o d : GoPath) : movesOnly [.move o d] := by
  intro e he
  rw [List.mem_singleton] at he
  exact ⟨o, d, he⟩

theorem movesOnly_pair (o1 d1 o2 d2 : GoPath) :
    movesOnly [.move o1 d1, .move o2 d2] := by
  intro e he
  simp only [List.mem_cons, List.not_mem_nil, or_false] at he
  rcases he with rfl | rfl
  · exact ⟨o1, d1, rfl⟩
  · exact ⟨o2, d2, rfl⟩

theorem countsOK_of_sentinel {st st' : RState} (hd : st'.dirs = st.dirs)
    (hl : st'.log = st.log) {d : GoPath}
    (htr : st'.trace = st.trace ++ [.ensureSentinel d]) : countsOK st st' := by
  intro D
  have hz : dedupDelta st st' D = 0 := dedupDelta_eq_zero hd D
  have c1 : ([REvent.ensureSentinel d] : List REvent).count (.logLine D) = 0 := by
    rw [List.count_eq_zero]
    intro hc
    rw [List.mem_singleton] at hc
    exact REvent.noConfusion hc
  have c2 : ([REvent.ensureSentinel d] : List REvent).count (.mkdirAll D) = 0 := by
    rw [List.count_eq_zero]
    intro hc
    rw [List.mem_singleton] at hc
    exact REvent.noConfusion hc
  have c3 : ([REvent.ensureSentinel d] : List REvent).count (.mkSentinel D) = 0 := by
    rw [List.count_eq_zero]
    intro hc
    rw [List.mem_singleton] at hc
    exact REvent.noConfusion hc
  rw [htr, hl, hz]
  refine ⟨?_, ?_, ?_, by simp⟩
  · rw [List.count_append, c1]
  · rw [List.count_append, c2]
  · rw [List.count_append, c3]

theorem targetOf_ne_nil (root : GoPath) (block : List Nat) :
    targetOf root block ≠ [] := by
  rw [targetOf_eq]
  simp

theorem companionNew_targetOf_ne_nil (root : GoPath) (block : List Nat) :
    companionNew (targetOf root block) ≠ [] := by
  rw [companionNew]
  simp

theorem targetOf_names {root : GoPath} (hroot_names : ∀ n ∈ root, properName n)
    (block : List Nat) (h16 : block.length = 16) :
    ∀ n ∈ targetOf root block, properName n := by
  intro n hn
  rw [targetOf_eq] at hn
  rcases List.mem_append.mp hn with hn | hn
  · rcases List.mem_append.mp hn with hn | hn
    · exact hroot_names n hn
    · exact (hexChunkNames_facts block h16 n hn).1
  · rw [List.mem_singleton] at hn
    subst hn
    exact hexTailName_proper block

theorem companionNew_targetOf_names {root : GoPath}
    (hroot_names : ∀ n ∈ root, properName n)
    (block : List Nat) (h16 : block.length = 16) :
    ∀ n ∈ companionNew (targetOf root block), properName n := by
  intro n hn
  rw [companionNew, targetOf_dropLast, targetOf_getLastD] at hn
  rcases List.mem_append.mp hn with hn | hn
  · rcases List.mem_append.mp hn with hn | hn
    · exact hroot_names n hn
    · exact (hexChunkNames_facts block h16 n hn).1
  · rw [List.mem_singleton] at hn
    subst hn
    exact companionNew_targetOf_name_proper block

/-! The primary relocation of the move branch (line 296), stated over
the filesystem A at the visit's start and the prepared filesystem F
the copy runs on. -/

theorem copy1_facts {A F fsc : FS} {root p : GoPath} {block : List Nat} {pc : FData}
    (hwf : WF A) (hroot : A.lookup root = some .dir)
    (h16 : block.length = 16)
    (hp : A.lookup p = some (.file pc))
    (hinv : validAtB root p = false)
    (hext : extendedStemB p = false)
    (hwfF : WF F)
    (hpresF : ∀ q v, A.lookup q = some v → F.lookup q = some v)
    (haddsF : ∀ q, A.lookup q = none → q ∈ F.keys →
      q = (targetOf root block).dropLast ++ [siadirName] ∨
      (q <+: (targetOf root block).dropLast ∧ root.length < q.length ∧
        F.lookup q = some .dir))
    (hcf : copyFile F p (targetOf root block) = .ok fsc) :
    WF fsc ∧ fsc.lookup p = none ∧
    fsc.lookup (targetOf root block) = some (.file pc) ∧
    fsc.lookup (companionOld p) = A.lookup (companionOld p) ∧
    fsc.lookup (companionNew (targetOf root block))
      = A.lookup (companionNew (targetOf root block)) ∧
    A.lookup (targetOf root block) ≠ some .dir ∧
    (∀ q v, A.lookup q = some v → q ≠ p → q ≠ targetOf root block →
      fsc.lookup q = some v) ∧
    (∀ q, A.lookup q = none → q ∈ fsc.keys →
      q = targetOf root block ∨
      q = (targetOf root block).dropLast ++ [siadirName] ∨
      (q <+: (targetOf root block).dropLast ∧ root.length < q.length ∧
        fsc.lookup q = some .dir)) := by
  have hpmem : p ∈ A.keys := FS.lookup_mem_keys hp
  have hroot_names : ∀ n ∈ root, properName n :=
    hwf.names root (FS.lookup_mem_keys hroot)
  have htgtval := targetOf_valid root block h16
  have hcnval := companionNew_targetOf_valid root block h16
  have hcoinv : validAtB root (companionOld p) = false := by
    rw [companionOld_valid_eq hwf hpmem]
    exact hinv
  have hne_p_tgt : p ≠ targetOf root block := ne_of_valid_ne hinv htgtval
  have hne_co_p : companionOld p ≠ p := companionOld_ne_self hext
  have hne_co_tgt : companionOld p ≠ targetOf root block :=
    ne_of_valid_ne hcoinv htgtval
  have hne_cn_p : companionNew (targetOf root block) ≠ p :=
    (ne_of_valid_ne hinv hcnval).symm
  have hne_cn_tgt : companionNew (targetOf root block) ≠ targetOf root block :=
    (targetOf_ne_companionNew root block block).symm
  have hFp : F.lookup p = some (.file pc) := hpresF p _ hp
  obtain ⟨c, hc0, hpar, hnd, rfl⟩ := copyFile_ok hcf
  obtain rfl : pc = c := FNode.file.inj (Option.some.inj (hFp.symm.trans hc0))
  have char : ∀ q, ((F.insert (targetOf root block) (.file pc)).erase p).lookup q
      = if q = p then none
        else if q = targetOf root block then some (.file pc)
        else F.lookup q := fun q => copyFile_lookup hc0 q
  have hwfc : WF ((F.insert (targetOf root block) (.file pc)).erase p) := by
    have hwins : WF (F.insert (targetOf root block) (.file pc)) :=
      hwfF.insert_file (targetOf_ne_nil root block)
        (targetOf_names hroot_names block h16) (fun _ => hpar) hnd pc
    have hlkp : (F.insert (targetOf root block) (.file pc)).lookup p
        = some (.file pc) := by
      rw [FS.insert_lookup, if_neg hne_p_tgt]
      exact hFp
    exact hwins.erase_file hlkp
  refine ⟨hwfc, ?_, ?_, ?_, ?_, ?_, ?_, ?_⟩
  · rw [char p, if_pos rfl]
  · rw [char _, if_neg (Ne.symm hne_p_tgt), if_pos rfl]
  · rw [char _, if_neg hne_co_p, if_neg hne_co_tgt]
    exact prep_lookup_eq hpresF haddsF (siaFileB_companionOld p) h16
  · rw [char _, if_neg hne_cn_p, if_neg hne_cn_tgt]
    exact prep_lookup_eq hpresF haddsF (siaFileB_companionNew _) h16
  · intro hdir
    exact hnd (hpresF _ _ hdir)
  · intro q v hv h1 h3
    rw [char q, if_neg h1, if_neg h3]
    exact hpresF q v hv
  · intro q hq hq2
    rw [FS.mem_keys_iff, char q] at hq2
    by_cases h1 : q = p
    · rw [if_pos h1] at hq2
      exact absurd rfl hq2
    rw [if_neg h1] at hq2
    by_cases h3 : q = targetOf root block
    · exact Or.inl h3
    rw [if_neg h3] at hq2
    rcases haddsF q hq ((FS.mem_keys_iff F q).mpr hq2) with hs | ⟨hpre, hgt, hdir⟩
    · exact Or.inr (Or.inl hs)
    · refine Or.inr (Or.inr ⟨hpre, hgt, ?_⟩)
      rw [char q, if_neg h1, if_neg h3]
      exact hdir

/-! The companion relocation of the move branch (lines 305-313). -/

theorem copy2_facts {A fsc fse : FS} {root p : GoPath} {block : List Nat} {pc : FData}
    (hwf : WF A) (hroot : A.lookup root = some .dir) (h16 : block.length = 16)
    (hp : A.lookup p = some (.file pc))
    (hinv : validAtB root p = false) (hext : extendedStemB p = false)
    (hwfc : WF fsc)
    (c1p : fsc.lookup p = none)
    (c1t : fsc.lookup (targetOf root block) = some (.file pc))
    (c1co : fsc.lookup (companionOld p) = A.lookup (companionOld p))
    (c1cn : fsc.lookup (companionNew (targetOf root block))
      = A.lookup (companionNew (targetOf root block)))
    (c1some : ∀ q v, A.lookup q = some v → q ≠ p → q ≠ targetOf root block →
      fsc.lookup q = some v)
    (c1adds : ∀ q, A.lookup q = none → q ∈ fsc.keys →
      q = targetOf root block ∨
      q = (targetOf root block).dropLast ++ [siadirName] ∨
      (q <+: (targetOf root block).dropLast ∧ root.length < q.length ∧
        fsc.lookup q = some .dir))
    (hcf2 : copyFile fsc (companionOld p) (companionNew (targetOf root block))
      = .ok fse) :
    WF fse ∧
    (∃ cc, A.lookup (companionOld p) = some (.file cc) ∧
      A.lookup (companionNew (targetOf root block)) ≠ some .dir ∧
      fse.lookup (companionNew (targetOf root block)) = some (.file cc)) ∧
    fse.lookup p = none ∧
    fse.lookup (targetOf root block) = some (.file pc) ∧
    fse.lookup (companionOld p) = none ∧
    (∀ q v, A.lookup q = some v → q ≠ p → q ≠ companionOld p →
      q ≠ targetOf root block → q ≠ companionNew (targetOf root block) →
      fse.lookup q = some v) ∧
    (∀ q, A.lookup q = none → q ∈ fse.keys →
      q = targetOf root block ∨ q = companionNew (targetOf root block) ∨
      q = (targetOf root block).dropLast ++ [siadirName] ∨
      (q <+: (targetOf root block).dropLast ∧ root.length < q.length ∧
        fse.lookup q = some .dir)) := by
  have hpmem : p ∈ A.keys := FS.lookup_mem_keys hp
  have hroot_names : ∀ n ∈ root, properName n :=
    hwf.names root (FS.lookup_mem_keys hroot)
  have htgtval := targetOf_valid root block h16
  have hcnval := companionNew_targetOf_valid root block h16
  have hcoinv : validAtB root (companionOld p) = false := by
    rw [companionOld_valid_eq hwf hpmem]
    exact hinv
  have hne_p_co : p ≠ companionOld p := (companionOld_ne_self hext).symm
  have hne_p_cn : p ≠ companionNew (targetOf root block) := ne_of_valid_ne hinv hcnval
  have hne_tgt_co : targetOf root block ≠ companionOld p :=
    (ne_of_valid_ne hcoinv htgtval).symm
  have hne_tgt_cn : targetOf root block ≠ companionNew (targetOf root block) :=
    targetOf_ne_companionNew root block block
  have hne_co_cn : companionOld p ≠ companionNew (targetOf root block) :=
    ne_of_valid_ne hcoinv hcnval
  obtain ⟨cc, hcoF, hpar2, hnd2, rfl⟩ := copyFile_ok hcf2
  have char : ∀ q, ((fsc.insert (companionNew (targetOf root block)) (.file cc)).erase
      (companionOld p)).lookup q
      = if q = companionOld p then none
        else if q = companionNew (targetOf root block) then some (.file cc)
        else fsc.lookup q := fun q => copyFile_lookup hcoF q
  have hwfe : WF ((fsc.insert (companionNew (targetOf root block)) (.file cc)).erase
      (companionOld p)) := by
    have hwins : WF (fsc.insert (companionNew (targetOf root block)) (.file cc)) :=
      hwfc.insert_file (companionNew_targetOf_ne_nil root block)
        (companionNew_targetOf_names hroot_names block h16) (fun _ => hpar2) hnd2 cc
    have hlkp : (fsc.insert (companionNew (targetOf root block)) (.file cc)).lookup
        (companionOld p) = some (.file cc) := by
      rw [FS.insert_lookup, if_neg hne_co_cn]
      exact hcoF
    exact hwins.erase_file hlkp
  refine ⟨hwfe, ⟨cc, c1co.symm.trans hcoF, ?_, ?_⟩, ?_, ?_, ?_, ?_, ?_⟩
  · intro hd
    apply hnd2
    rw [c1cn]
    exact hd
  · rw [char _, if_neg (Ne.symm hne_co_cn), if_pos rfl]
  · rw [char p, if_neg hne_p_co, if_neg hne_p_cn]
    exact c1p
  · rw [char _, if_neg hne_tgt_co, if_neg hne_tgt_cn]
    exact c1t
  · rw [char _, if_pos rfl]
  · intro q v hv h1 h2 h3 h4
    rw [char q, if_neg h2, if_neg h4]
    exact c1some q v hv h1 h3
  · intro q hq hq2
    rw [FS.mem_keys_iff, char q] at hq2
    by_cases h2 : q = companionOld p
    · rw [if_pos h2] at hq2
      exact absurd rfl hq2
    rw [if_neg h2] at hq2
    by_cases h4 : q = companionNew (targetOf root block)
    · exact Or.inr (Or.inl h4)
    rw [if_neg h4] at hq2
    rcases c1adds q hq ((FS.mem_keys_iff fsc q).mpr hq2) with ht | hs | ⟨hpre, hgt, hdir⟩
    · exact Or.inl ht
    · exact Or.inr (Or.inr (Or.inl hs))
    · refine Or.inr (Or.inr (Or.inr ⟨hpre, hgt, ?_⟩))
      rw [char q, if_neg h2, if_neg h4]
      exact hdir

/-- Everything one successful fileVisit callback guarantees: the
composable fact bundle, the classification of removed paths, and the
full relocation description when the visited file is an
invalid-placed, non-companion sia file. -/
theorem fileVisit_facts {st st' : RState} {root p : GoPath} {pc : FData}
    (h : fileVisit st root p = .ok st') (hwf : WF st.fs)
    (hroot : st.fs.lookup root = some .dir)
    (hrg : ∀ b ∈ st.rng, b.length = 16)
    (hp : st.fs.lookup p = some (.file pc)) :
    RunFacts root st st' ∧
    (∀ q, q ∈ st.fs.keys → q ∉ st'.fs.keys →
      (q = p ∨ q = companionOld p) ∧ siaFileB p = true ∧
      validAtB root p = false ∧ extendedStemB p = false) ∧
    (siaFileB p = true → validAtB root p = false → extendedStemB p = false →
      p ∉ st'.fs.keys ∧ companionOld p ∉ st'.fs.keys ∧
      ∃ block rng1, st.rng = block :: rng1 ∧ st'.rng = rng1 ∧
        st'.fs.lookup (targetOf root block) = some (.file pc) ∧
        (∀ cc, st.fs.lookup (companionOld p) = some (.file cc) →
          st'.fs.lookup (companionNew (targetOf root block)) = some (.file cc)) ∧
        (streamOK root st → companionOld p ∉ st.fs.keys →
          companionNew (targetOf root block) ∉ st'.fs.keys)) := by
  rw [fileVisit] at h
  by_cases hsia : goExt (p.getLastD "").data = siaExt
  swap
  · -- not a sia-extension file: the callback returns the state unchanged
    rw [if_pos hsia] at h
    obtain rfl : st = st' := Except.ok.inj h
    refine ⟨RunFacts.state_id hwf, fun q hq hq' => absurd hq hq', ?_⟩
    intro h1 _ _
    rw [siaFileB] at h1
    exact absurd (eq_of_beq h1) hsia
  rw [if_neg (not_not_intro hsia)] at h
  rcases Bool.dichotomy (validAtB root p) with hval | hval
  swap
  · -- the re-run path: only the sentinel of the containing directory
    rw [hval, if_pos rfl] at h
    cases hcs : createSiaDir st.fs p.dropLast st.clock with
    | error e =>
      rw [hcs] at h
      exact absurd h (by simp)
    | ok fs1 =>
      rw [hcs] at h
      dsimp only at h
      obtain rfl := Except.ok.inj h
      obtain ⟨hwf1, hpres, hadds, _⟩ := createSiaDir_facts hcs hwf
      have hsent_valid : validAtB root (p.dropLast ++ [siadirName]) = true := by
        rw [validAtB_swap_last hwf (FS.lookup_mem_keys hp) siadirName siadirName_proper]
        exact hval
      refine ⟨⟨hwf1, fun d hd => hd, List.suffix_rfl, fun q hv => hpres q .dir hv,
        ?_, ?_, ?_, ?_, ?_, ?_, countsOK_of_sentinel rfl rfl rfl⟩, ?_, ?_⟩
      · -- removedInv: nothing is removed
        intro q hq hq'
        exfalso
        obtain ⟨v, hv⟩ := FS.lookup_isSome_of_mem hq
        exact hq' (FS.lookup_mem_keys (hpres q v hv))
      · -- invInv
        intro q hqsia _
        cases hF : st.fs.lookup q with
        | some v => exact Or.inl (hpres q v hF)
        | none =>
          by_cases hG : q ∈ fs1.keys
          · exact absurd (hadds q hF hG) (sia_ne_sentinel hqsia p.dropLast)
          · exact Or.inr (FS.lookup_eq_none_iff.mpr hG)
      · -- addedKnown: only the sentinel, at a valid path
        intro q hq hq2
        have hqs := hadds q hq hq2
        refine Or.inl ⟨?_, ?_⟩
        · rw [hqs]
          exact List.getLastD_concat ..
        · rw [hqs]
          exact hsent_valid
      · -- streamPres
        rintro ⟨hpw, hfr⟩
        refine ⟨hpw, ?_⟩
        intro b hb
        obtain ⟨h1, h2⟩ := hfr b hb
        constructor
        · intro hmem
          exact sia_ne_sentinel (siaFileB_targetOf root b) _
            (hadds _ (FS.lookup_eq_none_iff.mpr h1) hmem)
        · intro hmem
          exact sia_ne_sentinel (siaFileB_companionNew _) _
            (hadds _ (FS.lookup_eq_none_iff.mpr h2) hmem)
      · -- noClobber
        intro _ q v hv
        exact Or.inl (hpres q v hv)
      · -- ndsPres
        intro hnds q hq hqroot hqne hqsia
        cases hF : st.fs.lookup q with
        | some v => exact hnds q (FS.lookup_mem_keys hF) hqroot hqne hqsia
        | none =>
          exfalso
          exact sia_ne_sentinel hqsia _ (hadds q hF hq)
      · -- removed classification
        intro q hq hq'
        exfalso
        obtain ⟨v, hv⟩ := FS.lookup_isSome_of_mem hq
        exact hq' (FS.lookup_mem_keys (hpres q v hv))
      · -- move conjunct: contradicts validity
        intro _ hinvT _
        rw [hval] at hinvT
        exact Bool.noConfusion hinvT
  rw [hval, if_neg Bool.false_ne_true] at h
  by_cases hextd : extendedTok <:+ trimSuffixChars (p.getLastD "").data siaExt
  · -- companion files are skipped
    rw [if_pos hextd] at h
    obtain rfl : st = st' := Except.ok.inj h
    refine ⟨RunFacts.state_id hwf, fun q hq hq' => absurd hq hq', ?_⟩
    intro _ _ hextT
    rw [extendedStemB, decide_eq_false_iff_not] at hextT
    exact absurd hextd hextT
  rw [if_neg hextd] at h
  have hsiaB : siaFileB p = true := by
    rw [siaFileB, hsia]
    simp
  have hextB : extendedStemB p = false := by
    rw [extendedStemB, decide_eq_false_iff_not]
    exact hextd
  have hsplit : st.rng = [] ∨ ∃ b r, st.rng = b :: r := by
    cases st.rng with
    | nil => exact Or.inl rfl
    | cons b r => exact Or.inr ⟨b, r, rfl⟩
  rcases hsplit with hrng | ⟨block, rng1, hrng⟩
  · rw [hrng] at h
    exact absurd h (by simp)
  rw [hrng] at h
  dsimp only at h
  have h16 : block.length = 16 :=
    hrg block (by rw [hrng]; exact List.mem_cons_self ..)
  have htgtval := targetOf_valid root block h16
  have hne_p_tgt : p ≠ targetOf root block := ne_of_valid_ne hval htgtval
  by_cases hdirs : (targetOf root block).dropLast ∈ st.dirs
  · -- destination directory already in the dedup set
    rw [if_pos hdirs] at h
    dsimp only at h
    rw [if_pos hdirs, if_neg hne_p_tgt] at h
    cases hcf : copyFile st.fs p (targetOf root block) with
    | error e =>
      rw [hcf] at h
      exact absurd h (by simp)
    | ok fsc =>
      rw [hcf] at h
      dsimp only at h
      obtain ⟨hwfc, c1p, c1t, c1co, c1cn, c1nd, c1some, c1adds⟩ :=
        copy1_facts hwf hroot h16 hp hval hextB hwf (fun q v hv => hv)
          (fun q hq hq2 => absurd hq2 (FS.lookup_eq_none_iff.mp hq)) hcf
      by_cases hcomem : companionOld p ∈ fsc.keys
      swap
      · -- no companion at the old path
        rw [if_neg hcomem] at h
        obtain rfl := Except.ok.inj h
        have hconone : st.fs.lookup (companionOld p) = none := by
          rw [← c1co]
          exact FS.lookup_eq_none_iff.mpr hcomem
        refine moveAssemble hwf hrg hp hsiaB hval hextB hrng ?_ ?_ ?_ ?_ ?_ ?_ ?_ ?_ ?_ ?_ ?_ ?_
        · exact hwfc
        · rfl
        · exact Or.inl ⟨rfl, rfl,
            ⟨[.move p (targetOf root block)], rfl, movesOnly_single _ _⟩⟩
        · exact c1p
        · exact c1t
        · exact c1co.trans hconone
        · exact Or.inl hconone
        · intro cc hcc
          rw [hconone] at hcc
          exact Option.noConfusion hcc
        · exact Or.inl c1cn
        · exact c1nd
        · exact fun q v hv h1 h2 h3 h4 => c1some q v hv h1 h3
        · intro q hq hq2
          rcases c1adds q hq hq2 with h1 | h1 | h1
          · exact Or.inl h1
          · exact Or.inr (Or.inr (Or.inl h1))
          · exact Or.inr (Or.inr (Or.inr h1))
      · -- companion present: second relocation
        rw [if_pos hcomem] at h
        cases hcf2 : copyFile fsc (companionOld p)
            (companionNew (targetOf root block)) with
        | error e =>
          rw [hcf2] at h
          exact absurd h (by simp)
        | ok fse =>
          rw [hcf2] at h
          dsimp only at h
          obtain rfl := Except.ok.inj h
          obtain ⟨hwfe, ⟨cc, hstco, hstcn_nd, hecn⟩, e1p, e1t, e1co, e1some, e1adds⟩ :=
            copy2_facts hwf hroot h16 hp hval hextB hwfc c1p c1t c1co c1cn
              c1some c1adds hcf2
          refine moveAssemble hwf hrg hp hsiaB hval hextB hrng ?_ ?_ ?_ ?_ ?_ ?_ ?_ ?_ ?_ ?_ ?_ ?_
          · exact hwfe
          · rfl
          · exact Or.inl ⟨rfl, rfl,
              ⟨[.move p (targetOf root block),
                .move (companionOld p) (companionNew (targetOf root block))],
                by simp, movesOnly_pair _ _ _ _⟩⟩
          · exact e1p
          · exact e1t
          · exact e1co
          · exact Or.inr ⟨cc, hstco⟩
          · intro cc2 hcc2
            rw [hstco] at hcc2
            obtain rfl : cc = cc2 := FNode.file.inj (Option.some.inj hcc2)
            exact hecn
          · exact Or.inr ⟨cc, hstco, hstcn_nd, hecn⟩
          · exact c1nd
          · exact e1some
          · exact e1adds
  · -- fresh destination directory: log, MkdirAll, sentinel first
    rw [if_neg hdirs] at h
    cases hmk : mkdirAll st.fs (targetOf root block).dropLast with
    | error e =>
      rw [hmk] at h
      exact absurd h (by simp)
    | ok fsm =>
      rw [hmk] at h
      dsimp only at h
      cases hcs : createSiaDir fsm (targetOf root block).dropLast st.clock with
      | error e =>
        rw [hcs] at h
        exact absurd h (by simp)
      | ok fsm2 =>
        rw [hcs] at h
        dsimp only at h
        rw [if_neg hdirs, if_neg hne_p_tgt] at h
        obtain ⟨hwfm2, hpresm2, haddsm2⟩ := movePrep_facts hwf hroot h16 hmk hcs
        cases hcf : copyFile fsm2 p (targetOf root block) with
        | error e =>
          rw [hcf] at h
          exact absurd h (by simp)
        | ok fsc =>
          rw [hcf] at h
          dsimp only at h
          obtain ⟨hwfc, c1p, c1t, c1co, c1cn, c1nd, c1some, c1adds⟩ :=
            copy1_facts hwf hroot h16 hp hval hextB hwfm2 hpresm2 haddsm2 hcf
          by_cases hcomem : companionOld p ∈ fsc.keys
          swap
          · rw [if_neg hcomem] at h
            obtain rfl := Except.ok.inj h
            have hconone : st.fs.lookup (companionOld p) = none := by
              rw [← c1co]
              exact FS.lookup_eq_none_iff.mpr hcomem
            refine moveAssemble hwf hrg hp hsiaB hval hextB hrng ?_ ?_ ?_ ?_ ?_ ?_ ?_ ?_ ?_ ?_ ?_ ?_
            · exact hwfc
            · rfl
            · exact Or.inr ⟨hdirs, rfl, rfl,
                ⟨[.move p (targetOf root block)], by simp, movesOnly_single _ _⟩⟩
            · exact c1p
            · exact c1t
            · exact c1co.trans hconone
            · exact Or.inl hconone
            · intro cc hcc
              rw [hconone] at hcc
              exact Option.noConfusion hcc
            · exact Or.inl c1cn
            · exact c1nd
            · exact fun q v hv h1 h2 h3 h4 => c1some q v hv h1 h3
            · intro q hq hq2
              rcases c1adds q hq hq2 with h1 | h1 | h1
              · exact Or.inl h1
              · exact Or.inr (Or.inr (Or.inl h1))
              · exact Or.inr (Or.inr (Or.inr h1))
          · rw [if_pos hcomem] at h
            cases hcf2 : copyFile fsc (companionOld p)
                (companionNew (targetOf root block)) with
            | error e =>
              rw [hcf2] at h
              exact absurd h (by simp)
            | ok fse =>
              rw [hcf2] at h
              dsimp only at h
              obtain rfl := Except.ok.inj h
              obtain ⟨hwfe, ⟨cc, hstco, hstcn_nd, hecn⟩,
                  e1p, e1t, e1co, e1some, e1adds⟩ :=
                copy2_facts hwf hroot h16 hp hval hextB hwfc c1p c1t c1co c1cn
                  c1some c1adds hcf2
              refine moveAssemble hwf hrg hp hsiaB hval hextB hrng ?_ ?_ ?_ ?_ ?_ ?_ ?_ ?_ ?_ ?_ ?_ ?_
              · exact hwfe
              · rfl
              · exact Or.inr ⟨hdirs, rfl, rfl,
                  ⟨[.move p (targetOf root block),
                    .move (companionOld p) (companionNew (targetOf root block))],
                    by simp, movesOnly_pair _ _ _ _⟩⟩
              · exact e1p
              · exact e1t
              · exact e1co
              · exact Or.inr ⟨cc, hstco⟩
              · intro cc2 hcc2
                rw [hstco] at hcc2
                obtain rfl : cc = cc2 := FNode.file.inj (Option.some.inj hcc2)
                exact hecn
              · exact Or.inr ⟨cc, hstco, hstcn_nd, hecn⟩
              · exact c1nd
              · exact e1some
              · exact e1adds

/-! Walk-level composition: what a whole renameAll walk guarantees for
every invalid-placed primary below its starting directory. -/

/-- An invalid primary q with start-state content c has been fully
relocated between st and st': q and its code-derived companion are
gone, some drawn block's generated path holds c, a companion that
existed moved alongside, and no companion appears if none existed. -/
def movedFacts (root : GoPath) (st st' : RState) (q : GoPath) (c : FData) : Prop :=
  q ∉ st'.fs.keys ∧ companionOld q ∉ st'.fs.keys ∧
  ∃ b ∈ st.rng, (∀ b' ∈ st'.rng, hexEncode b' ≠ hexEncode b) ∧
    st'.fs.lookup (targetOf root b) = some (.file c) ∧
    (∀ cc, st.fs.lookup (companionOld q) = some (.file cc) →
      st'.fs.lookup (companionNew (targetOf root b)) = some (.file cc)) ∧
    (companionOld q ∉ st.fs.keys → companionNew (targetOf root b) ∉ st'.fs.keys)

theorem foldl_error_absorb {α β ε : Type} (step : Except ε β → α → Except ε β)
    (hstep : ∀ e a, step (.error e) a = .error e) (l : List α) (e : ε) :
    l.foldl step (.error e) = .error e := by
  induction l with
  | nil => rfl
  | cons a rest ih =>
    rw [List.foldl_cons, hstep]
    exact ih

theorem strict_prefix_step {p q : GoPath} (hpre : p <+: q) (hne : q ≠ p) :
    ∃ n, p ++ [n] <+: q := by
  obtain ⟨t, rfl⟩ := hpre
  cases t with
  | nil => exact absurd (by simp) hne
  | cons n t2 => exact ⟨n, t2, by simp⟩

theorem concat_pre_ne (p : GoPath) (x : String) : p <+: p ++ [x] ∧ p ++ [x] ≠ p := by
  refine ⟨List.prefix_append _ _, ?_⟩
  intro hc
  have := congrArg List.length hc
  simp at this

theorem ne_root_of_under {root p q : GoPath} {n : String} (hrp : root <+: p)
    (hq : p ++ [n] <+: q) : q ≠ root := by
  intro hc
  have h1 := hq.length_le
  have h2 := hrp.length_le
  rw [hc, List.length_append, List.length_singleton] at h1
  omega

theorem companionOld_name_len4 (q : GoPath) :
    4 ≤ ((companionOld q).getLastD "").data.length := by
  rw [companionOld_getLastD]
  show 4 ≤ (trimSuffixChars (trimSuffixChars (q.getLastD "").data siaExt) siaExt
    ++ extendedTok ++ siaExt).length
  rw [List.length_append, List.length_append]
  have h1 : extendedTok.length = 9 := by decide
  have h2 : siaExt.length = 4 := by decide
  omega

theorem trimSuffix_eq_of_not_suffix {s suf : List Char} (h : ¬(suf <:+ s)) :
    trimSuffixChars s suf = s := by
  rw [trimSuffixChars, if_neg h]

/-- On names whose single-trim stem does not itself end in the primary
extension, the double-trim companion map is injective. -/
theorem companionOld_inj {x y : GoPath}
    (hx : siaFileB x = true) (hy : siaFileB y = true)
    (hnx : ¬(siaExt <:+ trimSuffixChars (x.getLastD "").data siaExt))
    (hny : ¬(siaExt <:+ trimSuffixChars (y.getLastD "").data siaExt))
    (hxe : x ≠ []) (hye : y ≠ [])
    (h : companionOld x = companionOld y) : x = y := by
  have hdl : x.dropLast = y.dropLast := by
    have h2 := congrArg List.dropLast h
    rwa [companionOld_dropLast, companionOld_dropLast] at h2
  have hlast : (companionOld x).getLastD "" = (companionOld y).getLastD "" := by rw [h]
  rw [companionOld_getLastD, companionOld_getLastD] at hlast
  have hdata : trimSuffixChars (trimSuffixChars (x.getLastD "").data siaExt) siaExt
      ++ extendedTok ++ siaExt
      = trimSuffixChars (trimSuffixChars (y.getLastD "").data siaExt) siaExt
        ++ extendedTok ++ siaExt := congrArg String.data hlast
  have h2 : trimSuffixChars (trimSuffixChars (x.getLastD "").data siaExt) siaExt
      = trimSuffixChars (trimSuffixChars (y.getLastD "").data siaExt) siaExt :=
    append_cancel_r (append_cancel_r hdata)
  rw [trimSuffix_eq_of_not_suffix hnx, trimSuffix_eq_of_not_suffix hny] at h2
  have hnames : x.getLastD "" = y.getLastD "" := by
    have hx2 := sia_name_split hx
    have hy2 := sia_name_split hy
    have hd : (x.getLastD "").data = (y.getLastD "").data := by
      rw [hx2, hy2, h2]
    exact String.ext hd
  calc x = x.dropLast ++ [x.getLastD ""] := path_concat_last hxe
    _ = y.dropLast ++ [y.getLastD ""] := by rw [hdl, hnames]
    _ = y := (path_concat_last hye).symm

/-- Relocation facts persist through any further run segment whose
remaining stream is fresh and block-distinct. -/
theorem movedFacts_extend {root : GoPath} {st1 st2 st3 : RState} {q : GoPath}
    {c : FData}
    (rf : RunFacts root st2 st3)
    (hrg1 : ∀ b ∈ st1.rng, b.length = 16)
    (hrg2 : ∀ b ∈ st2.rng, b.length = 16)
    (hstream2 : streamOK root st2)
    (hqsia : siaFileB q = true) (hqinv : validAtB root q = false)
    (hcoinv : validAtB root (companionOld q) = false)
    (hmf : movedFacts root st1 st2 q c) :
    movedFacts root st1 st3 q c := by
  obtain ⟨hq, hco, b, hbmem, hdist, htgt, hcomp, habs⟩ := hmf
  have h16 : b.length = 16 := hrg1 b hbmem
  refine ⟨?_, ?_, b, hbmem, ?_, ?_, ?_, ?_⟩
  · exact absent_kept rf (FS.lookup_eq_none_iff.mpr hq) hqinv
      (siaFileB_name_len hqsia) hrg2
  · exact absent_kept rf (FS.lookup_eq_none_iff.mpr hco) hcoinv
      (companionOld_name_len4 q) hrg2
  · intro b2 hb2
    exact hdist b2 (rf.rngSuf.subset hb2)
  · exact valid_file_kept rf htgt (siaFileB_targetOf root b)
      (targetOf_valid root b h16) hstream2
  · intro cc hcc
    exact valid_file_kept rf (hcomp cc hcc) (siaFileB_companionNew _)
      (companionNew_targetOf_valid root b h16) hstream2
  · intro hnc
    exact companionNew_absent_kept rf h16
      (FS.lookup_eq_none_iff.mpr (habs hnc)) hdist

/-- Everything a successful renameAll walk below directory p
guarantees: the composable fact bundle, removals confined strictly
below p, and full relocation of every invalid-placed primary strictly
below p, provided the stream is fresh and no name carries a double
extension. -/
theorem walkRen_facts (fuel : Nat) : ∀ (st : RState) (root p : GoPath) (st' : RState),
    walkRen fuel st root p = .ok st' →
    WF st.fs → st.fs.lookup root = some .dir →
    (∀ b ∈ st.rng, b.length = 16) → root <+: p → p ≠ [] →
    RunFacts root st st' ∧
    (∀ q, q ∈ st.fs.keys → q ∉ st'.fs.keys → p <+: q ∧ q ≠ p) ∧
    (streamOK root st → noDoubleSia root st.fs →
      ∀ q c, st.fs.lookup q = some (.file c) → p <+: q → q ≠ p →
        siaFileB q = true → validAtB root q = false → extendedStemB q = false →
        movedFacts root st st' q c) := by
  induction fuel with
  | zero =>
    intro st root p st' h _ _ _ _ _
    rw [walkRen] at h
    exact absurd h (by simp)
  | succ f ihf =>
    intro st root p st' h hwf hroot hrg hrpre hpne
    have hfold : ∀ (names : List String) (stc st2 : RState),
        names.foldl (fun (acc : Except FsErr RState) n =>
          match acc with
          | .error e => .error e
          | .ok stc =>
            match stc.fs.lookup (p ++ [n]) with
            | none => .error (.nilInfo (p ++ [n]))
            | some (.file _) => fileVisit stc root (p ++ [n])
            | some .dir => walkRen f stc root (p ++ [n])) (.ok stc) = .ok st2 →
        WF stc.fs → stc.fs.lookup root = some .dir →
        (∀ b ∈ stc.rng, b.length = 16) →
        RunFacts root stc st2 ∧
        (∀ q, q ∈ stc.fs.keys → q ∉ st2.fs.keys → p <+: q ∧ q ≠ p) ∧
        (streamOK root stc → noDoubleSia root stc.fs →
          ∀ q c, stc.fs.lookup q = some (.file c) →
            (∃ n ∈ names, p ++ [n] <+: q) →
            siaFileB q = true → validAtB root q = false → extendedStemB q = false →
            movedFacts root stc st2 q c) := by
      intro names
      induction names with
      | nil =>
        intro stc st2 heq hwfc hrootc hrgc
        obtain rfl := Except.ok.inj heq
        refine ⟨RunFacts.state_id hwfc, fun q hq hq2 => absurd hq hq2, ?_⟩
        rintro _ _ q c _ ⟨n, hn, _⟩ _ _ _
        exact absurd hn (List.not_mem_nil n)
      | cons n rest ihn =>
        intro stc st2 heq hwfc hrootc hrgc
        rw [List.foldl_cons] at heq
        dsimp only at heq
        cases hlk : stc.fs.lookup (p ++ [n]) with
        | none =>
          rw [hlk] at heq
          rw [foldl_error_absorb _ (fun e a => rfl)] at heq
          exact absurd heq (by simp)
        | some node =>
          cases node with
          | file d2 =>
            rw [hlk] at heq
            dsimp only at heq
            cases hfv : fileVisit stc root (p ++ [n]) with
            | error e =>
              rw [hfv] at heq
              rw [foldl_error_absorb _ (fun e a => rfl)] at heq
              exact absurd heq (by simp)
            | ok std =>
              rw [hfv] at heq
              obtain ⟨rf1, hrem1, hmv1⟩ := fileVisit_facts hfv hwfc hrootc hrgc hlk
              have hrgd : ∀ b ∈ std.rng, b.length = 16 :=
                fun b hb => hrgc b (rf1.rngSuf.subset hb)
              obtain ⟨rf2, hrem2, hmv2⟩ := ihn std st2 heq rf1.wf
                (rf1.dirPres root hrootc) hrgd
              refine ⟨rf1.comp2 rf2, ?_, ?_⟩
              · intro q hq hq2
                by_cases hqd : q ∈ std.fs.keys
                · exact hrem2 q hqd hq2
                · obtain ⟨hin, _, _, _⟩ := hrem1 q hq hqd
                  rcases hin with rfl | rfl
                  · exact concat_pre_ne p n
                  · obtain ⟨x, hx⟩ : ∃ x, companionOld (p ++ [n]) = p ++ [x] :=
                      ⟨_, by rw [companionOld, List.dropLast_concat]⟩
                    rw [hx]
                    exact concat_pre_ne p x
              · intro hstream hnds q c hqlk hscope hqsia hqinv hqext
                have hsc : streamOK root std := rf1.streamPres hstream
                have hndsd : noDoubleSia root std.fs := rf1.ndsPres hnds
                have hqmem : q ∈ stc.fs.keys := FS.lookup_mem_keys hqlk
                have hcoinv : validAtB root (companionOld q) = false := by
                  rw [companionOld_valid_eq hwfc hqmem]
                  exact hqinv
                by_cases hqn : q = p ++ [n]
                · -- q is the entry visited now: the move happens here
                  have hc2 : d2 = c := by
                    rw [hqn, hlk] at hqlk
                    exact FNode.file.inj (Option.some.inj hqlk)
                  subst hc2
                  rw [hqn] at hqsia hqinv hqext hcoinv ⊢
                  obtain ⟨hgone, hcogone, block, rng1, hrngc, hrngd2, htgt, hcomp, habs⟩ :=
                    hmv1 hqsia hqinv hqext
                  have hbmem : block ∈ stc.rng := by
                    rw [hrngc]
                    exact List.mem_cons_self ..
                  have hdist : ∀ b2 ∈ std.rng, hexEncode b2 ≠ hexEncode block := by
                    intro b2 hb2
                    have hpw := hstream.1
                    rw [hrngc, List.pairwise_cons] at hpw
                    rw [hrngd2] at hb2
                    exact (hpw.1 b2 hb2).symm
                  exact movedFacts_extend rf2 hrgc hrgd hsc hqsia hqinv hcoinv
                    ⟨hgone, hcogone, block, hbmem, hdist, htgt, hcomp,
                      fun hnc => habs hstream hnc⟩
                · -- q is untouched by this visit
                  have hqkeep : q ∈ std.fs.keys := by
                    by_contra hqgone
                    obtain ⟨hin, hsiaV, hinvV, hextV⟩ := hrem1 q hqmem hqgone
                    rcases hin with heq2 | heq2
                    · exact hqn heq2
                    · rw [heq2, extendedStemB_companionOld] at hqext
                      exact Bool.noConfusion hqext
                  have hqlk2 : std.fs.lookup q = some (.file c) :=
                    entry_kept rf1 hqlk hqsia hqinv hqkeep
                  have hscope2 : ∃ m ∈ rest, p ++ [m] <+: q := by
                    obtain ⟨m, hm, hmq⟩ := hscope
                    rcases List.mem_cons.mp hm with rfl | hm2
                    · exfalso
                      have hdirq := (hwfc.prefix_facts q hqmem (p ++ [m]) hmq
                        (by simp)).2 (fun hc => hqn hc.symm)
                      rw [hlk] at hdirq
                      exact FNode.noConfusion (Option.some.inj hdirq)
                    · exact ⟨m, hm2, hmq⟩
                  have hrootq : root <+: q := by
                    obtain ⟨m, _, hmq⟩ := hscope
                    exact hrpre.trans ((List.prefix_append p [m]).trans hmq)
                  have hqroot_ne : q ≠ root := by
                    obtain ⟨m, _, hmq⟩ := hscope
                    exact ne_root_of_under hrpre hmq
                  have hcokeep : ∀ cc, stc.fs.lookup (companionOld q) = some (.file cc) →
                      std.fs.lookup (companionOld q) = some (.file cc) := by
                    intro cc hcc
                    apply entry_kept rf1 hcc (siaFileB_companionOld q) hcoinv
                    by_contra hcogone
                    obtain ⟨hin, hsiaV, hinvV, hextV⟩ :=
                      hrem1 _ (FS.lookup_mem_keys hcc) hcogone
                    rcases hin with heq2 | heq2
                    · rw [← heq2, extendedStemB_companionOld] at hextV
                      exact Bool.noConfusion hextV
                    · apply hqn
                      refine companionOld_inj hqsia hsiaV ?_ ?_
                        (hwfc.ne_nil q hqmem)
                        (hwfc.ne_nil _ (FS.lookup_mem_keys hlk)) heq2
                      · exact hnds q hqmem hrootq hqroot_ne hqsia
                      · exact hnds (p ++ [n]) (FS.lookup_mem_keys hlk)
                          (hrpre.trans (List.prefix_append p [n]))
                          (ne_root_of_under hrpre List.prefix_rfl) hsiaV
                  have hcoabs : companionOld q ∉ stc.fs.keys →
                      companionOld q ∉ std.fs.keys := by
                    intro hnc
                    exact absent_kept rf1 (FS.lookup_eq_none_iff.mpr hnc) hcoinv
                      (companionOld_name_len4 q) hrgc
                  obtain ⟨hq3, hco3, b, hbmem, hdist, htgt, hcomp, habs⟩ :=
                    hmv2 hsc hndsd q c hqlk2 hscope2 hqsia hqinv hqext
                  refine ⟨hq3, hco3, b, rf1.rngSuf.subset hbmem, hdist, htgt, ?_, ?_⟩
                  · intro cc hcc
                    exact hcomp cc (hcokeep cc hcc)
                  · intro hnc
                    exact habs (hcoabs hnc)
          | dir =>
            rw [hlk] at heq
            dsimp only at heq
            cases hw : walkRen f stc root (p ++ [n]) with
            | error e =>
              rw [hw] at heq
              rw [foldl_error_absorb _ (fun e a => rfl)] at heq
              exact absurd heq (by simp)
            | ok std =>
              rw [hw] at heq
              obtain ⟨rf1, hrem1, hmv1⟩ := ihf stc root (p ++ [n]) std hw hwfc
                hrootc hrgc (hrpre.trans (List.prefix_append p [n])) (by simp)
              have hrgd : ∀ b ∈ std.rng, b.length = 16 :=
                fun b hb => hrgc b (rf1.rngSuf.subset hb)
              obtain ⟨rf2, hrem2, hmv2⟩ := ihn std st2 heq rf1.wf
                (rf1.dirPres root hrootc) hrgd
              refine ⟨rf1.comp2 rf2, ?_, ?_⟩
              · intro q hq hq2
                by_cases hqd : q ∈ std.fs.keys
                · exact hrem2 q hqd hq2
                · obtain ⟨hpre1, _⟩ := hrem1 q hq hqd
                  refine ⟨(List.prefix_append p [n]).trans hpre1, ?_⟩
                  intro hc
                  have h1 := hpre1.length_le
                  rw [hc, List.length_append, List.length_singleton] at h1
                  omega
              · intro hstream hnds q c hqlk hscope hqsia hqinv hqext
                have hsc : streamOK root std := rf1.streamPres hstream
                have hndsd : noDoubleSia root std.fs := rf1.ndsPres hnds
                have hqmem : q ∈ stc.fs.keys := FS.lookup_mem_keys hqlk
                have hcoinv : validAtB root (companionOld q) = false := by
                  rw [companionOld_valid_eq hwfc hqmem]
                  exact hqinv
                have hqe : q ≠ [] := hwfc.ne_nil q hqmem
                by_cases hqn : p ++ [n] <+: q
                · -- q lies in the visited subtree: moved by the recursive walk
                  have hqne : q ≠ p ++ [n] := by
                    intro hc
                    rw [hc, hlk] at hqlk
                    exact FNode.noConfusion (Option.some.inj hqlk)
                  have hmf1 := hmv1 hstream hnds q c hqlk hqn hqne hqsia hqinv hqext
                  exact movedFacts_extend rf2 hrgc hrgd hsc hqsia hqinv hcoinv hmf1
                · -- q lies outside the visited subtree
                  have hqkeep : q ∈ std.fs.keys := by
                    by_contra hqgone
                    obtain ⟨hpre1, _⟩ := hrem1 q hqmem hqgone
                    exact hqn hpre1
                  have hqlk2 : std.fs.lookup q = some (.file c) :=
                    entry_kept rf1 hqlk hqsia hqinv hqkeep
                  have hscope2 : ∃ m ∈ rest, p ++ [m] <+: q := by
                    obtain ⟨m, hm, hmq⟩ := hscope
                    rcases List.mem_cons.mp hm with rfl | hm2
                    · exact absurd hmq hqn
                    · exact ⟨m, hm2, hmq⟩
                  have hcokeep : ∀ cc, stc.fs.lookup (companionOld q) = some (.file cc) →
                      std.fs.lookup (companionOld q) = some (.file cc) := by
                    intro cc hcc
                    apply entry_kept rf1 hcc (siaFileB_companionOld q) hcoinv
                    by_contra hcogone
                    obtain ⟨hpre1, hne1⟩ := hrem1 _ (FS.lookup_mem_keys hcc) hcogone
                    rw [companionOld] at hpre1 hne1
                    rcases List.prefix_concat_iff.mp hpre1 with heqc | hprec
                    · exact hne1 heqc.symm
                    · apply hqn
                      exact hprec.trans ⟨[q.getLastD ""], (path_concat_last hqe).symm⟩
                  have hcoabs : companionOld q ∉ stc.fs.keys →
                      companionOld q ∉ std.fs.keys := by
                    intro hnc
                    exact absent_kept rf1 (FS.lookup_eq_none_iff.mpr hnc) hcoinv
                      (companionOld_name_len4 q) hrgc
                  obtain ⟨hq3, hco3, b, hbmem, hdist, htgt, hcomp, habs⟩ :=
                    hmv2 hsc hndsd q c hqlk2 hscope2 hqsia hqinv hqext
                  refine ⟨hq3, hco3, b, rf1.rngSuf.subset hbmem, hdist, htgt, ?_, ?_⟩
                  · intro cc hcc
                    exact hcomp cc (hcokeep cc hcc)
                  · intro hnc
                    exact habs (hcoabs hnc)
    rw [walkRen] at h
    cases hrd : readDir st.fs p with
    | error e =>
      rw [hrd] at h
      obtain rfl := Except.ok.inj h
      refine ⟨RunFacts.state_id hwf, fun q hq hq2 => absurd hq hq2, ?_⟩
      intro _ _ q c hqlk hpq hqp _ _ _
      exfalso
      have hdirp := (hwf.prefix_facts q (FS.lookup_mem_keys hqlk) p hpq hpne).2
        (fun hc => hqp hc.symm)
      rw [readDir, hdirp] at hrd
      exact Except.noConfusion hrd
    | ok names =>
      rw [hrd] at h
      dsimp only at h
      have hpinfo : st.fs.lookup p = some .dir ∧ names = st.fs.childNames p := by
        rw [readDir] at hrd
        cases hpl : st.fs.lookup p with
        | none =>
          rw [hpl] at hrd
          exact absurd hrd (by simp)
        | some nd =>
          cases nd with
          | file d =>
            rw [hpl] at hrd
            exact absurd hrd (by simp)
          | dir =>
            rw [hpl] at hrd
            exact ⟨rfl, (Except.ok.inj hrd).symm⟩
      obtain ⟨rf, hrem, hmv⟩ := hfold names st st' h hwf hroot hrg
      refine ⟨rf, hrem, ?_⟩
      intro hstream hnds q c hqlk hpq hqp hqsia hqinv hqext
      obtain ⟨n, hn⟩ := strict_prefix_step hpq hqp
      have hnmem : (p ++ [n]) ∈ st.fs.keys :=
        hwf.prefix_mem (FS.lookup_mem_keys hqlk) hn (by simp)
      have hnc : n ∈ names := by
        rw [hpinfo.2]
        exact FS.mem_childNames.mpr hnmem
      exact hmv hstream hnds q c hqlk ⟨n, hnc, hn⟩ hqsia hqinv hqext

/-- renameAll on a root directory is the walk with the height fuel. -/
theorem renameAll_facts {st st' : RState} {root : GoPath}
    (h : renameAll st root = .ok st') (hwf : WF st.fs)
    (hroot : st.fs.lookup root = some .dir)
    (hrg : ∀ b ∈ st.rng, b.length = 16) :
    RunFacts root st st' ∧
    (∀ q, q ∈ st.fs.keys → q ∉ st'.fs.keys → root <+: q ∧ q ≠ root) ∧
    (streamOK root st → noDoubleSia root st.fs →
      ∀ q c, st.fs.lookup q = some (.file c) → root <+: q → q ≠ root →
        siaFileB q = true → validAtB root q = false → extendedStemB q = false →
        movedFacts root st st' q c) := by
  rw [renameAll, hroot] at h
  exact walkRen_facts (fsHeight st.fs + 5) st root root st' h hwf hroot hrg
    List.prefix_rfl (hwf.ne_nil root (FS.lookup_mem_keys hroot))

/-- Every sia file below root is placed at a conforming path, or is a
companion-named file. -/
def ready (root : GoPath) (fs : FS) : Prop :=
  ∀ q c, fs.lookup q = some (.file c) → root <+: q → siaFileB q = true →
    extendedStemB q = false → validAtB root q = true

/-- After one successful run over a fresh stream, the tree is ready:
no invalid-placed non-companion sia file remains. -/
theorem renameAll_complete {st st' : RState} {root : GoPath}
    (h : renameAll st root = .ok st') (hwf : WF st.fs)
    (hroot : st.fs.lookup root = some .dir)
    (hrg : ∀ b ∈ st.rng, b.length = 16)
    (hstream : streamOK root st) (hnds : noDoubleSia root st.fs) :
    ready root st'.fs := by
  obtain ⟨rf, hrem, hmv⟩ := renameAll_facts h hwf hroot hrg
  intro q c hqlk hpq hqsia hqext
  rcases Bool.dichotomy (validAtB root q) with hqinv | hqval
  swap
  · exact hqval
  exfalso
  have hqroot : q ≠ root := by
    intro hc
    rw [hc, rf.dirPres root hroot] at hqlk
    exact FNode.noConfusion (Option.some.inj hqlk)
  cases hF : st.fs.lookup q with
  | some v =>
    cases v with
    | dir =>
      rw [rf.dirPres q hF] at hqlk
      exact FNode.noConfusion (Option.some.inj hqlk)
    | file c0 =>
      obtain ⟨hgone, _⟩ := hmv hstream hnds q c0 hF hpq hqroot hqsia hqinv hqext
      exact hgone (FS.lookup_mem_keys hqlk)
  | none =>
    rcases rf.addedKnown q hF (FS.lookup_mem_keys hqlk) with ⟨_, hval⟩ | ⟨b, hb, hcase⟩
    · rw [hval] at hqinv
      exact Bool.noConfusion hqinv
    · have h16 := hrg b hb
      rcases hcase with rfl | rfl | ⟨hpre, hgt, hdir⟩
      · rw [targetOf_valid root b h16] at hqinv
        exact Bool.noConfusion hqinv
      · rw [companionNew_targetOf_valid root b h16] at hqinv
        exact Bool.noConfusion hqinv
      · rw [hdir] at hqlk
        exact FNode.noConfusion (Option.some.inj hqlk)

theorem ready_pres {root : GoPath} {fs fs' : FS} (hwf' : WF fs')
    (hready : ready root fs)
    (hpres : ∀ q v, fs.lookup q = some v → fs'.lookup q = some v)
    (hadds : ∀ q, fs.lookup q = none → q ∈ fs'.keys → q.getLastD "" = siadirName) :
    ready root fs' := by
  intro q c hq hpq hqsia hqext
  cases hF : fs.lookup q with
  | some v =>
    have h2 := (hpres q v hF).symm.trans hq
    obtain rfl : v = .file c := Option.some.inj h2
    exact hready q c hF hpq hqsia hqext
  | none =>
    exfalso
    have hname := hadds q hF (FS.lookup_mem_keys hq)
    have hqe : q ≠ [] := hwf'.ne_nil q (FS.lookup_mem_keys hq)
    have hq2 : q = q.dropLast ++ [siadirName] := by
      conv_lhs => rw [path_concat_last hqe]
      rw [hname]
    have hfalse : siaFileB q = false := by
      rw [hq2]
      exact siaFileB_sentinel _
    rw [hfalse] at hqsia
    exact Bool.noConfusion hqsia

/-- On a ready tree, a visit only checks sentinels: no state field
changes except sentinel additions. -/
theorem fileVisit_noop {st st' : RState} {root p : GoPath} {pc : FData}
    (h : fileVisit st root p = .ok st') (hwf : WF st.fs)
    (hready : ready root st.fs)
    (hp : st.fs.lookup p = some (.file pc)) (hrootp : root <+: p) :
    WF st'.fs ∧ st'.log = st.log ∧ st'.dirs = st.dirs ∧ st'.rng = st.rng ∧
    (∃ tr, st'.trace = st.trace ++ tr ∧ ∀ e ∈ tr, ∃ d, e = .ensureSentinel d) ∧
    (∀ q v, st.fs.lookup q = some v → st'.fs.lookup q = some v) ∧
    (∀ q, st.fs.lookup q = none → q ∈ st'.fs.keys → q.getLastD "" = siadirName) := by
  rw [fileVisit] at h
  by_cases hsia : goExt (p.getLastD "").data = siaExt
  swap
  · rw [if_pos hsia] at h
    obtain rfl : st = st' := Except.ok.inj h
    exact ⟨hwf, rfl, rfl, rfl, ⟨[], by simp, by simp⟩, fun q v hv => hv,
      fun q hq hq2 => absurd hq2 (FS.lookup_eq_none_iff.mp hq)⟩
  rw [if_neg (not_not_intro hsia)] at h
  rcases Bool.dichotomy (validAtB root p) with hval | hval
  swap
  · rw [hval, if_pos rfl] at h
    cases hcs : createSiaDir st.fs p.dropLast st.clock with
    | error e =>
      rw [hcs] at h
      exact absurd h (by simp)
    | ok fs1 =>
      rw [hcs] at h
      dsimp only at h
      obtain rfl := Except.ok.inj h
      obtain ⟨hwf1, hpres, hadds, _⟩ := createSiaDir_facts hcs hwf
      refine ⟨hwf1, rfl, rfl, rfl,
        ⟨[.ensureSentinel p.dropLast], rfl, ?_⟩, hpres, ?_⟩
      · intro e he
        rw [List.mem_singleton] at he
        exact ⟨p.dropLast, he⟩
      · intro q hq hq2
        rw [hadds q hq hq2]
        exact List.getLastD_concat ..
  rw [hval, if_neg Bool.false_ne_true] at h
  by_cases hextd : extendedTok <:+ trimSuffixChars (p.getLastD "").data siaExt
  · rw [if_pos hextd] at h
    obtain rfl : st = st' := Except.ok.inj h
    exact ⟨hwf, rfl, rfl, rfl, ⟨[], by simp, by simp⟩, fun q v hv => hv,
      fun q hq hq2 => absurd hq2 (FS.lookup_eq_none_iff.mp hq)⟩
  · exfalso
    have hsiaB : siaFileB p = true := by
      rw [siaFileB, hsia]
      simp
    have hextB : extendedStemB p = false := by
      rw [extendedStemB, decide_eq_false_iff_not]
      exact hextd
    have hcontra := hready p pc hp hrootp hsiaB hextB
    rw [hval] at hcontra
    exact Bool.noConfusion hcontra

/-- On a ready tree, the whole walk only checks sentinels. -/
theorem walkRen_noop (fuel : Nat) : ∀ (st : RState) (root p : GoPath) (st' : RState),
    walkRen fuel st root p = .ok st' →
    WF st.fs → ready root st.fs → st.fs.lookup root = some .dir → root <+: p →
    WF st'.fs ∧ st'.log = st.log ∧ st'.dirs = st.dirs ∧ st'.rng = st.rng ∧
    (∃ tr, st'.trace = st.trace ++ tr ∧ ∀ e ∈ tr, ∃ d, e = .ensureSentinel d) ∧
    (∀ q v, st.fs.lookup q = some v → st'.fs.lookup q = some v) ∧
    (∀ q, st.fs.lookup q = none → q ∈ st'.fs.keys → q.getLastD "" = siadirName) := by
  induction fuel with
  | zero =>
    intro st root p st' h _ _ _ _
    rw [walkRen] at h
    exact absurd h (by simp)
  | succ f ihf =>
    intro st root p st' h hwf hready hroot hrpre
    have hfold : ∀ (names : List String) (stc st2 : RState),
        names.foldl (fun (acc : Except FsErr RState) n =>
          match acc with
          | .error e => .error e
          | .ok stc =>
            match stc.fs.lookup (p ++ [n]) with
            | none => .error (.nilInfo (p ++ [n]))
            | some (.file _) => fileVisit stc root (p ++ [n])
            | some .dir => walkRen f stc root (p ++ [n])) (.ok stc) = .ok st2 →
        WF stc.fs → ready root stc.fs → stc.fs.lookup root = some .dir →
        WF st2.fs ∧ st2.log = stc.log ∧ st2.dirs = stc.dirs ∧ st2.rng = stc.rng ∧
        (∃ tr, st2.trace = stc.trace ++ tr ∧ ∀ e ∈ tr, ∃ d, e = .ensureSentinel d) ∧
        (∀ q v, stc.fs.lookup q = some v → st2.fs.lookup q = some v) ∧
        (∀ q, stc.fs.lookup q = none → q ∈ st2.fs.keys →
          q.getLastD "" = siadirName) := by
      intro names
      induction names with
      | nil =>
        intro stc st2 heq hwfc hreadyc hrootc
        obtain rfl := Except.ok.inj heq
        exact ⟨hwfc, rfl, rfl, rfl, ⟨[], by simp, by simp⟩, fun q v hv => hv,
          fun q hq hq2 => absurd hq2 (FS.lookup_eq_none_iff.mp hq)⟩
      | cons n rest ihn =>
        intro stc st2 heq hwfc hreadyc hrootc
        rw [List.foldl_cons] at heq
        dsimp only at heq
        cases hlk : stc.fs.lookup (p ++ [n]) with
        | none =>
          rw [hlk] at heq
          rw [foldl_error_absorb _ (fun e a => rfl)] at heq
          exact absurd heq (by simp)
        | some node =>
          cases node with
          | file d2 =>
            rw [hlk] at heq
            dsimp only at heq
            cases hfv : fileVisit stc root (p ++ [n]) with
            | error e =>
              rw [hfv] at heq
              rw [foldl_error_absorb _ (fun e a => rfl)] at heq
              exact absurd heq (by simp)
            | ok std =>
              rw [hfv] at heq
              obtain ⟨hwfd, hlog1, hdirs1, hrng1, ⟨tr1, htr1, hmv1⟩, hpres1, hadds1⟩ :=
                fileVisit_noop hfv hwfc hreadyc hlk
                  (hrpre.trans (List.prefix_append p [n]))
              obtain ⟨hwf2, hlog2, hdirs2, hrng2, ⟨tr2, htr2, hmv2⟩, hpres2, hadds2⟩ :=
                ihn std st2 heq hwfd (ready_pres hwfd hreadyc hpres1 hadds1)
                  (hpres1 root .dir hrootc)
              refine ⟨hwf2, hlog2.trans hlog1, hdirs2.trans hdirs1, hrng2.trans hrng1,
                ⟨tr1 ++ tr2, ?_, ?_⟩, fun q v hv => hpres2 q v (hpres1 q v hv), ?_⟩
              · rw [htr2, htr1, List.append_assoc]
              · intro e he
                rcases List.mem_append.mp he with he | he
                · exact hmv1 e he
                · exact hmv2 e he
              · intro q hq hq2
                by_cases hqd : q ∈ std.fs.keys
                · exact hadds1 q hq hqd
                · exact hadds2 q (FS.lookup_eq_none_iff.mpr hqd) hq2
          | dir =>
            rw [hlk] at heq
            dsimp only at heq
            cases hw : walkRen f stc root (p ++ [n]) with
            | error e =>
              rw [hw] at heq
              rw [foldl_error_absorb _ (fun e a => rfl)] at heq
              exact absurd heq (by simp)
            | ok std =>
              rw [hw] at heq
              obtain ⟨hwfd, hlog1, hdirs1, hrng1, ⟨tr1, htr1, hmv1⟩, hpres1, hadds1⟩ :=
                ihf stc root (p ++ [n]) std hw hwfc hreadyc hrootc
                  (hrpre.trans (List.prefix_append p [n]))
              obtain ⟨hwf2, hlog2, hdirs2, hrng2, ⟨tr2, htr2, hmv2⟩, hpres2, hadds2⟩ :=
                ihn std st2 heq hwfd (ready_pres hwfd hreadyc hpres1 hadds1)
                  (hpres1 root .dir hrootc)
              refine ⟨hwf2, hlog2.trans hlog1, hdirs2.trans hdirs1, hrng2.trans hrng1,
                ⟨tr1 ++ tr2, ?_, ?_⟩, fun q v hv => hpres2 q v (hpres1 q v hv), ?_⟩
              · rw [htr2, htr1, List.append_assoc]
              · intro e he
                rcases List.mem_append.mp he with he | he
                · exact hmv1 e he
                · exact hmv2 e he
              · intro q hq hq2
                by_cases hqd : q ∈ std.fs.keys
                · exact hadds1 q hq hqd
                · exact hadds2 q (FS.lookup_eq_none_iff.mpr hqd) hq2
    rw [walkRen] at h
    cases hrd : readDir st.fs p with
    | error e =>
      rw [hrd] at h
      obtain rfl := Except.ok.inj h
      exact ⟨hwf, rfl, rfl, rfl, ⟨[], by simp, by simp⟩, fun q v hv => hv,
        fun q hq hq2 => absurd hq2 (FS.lookup_eq_none_iff.mp hq)⟩
    | ok names =>
      rw [hrd] at h
      dsimp only at h
      exact hfold names st st' h hwf hready hroot

/-- On a ready tree, a whole renameAll run only checks sentinels. -/
theorem renameAll_noop {st st' : RState} {root : GoPath}
    (h : renameAll st root = .ok st') (hwf : WF st.fs)
    (hready : ready root st.fs) (hroot : st.fs.lookup root = some .dir) :
    WF st'.fs ∧ st'.log = st.log ∧ st'.dirs = st.dirs ∧ st'.rng = st.rng ∧
    (∃ tr, st'.trace = st.trace ++ tr ∧ ∀ e ∈ tr, ∃ d, e = .ensureSentinel d) ∧
    (∀ q v, st.fs.lookup q = some v → st'.fs.lookup q = some v) ∧
    (∀ q, st.fs.lookup q = none → q ∈ st'.fs.keys → q.getLastD "" = siadirName) := by
  rw [renameAll, hroot] at h
  exact walkRen_noop (fsHeight st.fs + 5) st root root st' h hwf hready hroot
    List.prefix_rfl

/-! Decidability for the run-level predicates, and concrete states for
the rename-walker witnesses. -/

instance : DecidableEq (Except FsErr RState) := fun a b =>
  match a, b with
  | .ok x, .ok y =>
    if h : x = y then isTrue (by rw [h]) else isFalse (by simp [h])
  | .error e, .error e2 =>
    if h : e = e2 then isTrue (by rw [h]) else isFalse (by simp [h])
  | .ok _, .error _ => isFalse (by simp)
  | .error _, .ok _ => isFalse (by simp)

instance (root : GoPath) (st : RState) : Decidable (streamOK root st) := by
  unfold streamOK
  infer_instance

instance (root : GoPath) (fs : FS) : Decidable (noDoubleSia root fs) := by
  unfold noDoubleSia
  infer_instance

/-- A 16-byte block for the witness runs. -/
def rBlock : List Nat := [0, 1, 2, 3, 4, 5, 6, 7, 8, 9, 10, 11, 12, 13, 14, 15]

/-- A tree with one invalid-placed primary and no companion. -/
def W0 : RState :=
  ⟨⟨[(["r"], .dir), (["r", "a.sia"], .file (.bytes [7]))]⟩, [], [], [], 0, [rBlock]⟩

/-- The state after the first run over W0. -/
def W1 : RState :=
  ⟨⟨[(["r"], .dir), (["r", "00"], .dir), (["r", "00", "01"], .dir),
     (["r", "00", "01", "02"], .dir),
     (["r", "00", "01", "02", ".siadir"], .file (.meta ⟨0, 0, ()⟩)),
     (["r", "00", "01", "02", "030405060708090a0b0c0d0e0f.sia"], .file (.bytes [7]))]⟩,
   [["r", "00", "01", "02"]], [["r", "00", "01", "02"]],
   [.logLine ["r", "00", "01", "02"], .mkdirAll ["r", "00", "01", "02"],
    .mkSentinel ["r", "00", "01", "02"],
    .move ["r", "a.sia"] ["r", "00", "01", "02", "030405060708090a0b0c0d0e0f.sia"]],
   1, []⟩

/-- The state after the second run over W0: one sentinel re-check. -/
def W2 : RState :=
  ⟨⟨[(["r"], .dir), (["r", "00"], .dir), (["r", "00", "01"], .dir),
     (["r", "00", "01", "02"], .dir),
     (["r", "00", "01", "02", ".siadir"], .file (.meta ⟨0, 0, ()⟩)),
     (["r", "00", "01", "02", "030405060708090a0b0c0d0e0f.sia"], .file (.bytes [7]))]⟩,
   [["r", "00", "01", "02"]], [["r", "00", "01", "02"]],
   [.logLine ["r", "00", "01", "02"], .mkdirAll ["r", "00", "01", "02"],
    .mkSentinel ["r", "00", "01", "02"],
    .move ["r", "a.sia"] ["r", "00", "01", "02", "030405060708090a0b0c0d0e0f.sia"],
    .ensureSentinel ["r", "00", "01", "02"]],
   2, []⟩

/-- A tree with one invalid-placed primary and its companion. -/
def W5st : RState :=
  ⟨⟨[(["r"], .dir), (["r", "x-extended.sia"], .file (.bytes [2])),
     (["r", "x.sia"], .file (.bytes [1]))]⟩, [], [], [], 0, [rBlock]⟩

/-- The state after one run over W5st: both files relocated. -/
def W5res : RState :=
  ⟨⟨[(["r"], .dir), (["r", "00"], .dir), (["r", "00", "01"], .dir),
     (["r", "00", "01", "02"], .dir),
     (["r", "00", "01", "02", ".siadir"], .file (.meta ⟨0, 0, ()⟩)),
     (["r", "00", "01", "02", "030405060708090a0b0c0d0e0f.sia"], .file (.bytes [1])),
     (["r", "00", "01", "02", "030405060708090a0b0c0d0e0f-extended.sia"],
      .file (.bytes [2]))]⟩,
   [["r", "00", "01", "02"]], [["r", "00", "01", "02"]],
   [.logLine ["r", "00", "01", "02"], .mkdirAll ["r", "00", "01", "02"],
    .mkSentinel ["r", "00", "01", "02"],
    .move ["r", "x.sia"] ["r", "00", "01", "02", "030405060708090a0b0c0d0e0f.sia"],
    .move ["r", "x-extended.sia"]
      ["r", "00", "01", "02", "030405060708090a0b0c0d0e0f-extended.sia"]],
   1, []⟩

/-- A tree whose primary name carries a double extension, so the
specification's companion ("x.sia-extended.sia") differs from the
code's double-trimmed one ("x-extended.sia"). -/
def CXst : RState :=
  ⟨⟨[(["r"], .dir), (["r", "x.sia-extended.sia"], .file (.bytes [2])),
     (["r", "x.sia.sia"], .file (.bytes [1]))]⟩, [], [], [], 0, [rBlock]⟩

/-- The state after one run over CXst: the primary moved, the
specification's companion stayed behind. -/
def CXres : RState :=
  ⟨⟨[(["r"], .dir), (["r", "x.sia-extended.sia"], .file (.bytes [2])),
     (["r", "00"], .dir), (["r", "00", "01"], .dir),
     (["r", "00", "01", "02"], .dir),
     (["r", "00", "01", "02", ".siadir"], .file (.meta ⟨0, 0, ()⟩)),
     (["r", "00", "01", "02", "030405060708090a0b0c0d0e0f.sia"], .file (.bytes [1]))]⟩,
   [["r", "00", "01", "02"]], [["r", "00", "01", "02"]],
   [.logLine ["r", "00", "01", "02"], .mkdirAll ["r", "00", "01", "02"],
    .mkSentinel ["r", "00", "01", "02"],
    .move ["r", "x.sia.sia"]
      ["r", "00", "01", "02", "030405060708090a0b0c0d0e0f.sia"]],
   1, []⟩

/-! Claim C4: idempotence of the rename walk. -/

/-- Claim C4: running renameAll a second time immediately after a
first completed run (over well-formed input with a fresh
pairwise-distinct stream and no double-extension names) moves zero
files and appends zero lines to the log sink — the whole trace the
second run appends consists of re-run sentinel checks of validly
placed files — and leaves every file's contents unchanged. -/
theorem claim_C4 {st0 st1 st2 : RState} {root : GoPath}
    (h1 : renameAll st0 root = .ok st1) (h2 : renameAll st1 root = .ok st2)
    (hwf : WF st0.fs) (hroot : st0.fs.lookup root = some .dir)
    (hrg : ∀ b ∈ st0.rng, b.length = 16)
    (hstream : streamOK root st0) (hnds : noDoubleSia root st0.fs) :
    (∃ tr, st2.trace = st1.trace ++ tr ∧ ∀ e ∈ tr, ∃ d, e = .ensureSentinel d) ∧
    st2.log = st1.log ∧
    (∀ q c, st1.fs.lookup q = some (.file c) → st2.fs.lookup q = some (.file c)) := by
  obtain ⟨rf1, _, _⟩ := renameAll_facts h1 hwf hroot hrg
  have hready1 := renameAll_complete h1 hwf hroot hrg hstream hnds
  obtain ⟨_, hlog, _, _, htr, hpres, _⟩ :=
    renameAll_noop h2 rf1.wf hready1 (rf1.dirPres root hroot)
  exact ⟨htr, hlog, fun q c hv => hpres q _ hv⟩

theorem claim_C4_witness :
    renameAll W0 ["r"] = .ok W1 ∧ renameAll W1 ["r"] = .ok W2 ∧
    ((∃ tr, W2.trace = W1.trace ++ tr ∧ ∀ e ∈ tr, ∃ d, e = .ensureSentinel d) ∧
     W2.log = W1.log ∧
     (∀ q c, W1.fs.lookup q = some (.file c) → W2.fs.lookup q = some (.file c))) :=
  have h1 : renameAll W0 ["r"] = .ok W1 := by decide
  have h2 : renameAll W1 ["r"] = .ok W2 := by decide
  ⟨h1, h2, claim_C4 h1 h2 ⟨by decide, by decide, by decide, by decide⟩
    (by decide) (by decide) (by decide) (by decide)⟩

/-! Claim C5: file-pair relocation. -/

/-- The companion path as the specification's words define it: same
directory, base name (the primary name minus its extension) plus the
companion-suffix token plus the primary extension. -/
def specCompanionOld (p : GoPath) : GoPath :=
  p.dropLast ++ [String.mk (trimSuffixChars (p.getLastD "").data siaExt
    ++ extendedTok ++ siaExt)]

/-- Claim C5 counterexample: on a primary named "x.sia.sia", whose
specification companion "x.sia-extended.sia" exists, a successful
rename pass leaves that companion at the old path and puts nothing at
the new companion path — the code's line 267 trims the ".sia" suffix
twice, so it looks for "x-extended.sia" instead.  This refutes the
claim as stated. -/
theorem claim_C5_counterexample :
    CXst.fs.lookup ["r", "x.sia.sia"] = some (.file (.bytes [1])) ∧
    CXst.fs.lookup (specCompanionOld ["r", "x.sia.sia"]) = some (.file (.bytes [2])) ∧
    siaFileB ["r", "x.sia.sia"] = true ∧
    validAtB ["r"] ["r", "x.sia.sia"] = false ∧
    extendedStemB ["r", "x.sia.sia"] = false ∧
    renameAll CXst ["r"] = .ok CXres ∧
    CXres.fs.lookup ["r", "00", "01", "02", "030405060708090a0b0c0d0e0f.sia"]
      = some (.file (.bytes [1])) ∧
    specCompanionOld ["r", "x.sia.sia"] ∈ CXres.fs.keys ∧
    specCompanionOld ["r", "00", "01", "02", "030405060708090a0b0c0d0e0f.sia"]
      ∉ CXres.fs.keys := by
  decide

/-- Claim C5 (amended: additionally requires that no sia file's stem
itself ends in ".sia" — otherwise the code's double TrimSuffix of line
267 derives a different companion, see claim_C5_counterexample — and a
fresh pairwise-distinct random stream): for every primary at a
non-conforming path, a successful rename pass removes the primary and
its companion path; some drawn block's generated path holds the
primary's contents; if the companion existed its contents sit at the
new companion path; and if no companion existed none appears, the
absence being no error. -/
theorem claim_C5 {st st' : RState} {root p : GoPath} {c : FData}
    (h : renameAll st root = .ok st') (hwf : WF st.fs)
    (hroot : st.fs.lookup root = some .dir)
    (hrg : ∀ b ∈ st.rng, b.length = 16)
    (hstream : streamOK root st) (hnds : noDoubleSia root st.fs)
    (hp : st.fs.lookup p = some (.file c)) (hpre : root <+: p) (hne : p ≠ root)
    (hsia : siaFileB p = true) (hinv : validAtB root p = false)
    (hext : extendedStemB p = false) :
    p ∉ st'.fs.keys ∧ specCompanionOld p ∉ st'.fs.keys ∧
    ∃ b ∈ st.rng, st'.fs.lookup (targetOf root b) = some (.file c) ∧
      (∀ cc, st.fs.lookup (specCompanionOld p) = some (.file cc) →
        st'.fs.lookup (specCompanionOld (targetOf root b)) = some (.file cc)) ∧
      (specCompanionOld p ∉ st.fs.keys →
        specCompanionOld (targetOf root b) ∉ st'.fs.keys) := by
  obtain ⟨rf, hrem, hmv⟩ := renameAll_facts h hwf hroot hrg
  have hco_eq : companionOld p = specCompanionOld p := by
    have hnsuf := hnds p (FS.lookup_mem_keys hp) hpre hne hsia
    rw [companionOld, specCompanionOld, trimSuffix_eq_of_not_suffix hnsuf]
  have hcn_eq : ∀ q : GoPath, specCompanionOld q = companionNew q := fun q => rfl
  obtain ⟨hq, hco, b, hbmem, hdist, htgt, hcomp, habs⟩ :=
    hmv hstream hnds p c hp hpre hne hsia hinv hext
  refine ⟨hq, ?_, b, hbmem, htgt, ?_, ?_⟩
  · rw [← hco_eq]
    exact hco
  · intro cc hcc
    rw [hcn_eq]
    refine hcomp cc ?_
    rw [hco_eq]
    exact hcc
  · intro hnc
    rw [hcn_eq]
    refine habs ?_
    rw [hco_eq]
    exact hnc

theorem claim_C5_witness :
    renameAll W5st ["r"] = .ok W5res ∧
    (["r", "x.sia"] ∉ W5res.fs.keys ∧
     specCompanionOld ["r", "x.sia"] ∉ W5res.fs.keys ∧
     ∃ b ∈ W5st.rng,
       W5res.fs.lookup (targetOf ["r"] b) = some (.file (.bytes [1])) ∧
       (∀ cc, W5st.fs.lookup (specCompanionOld ["r", "x.sia"]) = some (.file cc) →
         W5res.fs.lookup (specCompanionOld (targetOf ["r"] b)) = some (.file cc)) ∧
       (specCompanionOld ["r", "x.sia"] ∉ W5st.fs.keys →
         specCompanionOld (targetOf ["r"] b) ∉ W5res.fs.keys)) :=
  have h : renameAll W5st ["r"] = .ok W5res := by decide
  ⟨h, claim_C5 h ⟨by decide, by decide, by decide, by decide⟩ (by decide) (by decide)
    (by decide) (by decide) (by decide) (by decide) (by decide) (by decide) (by decide)
    (by decide)⟩

/-! Claim C8: per-run dedup of the three directory actions. -/

/-- Claim C8: within a single successful renameAll run, for every
destination shard directory not already in the Destination-Directory
Set, the log-sink line, the MkdirAll, and the sentinel creation are
each performed exactly once if the directory enters the set during the
run and zero times otherwise — never more, however many files are
relocated into it. -/
theorem claim_C8 {st st' : RState} {root : GoPath}
    (h : renameAll st root = .ok st') (hwf : WF st.fs)
    (hroot : st.fs.lookup root = some .dir)
    (hrg : ∀ b ∈ st.rng, b.length = 16) :
    ∀ D, D ∉ st.dirs →
      st'.trace.count (.logLine D)
        = st.trace.count (.logLine D) + (if D ∈ st'.dirs then 1 else 0) ∧
      st'.trace.count (.mkdirAll D)
        = st.trace.count (.mkdirAll D) + (if D ∈ st'.dirs then 1 else 0) ∧
      st'.trace.count (.mkSentinel D)
        = st.trace.count (.mkSentinel D) + (if D ∈ st'.dirs then 1 else 0) ∧
      st'.log.count D = st.log.count D + (if D ∈ st'.dirs then 1 else 0) := by
  obtain ⟨rf, _, _⟩ := renameAll_facts h hwf hroot hrg
  intro D hD
  obtain ⟨c1, c2, c3, c4⟩ := rf.counts D
  have hδ : dedupDelta st st' D = if D ∈ st'.dirs then 1 else 0 := by
    rw [dedupDelta, if_neg hD]
  rw [hδ] at c1 c2 c3 c4
  exact ⟨c1, c2, c3, c4⟩

theorem claim_C8_witness :
    renameAll W0 ["r"] = .ok W1 ∧
    (W1.trace.count (.logLine ["r", "00", "01", "02"])
       = W0.trace.count (.logLine ["r", "00", "01", "02"])
         + (if ["r", "00", "01", "02"] ∈ W1.dirs then 1 else 0) ∧
     W1.trace.count (.mkdirAll ["r", "00", "01", "02"])
       = W0.trace.count (.mkdirAll ["r", "00", "01", "02"])
         + (if ["r", "00", "01", "02"] ∈ W1.dirs then 1 else 0) ∧
     W1.trace.count (.mkSentinel ["r", "00", "01", "02"])
       = W0.trace.count (.mkSentinel ["r", "00", "01", "02"])
         + (if ["r", "00", "01", "02"] ∈ W1.dirs then 1 else 0) ∧
     W1.log.count ["r", "00", "01", "02"]
       = W0.log.count ["r", "00", "01", "02"]
         + (if ["r", "00", "01", "02"] ∈ W1.dirs then 1 else 0)) :=
  have h : renameAll W0 ["r"] = .ok W1 := by decide
  ⟨h, claim_C8 h ⟨by decide, by decide, by decide, by decide⟩ (by decide) (by decide)
    ["r", "00", "01", "02"] (by decide)⟩

/-! Claim C10: the Destination-Directory Set is process-global. -/

/-- Claim C10: the dirs map is a process-wide global that renameAll
never clears: across two successive successful runs in one process,
any destination directory already in the set after the first run is
still in it after the second, and the second run performs none of the
three per-directory actions for it — the exactly-once deduplication
holds per process, not per run. -/
theorem claim_C10 {st0 st1 st2 : RState} {root : GoPath}
    (h1 : renameAll st0 root = .ok st1) (h2 : renameAll st1 root = .ok st2)
    (hwf : WF st0.fs) (hroot : st0.fs.lookup root = some .dir)
    (hrg : ∀ b ∈ st0.rng, b.length = 16) :
    ∀ D, D ∈ st1.dirs →
      D ∈ st2.dirs ∧
      st2.trace.count (.logLine D) = st1.trace.count (.logLine D) ∧
      st2.trace.count (.mkdirAll D) = st1.trace.count (.mkdirAll D) ∧
      st2.trace.count (.mkSentinel D) = st1.trace.count (.mkSentinel D) ∧
      st2.log.count D = st1.log.count D := by
  obtain ⟨rf1, _, _⟩ := renameAll_facts h1 hwf hroot hrg
  obtain ⟨rf2, _, _⟩ := renameAll_facts h2 rf1.wf (rf1.dirPres root hroot)
    (fun b hb => hrg b (rf1.rngSuf.subset hb))
  intro D hD
  obtain ⟨c1, c2, c3, c4⟩ := rf2.counts D
  have hδ : dedupDelta st1 st2 D = 0 := by
    rw [dedupDelta, if_pos hD]
  rw [hδ] at c1 c2 c3 c4
  simp only [Nat.add_zero] at c1 c2 c3 c4
  exact ⟨rf2.dirsSub hD, c1, c2, c3, c4⟩

theorem claim_C10_witness :
    renameAll W0 ["r"] = .ok W1 ∧ renameAll W1 ["r"] = .ok W2 ∧
    (["r", "00", "01", "02"] ∈ W2.dirs ∧
     W2.trace.count (.logLine ["r", "00", "01", "02"])
       = W1.trace.count (.logLine ["r", "00", "01", "02"]) ∧
     W2.trace.count (.mkdirAll ["r", "00", "01", "02"])
       = W1.trace.count (.mkdirAll ["r", "00", "01", "02"]) ∧
     W2.trace.count (.mkSentinel ["r", "00", "01", "02"])
       = W1.trace.count (.mkSentinel ["r", "00", "01", "02"]) ∧
     W2.log.count ["r", "00", "01", "02"]
       = W1.log.count ["r", "00", "01", "02"]) :=
  have h1 : renameAll W0 ["r"] = .ok W1 := by decide
  have h2 : renameAll W1 ["r"] = .ok W2 := by decide
  ⟨h1, h2, claim_C10 h1 h2 ⟨by decide, by decide, by decide, by decide⟩
    (by decide) (by decide) ["r", "00", "01", "02"] (by decide)⟩

end PortalRename
